import Mathlib

/-!
# arnlike: matching an ARN against an ArnLike pattern

A shallow embedding of `arnlike.go` (the regexp based implementation whose
behaviour `arnlike_test.go` pins down) together with the parts of the Go
standard library it calls: `strings.HasPrefix`, `strings.SplitN`,
`utf8.DecodeRuneInString`, `regexp.Compile` and `(*Regexp).MatchString`.
The last part of the definitions embeds `tidyPatternSections` of `main.go`, the
glob based variant of the same function.

Modelling decisions.

* A Go `string` is an arbitrary sequence of bytes, so it is a `List (Fin 256)`;
  nothing forces it to be valid UTF-8.
* A Go `error` made by `fmt.Errorf` is kept as a value of an inductive type
  with a function `Error` rendering its message.
* A run-time panic (index out of range) is the result `none`; every function
  that indexes a slice returns an `Option`.
* `regexp` is modelled on the fragment of the syntax that `quoteMeta` can
  produce: literals, escaped punctuation, `.`, the postfix operators `*` and
  `?`, and the anchors `^` and `$`, with the default (Perl) flags: `.` does not
  match a newline, `^` and `$` match only at the two ends of the text, the text
  is read rune by rune and every byte of an invalid UTF-8 sequence reads as
  U+FFFD, and a pattern that is not valid UTF-8 does not compile. Any other
  construct is answered with the code `unsupported`. The limits of the parser
  (`maxHeight`, `maxSize`, `maxRunes`) are modelled, with the counters and the
  free list they depend on, so a sanitized section that is too large does not
  compile either.
-/

namespace Arnlike

/-! ## Strings -/

/-- A byte. -/
abbrev Byte := Fin 256

/-- A Go string: a sequence of bytes. -/
abbrev GoString := List Byte

/-- The UTF-8 encoding of one character, used to write string constants. -/
def encodeChar (c : Char) : GoString :=
  let n := c.toNat
  if n < 0x80 then [Fin.ofNat n]
  else if n < 0x800 then [Fin.ofNat (0xC0 + n / 64), Fin.ofNat (0x80 + n % 64)]
  else if n < 0x10000 then
    [Fin.ofNat (0xE0 + n / 4096), Fin.ofNat (0x80 + n / 64 % 64), Fin.ofNat (0x80 + n % 64)]
  else
    [Fin.ofNat (0xF0 + n / 262144), Fin.ofNat (0x80 + n / 4096 % 64),
      Fin.ofNat (0x80 + n / 64 % 64), Fin.ofNat (0x80 + n % 64)]

/-- The bytes of a string constant of the source. -/
def str (s : String) : GoString := s.toList.flatMap encodeChar

/-- Go `strings.HasPrefix`: `len(s) >= len(pre) && s[:len(pre)] == pre`. -/
def strings.HasPrefix (s pre : GoString) : Bool :=
  decide (pre.length ≤ s.length) && s.take pre.length == pre

/-- Go `strings.IndexByte`: the index of the first `c` in `s`, `none` for -1. -/
def strings.IndexByte : GoString → Byte → Option Nat
  | [], _ => none
  | b :: rest, c => if b = c then some 0 else (strings.IndexByte rest c).map (· + 1)

/-- The loop of Go `strings.genSplit` for a one-byte separator; the first
argument is the number of cuts still allowed (`n - 1 - i`). -/
def strings.genSplit : Nat → GoString → Byte → List GoString
  | 0, s, _ => [s]
  | k + 1, s, sep =>
    match strings.IndexByte s sep with
    | none => [s]
    | some m => s.take m :: strings.genSplit k (s.drop (m + 1)) sep

/-- Go `strings.SplitN` for a one-byte separator and `n ≥ 0`: at most `n`
substrings, the last one being the unsplit remainder. -/
def strings.SplitN (s : GoString) (sep : Byte) (n : Nat) : List GoString :=
  if n = 0 then [] else strings.genSplit (n - 1) s sep

/-! ## Constants of `arnlike.go` -/

/-- The delimiter `":"`. -/
def arnDelimiter : Byte := 58

/-- The number of sections of an ARN. -/
def arnSectionsExpected : Nat := 6

/-- The constant `"arn:"`. -/
def arnPrefix : GoString := [97, 114, 110, 58]

/-- The two errors of `parse`. -/
inductive ParseError where
  | invalidPrefix
  | invalidSections
  deriving DecidableEq, Repr

/-- The message of a `parse` error. -/
def ParseError.Error : ParseError → GoString
  | .invalidPrefix => str "invalid prefix"
  | .invalidSections => str "not enough sections"

/-- The function `parse` of `arnlike.go`. -/
def parse (input : GoString) : Except ParseError (List GoString) :=
  if !strings.HasPrefix input arnPrefix then .error .invalidPrefix
  else
    let arnSections := strings.SplitN input arnDelimiter arnSectionsExpected
    if arnSections.length != arnSectionsExpected then .error .invalidSections
    else .ok arnSections

/-! ## The escape bitmap and `quoteMeta` -/

/-- The bytes of the string constant of `init`: backslash `.+()|[]{}^$`. -/
def specialList : List Byte := [92, 46, 43, 40, 41, 124, 91, 93, 123, 125, 94, 36]

/-- The body of `init`: `specialBytes[b%16] |= 1 << (b / 16)` on a byte table. -/
def initStep (table : List Nat) (b : Byte) : List Nat :=
  table.set (b.val % 16) ((table.getD (b.val % 16) 0 ||| (1 <<< (b.val / 16)) % 256) % 256)

/-- The table `specialBytes` once `init` has run over the zeroed array. -/
def specialBytes : List Nat := specialList.foldl initStep (List.replicate 16 0)

/-- The function `special`: `b < utf8.RuneSelf && specialBytes[b%16]&(1<<(b/16)) != 0`. -/
def special (b : Byte) : Bool :=
  decide (b.val < 128) &&
    (specialBytes.getD (b.val % 16) 0 &&& ((1 <<< (b.val / 16)) % 256)) != 0

/-- The wildcard test `s[i] == '*' || s[i] == '?'`. -/
def isWildcard (b : Byte) : Bool := b == 42 || b == 63

/-- The first loop of `quoteMeta`: the index `i` at which it stops, counted
from the start of the bytes still to scan. -/
def scanMeta : GoString → Nat
  | [] => 0
  | c :: rest => if special c || isWildcard c then 0 else scanMeta rest + 1

/-- The assignment `b[j] = x`; `none` is the panic on an index out of range. -/
def writeAt (b : List Byte) (j : Nat) (x : Byte) : Option (List Byte) :=
  if j < b.length then some (b.set j x) else none

/-- Go `copy(dst, src)`: copies `min(len(dst), len(src))` bytes. -/
def copy (dst src : List Byte) : List Byte :=
  src.take dst.length ++ dst.drop src.length

/-- The second loop of `quoteMeta` over the bytes `s[i:]`, with the buffer `b`
and the write index `j`. -/
def quoteLoop : GoString → List Byte → Nat → Option (List Byte × Nat)
  | [], b, j => some (b, j)
  | c :: rest, b, j =>
    if special c then
      (writeAt b j 92).bind fun b1 =>
        (writeAt b1 (j + 1) c).bind fun b2 => quoteLoop rest b2 (j + 2)
    else if isWildcard c then
      (writeAt b j 46).bind fun b1 =>
        (writeAt b1 (j + 1) c).bind fun b2 => quoteLoop rest b2 (j + 2)
    else
      (writeAt b j c).bind fun b1 => quoteLoop rest b1 (j + 1)

/-- The function `quoteMeta`; `none` would be a panic. -/
def quoteMeta (s : GoString) : Option GoString :=
  let i := scanMeta s
  if i ≥ s.length then some s
  else
    let b := copy (List.replicate (2 * s.length - i) 0) (s.take i)
    (quoteLoop (s.drop i) b i).bind fun r =>
      if r.2 ≤ r.1.length then some (r.1.take r.2) else none

/-- The function `preparePatternSections`: every section becomes
`^` followed by its quoted form followed by `$`. -/
def preparePatternSections : List GoString → Option (List GoString)
  | [] => some []
  | sec :: rest =>
    (quoteMeta sec).bind fun quotedString =>
      (preparePatternSections rest).map fun tail => ((94 : Byte) :: quotedString ++ [36]) :: tail

/-! ## UTF-8 decoding (Go `unicode/utf8`) -/

/-- The rune U+FFFD that stands for an invalid byte. -/
def utf8.RuneError : Nat := 0xFFFD

/-- The lower bound of the second byte of a sequence that starts with `s0`
(the field `lo` of the library table `acceptRanges`). -/
def utf8.acceptLo (s0 : Byte) : Nat :=
  if s0.val = 0xE0 then 0xA0 else if s0.val = 0xF0 then 0x90 else 0x80

/-- The upper bound of the second byte of a sequence that starts with `s0`
(the field `hi` of the library table `acceptRanges`). -/
def utf8.acceptHi (s0 : Byte) : Nat :=
  if s0.val = 0xED then 0x9F else if s0.val = 0xF4 then 0x8F else 0xBF

/-- Go `utf8.DecodeRuneInString`: the first rune of `s` and its width in bytes.
An invalid or truncated encoding gives `(RuneError, 1)`; a truncated input
(`n < sz` in the library) is the empty-tail case of each `match`. The masks
and shifts of the library are written with `%` and `*`:
`rune(s0 & mask2) << 6 | rune(s1 & maskx)` is `s0 % 32 * 64 + s1 % 64`. -/
def utf8.DecodeRuneInString (s : GoString) : Nat × Nat :=
  match s with
  | [] => (utf8.RuneError, 0)
  | s0 :: t =>
    if s0.val < 0x80 then (s0.val, 1)
    else if s0.val < 0xC2 ∨ 0xF4 < s0.val then (utf8.RuneError, 1)
    else
      match t with
      | [] => (utf8.RuneError, 1)
      | s1 :: t1 =>
        if s1.val < utf8.acceptLo s0 ∨ utf8.acceptHi s0 < s1.val then (utf8.RuneError, 1)
        else if s0.val < 0xE0 then (s0.val % 32 * 64 + s1.val % 64, 2)
        else
          match t1 with
          | [] => (utf8.RuneError, 1)
          | s2 :: t2 =>
            if s2.val < 0x80 ∨ 0xBF < s2.val then (utf8.RuneError, 1)
            else if s0.val < 0xF0 then
              (s0.val % 16 * 4096 + s1.val % 64 * 64 + s2.val % 64, 3)
            else
              match t2 with
              | [] => (utf8.RuneError, 1)
              | s3 :: _ =>
                if s3.val < 0x80 ∨ 0xBF < s3.val then (utf8.RuneError, 1)
                else
                  (s0.val % 8 * 262144 + s1.val % 64 * 4096 + s2.val % 64 * 64 + s3.val % 64, 4)

/-- The runes of `s` with their widths, read as Go reads a string: decode at
the current position, advance by the width. The first argument bounds the
number of iterations; `s.length` is always enough. -/
def utf8.decodeLoop : Nat → GoString → List (Nat × Nat)
  | 0, _ => []
  | _ + 1, [] => []
  | fuel + 1, c :: t =>
    let d := utf8.DecodeRuneInString (c :: t)
    d :: utf8.decodeLoop fuel ((c :: t).drop d.2)

/-- The runes of `s` with their widths. -/
def utf8.decode (s : GoString) : List (Nat × Nat) := utf8.decodeLoop s.length s

/-- The runes of `s`; every byte of an invalid sequence reads as U+FFFD. -/
def utf8.runes (s : GoString) : List Nat := (utf8.decode s).map (·.1)

/-- Go `utf8.ValidString`: no position decodes to `(RuneError, 1)`. -/
def utf8.ValidString (s : GoString) : Bool :=
  (utf8.decode s).all fun d => !(d.1 == utf8.RuneError && d.2 == 1)

/-! ## Regular expressions (Go `regexp`, the fragment `quoteMeta` produces) -/

/-- The error codes of `regexp/syntax` the fragment can meet; `unsupported`
marks a construct outside the fragment. -/
inductive regexp.ErrorCode where
  | invalidUTF8
  | trailingBackslash
  | missingRepeatArgument
  | large
  | unsupported
  deriving DecidableEq, Repr

/-- A `syntax.Error`: the code and the offending text. -/
structure regexp.SyntaxError where
  Code : regexp.ErrorCode
  Expr : GoString
  deriving DecidableEq, Repr

/-- The text of an error code. -/
def regexp.ErrorCode.String : regexp.ErrorCode → GoString
  | .invalidUTF8 => str "invalid UTF-8"
  | .trailingBackslash => str "trailing backslash at end of expression"
  | .missingRepeatArgument => str "missing argument to repetition operator"
  | .large => str "expression too large"
  | .unsupported => str "outside the modelled fragment"

/-- The message of a `syntax.Error`. -/
def regexp.SyntaxError.Error (e : regexp.SyntaxError) : GoString :=
  str "error parsing regexp: " ++ e.Code.String ++ str ": " ++ [96] ++ e.Expr ++ [96]

/-- What consumes exactly one rune. -/
inductive regexp.Atom where
  | literal (r : Nat)
  | anyCharNotNL
  deriving DecidableEq, Repr

/-- One element of a concatenation: an anchor, or an atom taken once
(`x`), any number of times (`x*`) or at most once (`x?`). -/
inductive regexp.Node where
  | beginText
  | endText
  | one (a : regexp.Atom)
  | star (a : regexp.Atom)
  | quest (a : regexp.Atom)
  deriving DecidableEq, Repr

/-- A compiled expression: a concatenation of nodes. -/
abbrev regexp.Regexp := List regexp.Node

/-- ASCII letters and digits. -/
def regexp.isalnum (c : Byte) : Bool :=
  (decide (48 ≤ c.val) && decide (c.val ≤ 57)) || (decide (65 ≤ c.val) && decide (c.val ≤ 90)) ||
    (decide (97 ≤ c.val) && decide (c.val ≤ 122))

/-! ### The limits of the parser

`regexp/syntax` refuses an expression with `expression too large` when the
parse tree is higher than `maxHeight`, when its compiled size would exceed
`maxSize` instructions, or when it holds more than `maxRunes` runes. The
parser counts the `Regexp` structures it allocates (`numRegexp`) and the runes
it pushes (`numRunes`), keeps the structures it gives back on a free list, and
starts to compute sizes only once `numRegexp` has reached `maxSize`. -/

/-- The constant `maxHeight`. -/
def regexp.maxHeight : Nat := 1000

/-- The constant `instSize`: five 64-bit words. -/
def regexp.instSize : Nat := 5 * 8

/-- The constant `maxSize = 128 << 20 / instSize`, that is 3355443. -/
def regexp.maxSize : Nat := 128 * 2 ^ 20 / regexp.instSize

/-- The constant `runeSize`. -/
def regexp.runeSize : Nat := 4

/-- The constant `maxRunes = 128 << 20 / runeSize`, that is 33554432. -/
def regexp.maxRunes : Nat := 128 * 2 ^ 20 / regexp.runeSize

/-- What `calcSize` gives for a node: `2 +` the size of `x` for `x*`, `1 +` the
size of `x` for `x?` (the size of `x`, one rune or `.`, is 1), and 1 for an
anchor, for `.` and for one literal rune. -/
def regexp.Node.calcSize : regexp.Node → Nat
  | .star _ => 2 + 1
  | .quest _ => 1 + 1
  | _ => 1

/-- What `calcHeight` gives for a node: 2 for `x*` and `x?`, whose argument is
a leaf, and 1 for a leaf. -/
def regexp.Node.calcHeight : regexp.Node → Nat
  | .star _ => 1 + 1
  | .quest _ => 1 + 1
  | _ => 1

/-- One `Regexp` of the parse stack. A literal string is one `Regexp`
(`OpLiteral`) whatever the number of its runes, so it stands for several nodes;
`size` is its entry in the map `p.size`, when it has one. -/
structure regexp.StackItem where
  nodes : List regexp.Node
  isLiteral : Bool
  size : Option Nat
  deriving DecidableEq, Repr

/-- The length of `re.Rune`: the runes of a literal, none for the others. -/
def regexp.StackItem.runes (re : regexp.StackItem) : Nat :=
  if re.isLiteral then re.nodes.length else 0

/-- The function `calcSize(re, true)` on an item of the stack: the number of
runes of a literal, the size of the node otherwise, and at least 1. -/
def regexp.StackItem.calcSize (re : regexp.StackItem) : Nat :=
  max 1 (re.nodes.map regexp.Node.calcSize).sum

/-- The function `calcHeight(re, true)` on an item of the stack. -/
def regexp.StackItem.calcHeight (re : regexp.StackItem) : Nat :=
  (re.nodes.map regexp.Node.calcHeight).foldl max 1

/-- The state of the parser: the stack (top first), the length of the free
list, the counters `numRegexp` and `numRunes`, and whether the map `p.size`
exists (`p.size != nil`). The map `p.height` is not kept: a height never
changes once computed, so the heights are computed when they are needed. -/
structure regexp.parser where
  stack : List regexp.StackItem
  free : Nat
  numRegexp : Nat
  numRunes : Nat
  sizing : Bool
  deriving DecidableEq, Repr

/-- The method `newRegexp`: take a `Regexp` from the free list, or allocate
one and count it. -/
def regexp.parser.newRegexp (p : regexp.parser) : regexp.parser :=
  match p.free with
  | 0 => { p with numRegexp := p.numRegexp + 1 }
  | f + 1 => { p with free := f }

/-- The method `reuse`: put a `Regexp` on the free list. -/
def regexp.parser.reuse (p : regexp.parser) : regexp.parser :=
  { p with free := p.free + 1 }

/-- The call `maybeConcat(-1, 0)`: when the two items on top of the stack are
literals, the runes of the top one are appended to the one below (whose entry
in `p.size` is left as it is) and the top one goes to the free list. -/
def regexp.parser.maybeConcat (p : regexp.parser) : regexp.parser :=
  match p.stack with
  | re1 :: re2 :: rest =>
    if re1.isLiteral && re2.isLiteral then
      { p with stack := { re2 with nodes := re2.nodes ++ re1.nodes } :: rest }.reuse
    else p
  | _ => p

/-- The method `checkSize` for the item on top of the stack; `none` is
`panic(ErrLarge)`. No repetition `x{n,m}` occurs, so `p.repeats` stays 1 and
nothing is computed while `numRegexp < maxSize`. When the map `p.size` is
created every item of the stack gets its size; afterwards only the item on
top. -/
def regexp.parser.checkSize (p : regexp.parser) : Option regexp.parser :=
  if p.sizing then
    match p.stack with
    | [] => some p
    | re :: rest =>
      if regexp.maxSize < re.calcSize then none
      else some { p with stack := { re with size := some re.calcSize } :: rest }
  else if p.numRegexp < regexp.maxSize then some p
  else if p.stack.any fun re => decide (regexp.maxSize < re.calcSize) then none
  else some { p with
    sizing := true
    stack := p.stack.map fun re => { re with size := some re.calcSize } }

/-- The method `checkHeight`: nothing is computed while
`numRegexp < maxHeight`. -/
def regexp.parser.checkHeight (p : regexp.parser) : Option regexp.parser :=
  if p.numRegexp < regexp.maxHeight then some p
  else if p.stack.any fun re => decide (regexp.maxHeight < re.calcHeight) then none
  else some p

/-- The method `checkLimits`. -/
def regexp.parser.checkLimits (p : regexp.parser) : Option regexp.parser :=
  if regexp.maxRunes < p.numRunes then none
  else p.checkSize.bind regexp.parser.checkHeight

/-- The method `push`: count the runes of `re`, merge the literals on top of
the stack, put `re` on the stack and check the limits. -/
def regexp.parser.push (p : regexp.parser) (re : regexp.StackItem) : Option regexp.parser :=
  let p1 := { p with numRunes := p.numRunes + re.runes }.maybeConcat
  { p1 with stack := re :: p1.stack }.checkLimits

/-- The method `literal`: push the literal of one rune. -/
def regexp.parser.literal (p : regexp.parser) (r : Nat) : Option regexp.parser :=
  p.newRegexp.push ⟨[.one (.literal r)], true, none⟩

/-- The method `op`: push an operator without argument (`^`, `$`, `.`). -/
def regexp.parser.op (p : regexp.parser) (n : regexp.Node) : Option regexp.parser :=
  p.newRegexp.push ⟨[n], false, none⟩

/-- The end of `parse`: `p.concat()`, then `p.alternate()`, then the
expression left on the stack. With two items or more `concat` allocates
an `OpConcat`, whose size is the sum of the sizes of the items (the entry of
`p.size` for an item that has one) and whose height is one more than the
highest item; `alternate` pushes the same `Regexp` again, which repeats the
same checks. With one item, that item is pushed twice; with none, an
`OpEmptyMatch` is. -/
def regexp.parser.concat (p : regexp.parser) : Option regexp.Regexp :=
  let p1 := p.maybeConcat
  match p1.stack with
  | [] =>
    (({ p1 with stack := [] }.newRegexp.push ⟨[], false, none⟩).bind fun p2 =>
      { p2 with stack := [] }.push ⟨[], false, none⟩).map fun _ => []
  | [re] =>
    (({ p1 with stack := [] }.push re).bind fun p2 =>
      { p2 with stack := [] }.push re).map fun _ => re.nodes
  | re1 :: re2 :: rest =>
    let p2 := p1.newRegexp
    let size := ((re1 :: re2 :: rest).map fun re => re.size.getD re.calcSize).sum
    let height := 1 + ((re1 :: re2 :: rest).map regexp.StackItem.calcHeight).foldl max 0
    if regexp.maxRunes < p2.numRunes then none
    else if (p2.sizing || decide (regexp.maxSize ≤ p2.numRegexp))
        && decide (regexp.maxSize < size) then none
    else if decide (regexp.maxHeight ≤ p2.numRegexp)
        && decide (regexp.maxHeight < height) then none
    else some ((re1 :: re2 :: rest).reverse.flatMap fun re => re.nodes)

/-- The parser loop of `regexp/syntax` with the flags of `regexp.Compile`:
`p` is the state of the parser and `t` the text still to read; `whole` is the
expression, which the error `expression too large` quotes. The second argument
bounds the number of iterations; `t.length` is always enough. An escape
allocates a character class and gives it back before it pushes the literal. -/
def regexp.parseLoop (whole : GoString) :
    Nat → regexp.parser → GoString → Except regexp.SyntaxError regexp.Regexp
  | _, p, [] =>
    match p.concat with
    | none => .error ⟨.large, whole⟩
    | some re => .ok re
  | 0, _, c :: t => .error ⟨.unsupported, c :: t⟩
  | fuel + 1, p, c :: t =>
    if c = 94 then
      match p.op .beginText with
      | none => .error ⟨.large, whole⟩
      | some p1 => regexp.parseLoop whole fuel p1 t
    else if c = 36 then
      match p.op .endText with
      | none => .error ⟨.large, whole⟩
      | some p1 => regexp.parseLoop whole fuel p1 t
    else if c = 46 then
      match p.op (.one .anyCharNotNL) with
      | none => .error ⟨.large, whole⟩
      | some p1 => regexp.parseLoop whole fuel p1 t
    else if c = 42 then
      match p.stack with
      | [] => .error ⟨.missingRepeatArgument, [c]⟩
      | ⟨[.one a], _, _⟩ :: below =>
        match ({ p.newRegexp with stack := ⟨[.star a], false, none⟩ :: below }).checkLimits with
        | none => .error ⟨.large, whole⟩
        | some p1 => regexp.parseLoop whole fuel p1 t
      | _ :: _ => .error ⟨.unsupported, c :: t⟩
    else if c = 63 then
      match p.stack with
      | [] => .error ⟨.missingRepeatArgument, [c]⟩
      | ⟨[.one a], _, _⟩ :: below =>
        match ({ p.newRegexp with stack := ⟨[.quest a], false, none⟩ :: below }).checkLimits with
        | none => .error ⟨.large, whole⟩
        | some p1 => regexp.parseLoop whole fuel p1 t
      | _ :: _ => .error ⟨.unsupported, c :: t⟩
    else if c = 92 then
      match t with
      | [] => .error ⟨.trailingBackslash, []⟩
      | e :: t1 =>
        if decide (e.val < 128) && !regexp.isalnum e then
          match p.newRegexp.reuse.literal e.val with
          | none => .error ⟨.large, whole⟩
          | some p1 => regexp.parseLoop whole fuel p1 t1
        else .error ⟨.unsupported, c :: t⟩
    else if c = 43 ∨ c = 40 ∨ c = 41 ∨ c = 124 ∨ c = 91 ∨ c = 93 ∨ c = 123 ∨ c = 125 then
      .error ⟨.unsupported, c :: t⟩
    else
      let d := utf8.DecodeRuneInString (c :: t)
      if d.1 = utf8.RuneError ∧ d.2 = 1 then .error ⟨.invalidUTF8, c :: t⟩
      else
        match p.literal d.1 with
        | none => .error ⟨.large, whole⟩
        | some p1 => regexp.parseLoop whole fuel p1 ((c :: t).drop d.2)

/-- Go `regexp.Compile` on the fragment: the parser starts with an empty
stack, an empty free list and its counters at zero. -/
def regexp.Compile (expr : GoString) : Except regexp.SyntaxError regexp.Regexp :=
  regexp.parseLoop expr expr.length ⟨[], 0, 0, 0, false⟩ expr

/-- Whether an atom accepts a rune: a literal accepts itself, `.` accepts
every rune but the newline. -/
def regexp.Atom.accepts : regexp.Atom → Nat → Bool
  | .literal r, c => r == c
  | .anyCharNotNL, c => c != 10

/-- The loop of `x*` followed by the continuation `k`: stop here, or take one
more rune that `x` accepts. -/
def regexp.starLoop (k : Bool → List Nat → Bool) (a : regexp.Atom) : Bool → List Nat → Bool
  | atStart, [] => k atStart []
  | atStart, c :: rest => k atStart (c :: rest) || (a.accepts c && regexp.starLoop k a false rest)

/-- Whether the concatenation matches a prefix of the runes `inp`; `atStart`
tells whether the position is the beginning of the text. -/
def regexp.matchHere : regexp.Regexp → Bool → List Nat → Bool
  | [], _, _ => true
  | .beginText :: re, atStart, inp => atStart && regexp.matchHere re atStart inp
  | .endText :: re, atStart, inp => inp.isEmpty && regexp.matchHere re atStart inp
  | .one _ :: _, _, [] => false
  | .one a :: re, _, c :: rest => a.accepts c && regexp.matchHere re false rest
  | .quest _ :: re, atStart, [] => regexp.matchHere re atStart []
  | .quest a :: re, atStart, c :: rest =>
    regexp.matchHere re atStart (c :: rest) || (a.accepts c && regexp.matchHere re false rest)
  | .star a :: re, atStart, inp => regexp.starLoop (regexp.matchHere re) a atStart inp

/-- The unanchored search: a match may start at any position of the text. -/
def regexp.search (re : regexp.Regexp) : Bool → List Nat → Bool
  | atStart, [] => regexp.matchHere re atStart []
  | atStart, c :: rest => regexp.matchHere re atStart (c :: rest) || regexp.search re false rest

/-- Go `(*Regexp).MatchString`: whether the text contains a match. -/
def regexp.MatchString (re : regexp.Regexp) (s : GoString) : Bool :=
  regexp.search re true (utf8.runes s)

/-! ## `ArnLike` -/

/-- The errors `ArnLike` returns. -/
inductive ArnLikeError where
  | parseArn (err : ParseError)
  | parsePattern (err : ParseError)
  | compile (pattern : GoString) (err : regexp.SyntaxError)
  deriving DecidableEq, Repr

/-- The message of an `ArnLike` error, as `fmt.Errorf` builds it. -/
def ArnLikeError.Error : ArnLikeError → GoString
  | .parseArn err => str "Could not parse input arn: " ++ err.Error
  | .parsePattern err => str "Could not parse ArnLike string: " ++ err.Error
  | .compile pattern err => str "Could not parse " ++ pattern ++ str ": " ++ err.Error

/-- The loop `for index := range arnSections` of `ArnLike` over the indices
still to visit; `none` is the panic on an index out of range. -/
def matchSections (arnSections patternSections : List GoString) :
    List Nat → Option (Bool × Option ArnLikeError)
  | [] => some (true, none)
  | index :: rest =>
    match patternSections[index]?, arnSections[index]? with
    | some pat, some sec =>
      match regexp.Compile pat with
      | .error err => some (false, some (.compile pat err))
      | .ok patternGlob =>
        if !regexp.MatchString patternGlob sec then some (false, none)
        else matchSections arnSections patternSections rest
    | _, _ => none

/-- The function `ArnLike`: the boolean and the error it returns (`none` for
`nil`); the outer `none` would be a panic. -/
def ArnLike (arn pattern : GoString) : Option (Bool × Option ArnLikeError) :=
  match parse arn with
  | .error err => some (false, some (.parseArn err))
  | .ok arnSections =>
    match parse pattern with
    | .error err => some (false, some (.parsePattern err))
    | .ok patternSections =>
      (preparePatternSections patternSections).bind fun prepared =>
        matchSections arnSections prepared (List.range arnSections.length)

/-! ## Definitions used to state and prove the properties -/

/-- The six sections written back with their delimiters. -/
def arnOf (f1 f2 f3 f4 f5 : GoString) : GoString :=
  [97, 114, 110] ++ 58 :: (f1 ++ 58 :: (f2 ++ 58 :: (f3 ++ 58 :: (f4 ++ 58 :: f5))))

/-- The translation of one byte: an escaped metacharacter, `.` before a
wildcard, or the byte itself. -/
def quoteByte (b : Byte) : GoString :=
  if special b then [92, b] else if isWildcard b then [46, b] else [b]

/-- A well-formed encoding: the first byte, the continuation bytes and the
rune they encode. -/
inductive Encodes : Byte → List Byte → Nat → Prop where
  | one (s0 : Byte) (h0 : s0.val < 0x80) : Encodes s0 [] s0.val
  | two (s0 s1 : Byte) (h0 : 0xC2 ≤ s0.val) (h0' : s0.val < 0xE0)
      (h1 : 0x80 ≤ s1.val) (h1' : s1.val ≤ 0xBF) :
      Encodes s0 [s1] (s0.val % 32 * 64 + s1.val % 64)
  | three (s0 s1 s2 : Byte) (h0 : 0xE0 ≤ s0.val) (h0' : s0.val < 0xF0)
      (h1 : 0x80 ≤ s1.val) (h1' : s1.val ≤ 0xBF)
      (hlo : s0.val = 0xE0 → 0xA0 ≤ s1.val) (hhi : s0.val = 0xED → s1.val ≤ 0x9F)
      (h2 : 0x80 ≤ s2.val) (h2' : s2.val ≤ 0xBF) :
      Encodes s0 [s1, s2] (s0.val % 16 * 4096 + s1.val % 64 * 64 + s2.val % 64)
  | four (s0 s1 s2 s3 : Byte) (h0 : 0xF0 ≤ s0.val) (h0' : s0.val ≤ 0xF4)
      (h1 : 0x80 ≤ s1.val) (h1' : s1.val ≤ 0xBF)
      (hlo : s0.val = 0xF0 → 0x90 ≤ s1.val) (hhi : s0.val = 0xF4 → s1.val ≤ 0x8F)
      (h2 : 0x80 ≤ s2.val) (h2' : s2.val ≤ 0xBF) (h3 : 0x80 ≤ s3.val) (h3' : s3.val ≤ 0xBF) :
      Encodes s0 [s1, s2, s3]
        (s0.val % 8 * 262144 + s1.val % 64 * 4096 + s2.val % 64 * 64 + s3.val % 64)

/-- The node a rune of a pattern section stands for once the section is
sanitized: `*` is `.*`, `?` is `.?`, any other rune is itself. -/
def nodeOf (r : Nat) : regexp.Node :=
  if r = 42 then .star .anyCharNotNL else if r = 63 then .quest .anyCharNotNL
  else .one (.literal r)

/-- The nodes of a pattern section. -/
def nodesOf (sec : GoString) : List regexp.Node := (utf8.runes sec).map nodeOf

/-- The sanitized, anchored form of a pattern section. -/
def prepared (sec : GoString) : GoString := (94 : Byte) :: sec.flatMap quoteByte ++ [36]

/-- The nodes and the kind of every item of the stack: what the checks of
the limits leave unchanged. -/
def regexp.parser.shape (p : regexp.parser) : List (List regexp.Node × Bool) :=
  p.stack.map fun re => (re.nodes, re.isLiteral)

/-- The nodes on the stack, the bottom of the stack first. -/
def regexp.parser.nodes (p : regexp.parser) : List regexp.Node :=
  p.shape.reverse.flatMap fun x => x.1

/-- The parser is below its limits: no size is computed yet, `numRegexp` is at
most `n` and `numRunes` at most `m`. -/
def regexp.parser.Small (p : regexp.parser) (n m : Nat) : Prop :=
  p.sizing = false ∧ p.numRegexp ≤ n ∧ p.numRunes ≤ m

/-- The parser in a run of literals that follows `^`: the stack holds `^`
alone, or under one literal, or under two literals, and the counters are those
of such a run (from the third literal on, every literal merges the two on top
and the one that is freed serves for the next). -/
def regexp.parser.LitRun (p : regexp.parser) : Prop :=
  p.sizing = false ∧
    ((p.stack.map (fun re => re.isLiteral) = [false] ∧ p.free = 0 ∧ p.numRegexp = 1) ∨
      (p.stack.map (fun re => re.isLiteral) = [true, false] ∧ p.free = 0 ∧ p.numRegexp = 2) ∨
      (p.stack.map (fun re => re.isLiteral) = [true, true, false] ∧ p.free = 0 ∧
        p.numRegexp = 3) ∨
      (p.stack.map (fun re => re.isLiteral) = [true, true, false] ∧ p.free = 1 ∧
        p.numRegexp = 4))

/-- The state of the parser once it has read the sanitized form of one rune of
a pattern section: `.` and the operator for a wildcard, a literal for any other
rune; `none` is `panic(ErrLarge)`. -/
def regexp.parser.read (p : regexp.parser) (r : Nat) : Option regexp.parser :=
  if r = 42 ∨ r = 63 then
    (p.op (.one .anyCharNotNL)).bind fun p1 =>
      ({ p1.newRegexp with stack := ⟨[nodeOf r], false, none⟩ :: p1.stack.tail }).checkLimits
  else p.literal r

/-- The state of the parser once it has read the sanitized form of the runes. -/
def regexp.parser.readAll (p : regexp.parser) : List Nat → Option regexp.parser
  | [] => some p
  | r :: rs => (p.read r).bind fun p1 => p1.readAll rs

/-- What the parser makes of `^`, the sanitized form of the runes and `$`;
`none` is `panic(ErrLarge)`. -/
def regexp.compileRunes (rs : List Nat) : Option regexp.Regexp :=
  (((regexp.parser.mk [] 0 0 0 false).op .beginText).bind fun p =>
    (p.readAll rs).bind fun p1 => (p1.op .endText).bind fun p2 => p2.concat)

/-- A step of the parser that may end in `panic(ErrLarge)`: the error
`expression too large` on the whole expression, or what follows the step. -/
def regexp.orLarge (whole : GoString) {α : Type} (o : Option α)
    (k : α → Except regexp.SyntaxError regexp.Regexp) :
    Except regexp.SyntaxError regexp.Regexp :=
  match o with
  | none => .error ⟨.large, whole⟩
  | some a => k a

/-- The sanitized, anchored form of the pattern section compiles, to the nodes
of its runes between the two anchors. -/
def Compiles (pat : GoString) : Prop :=
  regexp.Compile (prepared pat) = .ok (.beginText :: nodesOf pat ++ [.endText])

/-- Whether the sanitized pattern section `pat` matches the whole of the value
section `sec`, for a pattern section that is valid UTF-8. -/
def sectionMatch (sec pat : GoString) : Bool :=
  regexp.matchHere (nodesOf pat ++ [.endText]) true (utf8.runes sec)

/-- The loop of `ArnLike` as a recursion over the two lists of sections. -/
def matchAll : List GoString → List GoString → Option (Bool × Option ArnLikeError)
  | [], _ => some (true, none)
  | _ :: _, [] => none
  | sec :: secs, pat :: pats =>
    match regexp.Compile pat with
    | .error err => some (false, some (.compile pat err))
    | .ok patternGlob =>
      if !regexp.MatchString patternGlob sec then some (false, none)
      else matchAll secs pats

/-- Whether the sanitized, anchored form of the pattern section `pat` compiles
and the compiled expression matches the value section `sec`: what the body of
the loop of `ArnLike` tests for one index. -/
def fieldMatches (sec pat : GoString) : Bool :=
  match quoteMeta pat with
  | none => false
  | some quoted =>
    match regexp.Compile ((94 : Byte) :: quoted ++ [36]) with
    | .error _ => false
    | .ok patternGlob => regexp.MatchString patternGlob sec

/-! ## The glob variant (`main.go`) -/

/-- The `case` of the `switch` of `tidyPatternSections`: `{`, `}`, `[`, `]`
and the backslash. -/
def isGlobMeta (c : Byte) : Bool := c == 123 || c == 125 || c == 91 || c == 93 || c == 92

/-- The inner loop of `tidyPatternSections` over the bytes `section[i:]`, with
the buffer `b` and the write index `j`; `none` is the panic on an index out of
range. -/
def tidyLoop : GoString → List Byte → Nat → Option (List Byte × Nat)
  | [], b, j => some (b, j)
  | c :: rest, b, j =>
    (if isGlobMeta c then (writeAt b j 92).map fun b1 => (b1, j + 1) else some (b, j)).bind
      fun r => (writeAt r.1 r.2 c).bind fun b2 => tidyLoop rest b2 (r.2 + 1)

/-- The body of the outer loop of `tidyPatternSections` for one section: the
buffer `make([]byte, 2*len(section))` is filled by the inner loop and the
section becomes `string(b)`, the whole buffer. -/
def tidySection (sec : GoString) : Option GoString :=
  (tidyLoop sec (List.replicate (2 * sec.length) 0) 0).map fun r => r.1

/-- The function `tidyPatternSections` of `main.go`: the slice after the call. -/
def tidyPatternSections : List GoString → Option (List GoString)
  | [] => some []
  | sec :: rest =>
    (tidySection sec).bind fun tidy => (tidyPatternSections rest).map fun tail => tidy :: tail

/-- The translation the glob variant is described by: a backslash before each
of `{`, `}`, `[`, `]` and backslash, every other byte unchanged. -/
def globEscape (sec : GoString) : GoString :=
  sec.flatMap fun c => if isGlobMeta c then [92, c] else [c]

/-! ## Reference definitions for `quoteMeta` -/

/-- The twelve metacharacters: backslash `.+()|[]{}^$`. -/
def metaBytes : List Byte := [92, 46, 43, 40, 41, 124, 91, 93, 123, 125, 94, 36]

/-- The reference translation of one byte: backslash and the byte for a
metacharacter, `.*` for `*`, `.?` for `?`, the byte itself otherwise. -/
def referenceByte (c : Byte) : GoString :=
  if c ∈ metaBytes then [92, c] else if c = 42 then [46, 42] else if c = 63 then [46, 63]
  else [c]

/-- The byte-wise reference translation of a string. -/
def quoteMetaReference (s : GoString) : GoString := (s.map referenceByte).flatten

/-- The indices of the assignments `b[j] = ...` that the second loop of
`quoteMeta` makes on the bytes `s[i:]`, in order, from the write index `j`. -/
def writeIndices : GoString → Nat → List Nat
  | [], _ => []
  | c :: rest, j =>
    if special c || isWildcard c then j :: (j + 1) :: writeIndices rest (j + 2)
    else j :: writeIndices rest (j + 1)

/-! ## A doubled `*` -/

/-- The relation between the sections of a pattern and the sections of the
pattern with one `**` written `*`. -/
def oneStarLess (q q' : GoString) : Prop :=
  q = q' ∨ ∃ a b, q = a ++ 42 :: 42 :: b ∧ q' = a ++ 42 :: b

/-! ## What a caller observes of a result -/

/-- The boolean of a result and whether its error is non-nil. -/
def outcome (r : Option (Bool × Option ArnLikeError)) : Option (Bool × Bool) :=
  r.map fun x => (x.1, x.2.isSome)

/-! ## Facts about the string functions -/

theorem hasPrefix_iff (s pre : GoString) :
    strings.HasPrefix s pre = true ↔ ∃ t, s = pre ++ t := by
  unfold strings.HasPrefix
  constructor
  · intro h
    simp only [Bool.and_eq_true, decide_eq_true_eq, beq_iff_eq] at h
    refine ⟨s.drop pre.length, ?_⟩
    have := List.take_append_drop pre.length s
    rw [h.2] at this
    exact this.symm
  · rintro ⟨t, rfl⟩
    simp

theorem indexByte_none {s : GoString} {c : Byte} (h : strings.IndexByte s c = none) :
    c ∉ s := by
  induction s with
  | nil => simp
  | cons b rest ih =>
    unfold strings.IndexByte at h
    split at h
    · simp at h
    · rename_i hb
      simp only [Option.map_eq_none'] at h
      simp only [List.mem_cons, not_or]
      exact ⟨fun e => hb e.symm, ih h⟩

theorem indexByte_some {s : GoString} {c : Byte} {m : Nat}
    (h : strings.IndexByte s c = some m) :
    s = s.take m ++ c :: s.drop (m + 1) ∧ c ∉ s.take m := by
  induction s generalizing m with
  | nil => simp [strings.IndexByte] at h
  | cons b rest ih =>
    unfold strings.IndexByte at h
    split at h
    · rename_i hb
      simp only [Option.some.injEq] at h
      subst h; subst hb
      simp
    · rename_i hb
      simp only [Option.map_eq_some'] at h
      obtain ⟨k, hk, rfl⟩ := h
      obtain ⟨h1, h2⟩ := ih hk
      refine ⟨?_, ?_⟩
      · simp only [List.take_succ_cons, List.drop_succ_cons, List.cons_append]
        rw [← h1]
      · simp only [List.take_succ_cons, List.mem_cons, not_or]
        exact ⟨fun e => hb e.symm, h2⟩

theorem indexByte_of_not_mem {a : GoString} {c : Byte} (h : c ∉ a) (b : GoString) :
    strings.IndexByte (a ++ c :: b) c = some a.length := by
  induction a with
  | nil => simp [strings.IndexByte]
  | cons x a ih =>
    simp only [List.mem_cons, not_or] at h
    have hx : ¬ x = c := fun e => h.1 e.symm
    simp [strings.IndexByte, hx, ih h.2]

theorem indexByte_eq_none {s : GoString} {c : Byte} (h : c ∉ s) :
    strings.IndexByte s c = none := by
  induction s with
  | nil => rfl
  | cons x a ih =>
    simp only [List.mem_cons, not_or] at h
    have hx : ¬ x = c := fun e => h.1 e.symm
    simp [strings.IndexByte, hx, ih h.2]

theorem genSplit_length (k : Nat) (s : GoString) (sep : Byte) :
    (strings.genSplit k s sep).length = min k (s.count sep) + 1 := by
  induction k generalizing s with
  | zero => simp [strings.genSplit]
  | succ k ih =>
    unfold strings.genSplit
    split
    · rename_i h
      have := indexByte_none h
      simp [List.count_eq_zero_of_not_mem this]
    · rename_i m h
      obtain ⟨h1, h2⟩ := indexByte_some h
      have hc : s.count sep = (s.drop (m + 1)).count sep + 1 := by
        conv_lhs => rw [h1]
        simp [List.count_append, List.count_eq_zero_of_not_mem h2]
      simp only [List.length_cons, ih, hc]
      omega

/-- Splitting an expression that is written with its separators. -/
theorem genSplit_cons (k : Nat) (a b : GoString) (sep : Byte) (h : sep ∉ a) :
    strings.genSplit (k + 1) (a ++ sep :: b) sep = a :: strings.genSplit k b sep := by
  rw [strings.genSplit, indexByte_of_not_mem h]
  simp

theorem genSplit_shape (k : Nat) (s : GoString) (sep : Byte) :
    [sep].intercalate (strings.genSplit k s sep) = s ∧
      ∀ f ∈ (strings.genSplit k s sep).dropLast, sep ∉ f := by
  induction k generalizing s with
  | zero => simp [strings.genSplit, List.intercalate]
  | succ k ih =>
    unfold strings.genSplit
    split
    · simp [List.intercalate]
    · rename_i m h
      obtain ⟨h1, h2⟩ := indexByte_some h
      obtain ⟨i1, i2⟩ := ih (s.drop (m + 1))
      have hne : strings.genSplit k (s.drop (m + 1)) sep ≠ [] := by
        intro e
        have := genSplit_length k (s.drop (m + 1)) sep
        rw [e] at this
        simp at this
      obtain ⟨x, xs, hx⟩ := List.exists_cons_of_ne_nil hne
      refine ⟨?_, ?_⟩
      · rw [hx] at i1 ⊢
        simp only [List.intercalate, List.intersperse, List.flatten_cons, List.singleton_append]
          at i1 ⊢
        rw [i1]
        exact h1.symm
      · intro f hf
        rw [hx] at hf i2
        simp only [List.dropLast_cons₂, List.mem_cons] at hf
        rcases hf with rfl | hf
        · exact h2
        · exact i2 f hf

/-! ## Facts about `parse` -/

theorem append_sep_inj {c : Byte} {a a' b b' : GoString} (h : c ∉ a) (h' : c ∉ a')
    (e : a ++ c :: b = a' ++ c :: b') : a = a' ∧ b = b' := by
  induction a generalizing a' with
  | nil =>
    cases a' with
    | nil => simpa using e
    | cons x a' =>
      simp only [List.nil_append, List.cons_append, List.cons.injEq] at e
      simp only [List.mem_cons, not_or] at h'
      exact absurd e.1 h'.1
  | cons y a ih =>
    cases a' with
    | nil =>
      simp only [List.nil_append, List.cons_append, List.cons.injEq] at e
      simp only [List.mem_cons, not_or] at h
      exact absurd e.1.symm h.1
    | cons x a' =>
      simp only [List.cons_append, List.cons.injEq] at e
      simp only [List.mem_cons, not_or] at h h'
      obtain ⟨r1, r2⟩ := ih h.2 h'.2 e.2
      exact ⟨by rw [e.1, r1], r2⟩

theorem parse_invalidPrefix {s : GoString} (h : strings.HasPrefix s arnPrefix = false) :
    parse s = .error .invalidPrefix := by
  simp [parse, h]

theorem parse_of_hasPrefix {s : GoString} (h : strings.HasPrefix s arnPrefix = true) :
    parse s = if 5 ≤ s.count arnDelimiter then .ok (strings.genSplit 5 s arnDelimiter)
      else .error .invalidSections := by
  have hl := genSplit_length 5 s arnDelimiter
  by_cases hc : 5 ≤ s.count arnDelimiter
  · have : (strings.genSplit 5 s arnDelimiter).length = 6 := by omega
    simp [parse, h, strings.SplitN, arnSectionsExpected, this, hc]
  · have : (strings.genSplit 5 s arnDelimiter).length ≠ 6 := by omega
    simp [parse, h, strings.SplitN, arnSectionsExpected, this, hc]

theorem parse_arnOf (f1 f2 f3 f4 f5 : GoString) (h1 : arnDelimiter ∉ f1)
    (h2 : arnDelimiter ∉ f2) (h3 : arnDelimiter ∉ f3) (h4 : arnDelimiter ∉ f4) :
    parse (arnOf f1 f2 f3 f4 f5) = .ok [[97, 114, 110], f1, f2, f3, f4, f5] := by
  have hp : strings.HasPrefix (arnOf f1 f2 f3 f4 f5) arnPrefix = true :=
    (hasPrefix_iff _ _).2 ⟨f1 ++ 58 :: (f2 ++ 58 :: (f3 ++ 58 :: (f4 ++ 58 :: f5))), rfl⟩
  have h0 : arnDelimiter ∉ ([97, 114, 110] : GoString) := by decide
  have hs : strings.genSplit 5 (arnOf f1 f2 f3 f4 f5) arnDelimiter
      = [[97, 114, 110], f1, f2, f3, f4, f5] := by
    unfold arnOf
    rw [show (58 : Byte) = arnDelimiter from rfl]
    rw [genSplit_cons 4 _ _ _ h0, genSplit_cons 3 _ _ _ h1, genSplit_cons 2 _ _ _ h2,
      genSplit_cons 1 _ _ _ h3, genSplit_cons 0 _ _ _ h4]
    rfl
  have hl := genSplit_length 5 (arnOf f1 f2 f3 f4 f5) arnDelimiter
  rw [hs] at hl
  have hc : 5 ≤ (arnOf f1 f2 f3 f4 f5).count arnDelimiter := by
    simp only [List.length_cons, List.length_nil] at hl
    omega
  rw [parse_of_hasPrefix hp, if_pos hc, hs]

theorem parse_ok_shape {s : GoString} {secs : List GoString} (h : parse s = .ok secs) :
    ∃ f1 f2 f3 f4 f5, secs = [[97, 114, 110], f1, f2, f3, f4, f5] ∧ s = arnOf f1 f2 f3 f4 f5 ∧
      arnDelimiter ∉ f1 ∧ arnDelimiter ∉ f2 ∧ arnDelimiter ∉ f3 ∧ arnDelimiter ∉ f4 := by
  by_cases hp : strings.HasPrefix s arnPrefix = true
  · rw [parse_of_hasPrefix hp] at h
    split at h
    · rename_i hc
      simp only [Except.ok.injEq] at h
      have hl := genSplit_length 5 s arnDelimiter
      obtain ⟨hj, hn⟩ := genSplit_shape 5 s arnDelimiter
      rw [h] at hl hj hn
      have hl6 : secs.length = 6 := by omega
      match secs, hl6 with
      | [f0, f1, f2, f3, f4, f5], _ =>
        obtain ⟨t, ht⟩ := (hasPrefix_iff _ _).1 hp
        simp only [List.intercalate, List.intersperse, List.flatten_cons, List.flatten_nil,
          List.append_nil, List.singleton_append, List.append_assoc, List.cons_append,
          List.nil_append] at hj
        have n0 : arnDelimiter ∉ f0 := hn f0 (by simp)
        have n1 : arnDelimiter ∉ f1 := hn f1 (by simp)
        have n2 : arnDelimiter ∉ f2 := hn f2 (by simp)
        have n3 : arnDelimiter ∉ f3 := hn f3 (by simp)
        have n4 : arnDelimiter ∉ f4 := hn f4 (by simp)
        have e0 : f0 = [97, 114, 110] := by
          rw [ht] at hj
          have hA : f0 ++ arnDelimiter :: (f1 ++ [arnDelimiter] ++ (f2 ++ [arnDelimiter] ++
              (f3 ++ [arnDelimiter] ++ (f4 ++ [arnDelimiter] ++ f5))))
              = [97, 114, 110] ++ arnDelimiter :: t := by
            simpa [arnPrefix, arnDelimiter] using hj
          have h0 : arnDelimiter ∉ ([97, 114, 110] : GoString) := by decide
          exact (append_sep_inj n0 h0 hA).1
        subst e0
        refine ⟨f1, f2, f3, f4, f5, rfl, ?_, n1, n2, n3, n4⟩
        rw [← hj]
        simp [arnOf, arnDelimiter]
    · simp at h
  · simp only [Bool.not_eq_true] at hp
    rw [parse_invalidPrefix hp] at h
    simp at h

/-! ## Facts about the escape bitmap and `quoteMeta` -/

theorem specialBytes_eq :
    specialBytes = [0, 0, 0, 0, 4, 0, 0, 0, 4, 4, 0, 164, 160, 160, 36, 0] := by
  rfl

set_option maxRecDepth 100000 in
theorem special_eq_mem : ∀ b : Byte, special b = decide (b ∈ specialList) := by
  unfold special
  rw [specialBytes_eq]
  decide

theorem special_lt {b : Byte} (h : special b = true) : b.val < 128 := by
  unfold special at h
  simp only [Bool.and_eq_true, decide_eq_true_eq] at h
  exact h.1

theorem isWildcard_lt {b : Byte} (h : isWildcard b = true) : b.val < 128 := by
  unfold isWildcard at h
  simp only [Bool.or_eq_true, beq_iff_eq] at h
  rcases h with h | h <;> subst h <;> decide

theorem quoteByte_of_ge {b : Byte} (h : 128 ≤ b.val) : quoteByte b = [b] := by
  unfold quoteByte
  have h1 : special b = false := by
    cases hs : special b
    · rfl
    · have := special_lt hs
      omega
  have h2 : isWildcard b = false := by
    cases hs : isWildcard b
    · rfl
    · have := isWildcard_lt hs
      omega
  simp [h1, h2]

theorem quoteByte_length_le (b : Byte) : (quoteByte b).length ≤ 2 := by
  unfold quoteByte
  split
  · simp
  · split <;> simp

theorem flatMap_quoteByte_length_le (s : GoString) :
    (s.flatMap quoteByte).length ≤ 2 * s.length := by
  induction s with
  | nil => simp
  | cons c rest ih =>
    have := quoteByte_length_le c
    simp only [List.flatMap_cons, List.length_append, List.length_cons]
    omega

theorem take_succ_set (b : List Byte) (j : Nat) (x : Byte) (h : j < b.length) :
    (b.set j x).take (j + 1) = b.take j ++ [x] := by
  induction b generalizing j with
  | nil => simp at h
  | cons y b ih =>
    cases j with
    | zero => simp
    | succ j =>
      simp only [List.length_cons, Nat.add_lt_add_iff_right] at h
      simp [ih j h]

theorem quoteLoop_spec (rest : GoString) (b : List Byte) (j : Nat)
    (h : j + 2 * rest.length ≤ b.length) :
    ∃ b1, quoteLoop rest b j = some (b1, j + (rest.flatMap quoteByte).length) ∧
      b1.length = b.length ∧
      b1.take (j + (rest.flatMap quoteByte).length) = b.take j ++ rest.flatMap quoteByte := by
  induction rest generalizing b j with
  | nil => exact ⟨b, by simp [quoteLoop]⟩
  | cons c rest ih =>
    simp only [List.length_cons] at h
    have two (x y : Byte) :
        ∃ b1, quoteLoop rest ((b.set j x).set (j + 1) y) (j + 2)
            = some (b1, j + 2 + (rest.flatMap quoteByte).length) ∧
          b1.length = b.length ∧
          b1.take (j + 2 + (rest.flatMap quoteByte).length)
            = b.take j ++ x :: y :: rest.flatMap quoteByte := by
      obtain ⟨b1, e1, e2, e3⟩ := ih ((b.set j x).set (j + 1) y) (j + 2)
        (by simp only [List.length_set]; omega)
      refine ⟨b1, e1, by simpa using e2, ?_⟩
      rw [e3, take_succ_set _ _ _ (by simp only [List.length_set]; omega),
        take_succ_set _ _ _ (by omega)]
      simp
    by_cases hs : special c = true
    · obtain ⟨b1, e1, e2, e3⟩ := two 92 c
      have hq : quoteByte c = [92, c] := by simp [quoteByte, hs]
      have w1 : writeAt b j 92 = some (b.set j 92) := by
        unfold writeAt
        rw [if_pos (by omega)]
      have w2 : writeAt (b.set j 92) (j + 1) c = some ((b.set j 92).set (j + 1) c) := by
        unfold writeAt
        rw [if_pos (by simp only [List.length_set]; omega)]
      have hj : j + ((c :: rest).flatMap quoteByte).length
          = j + 2 + (rest.flatMap quoteByte).length := by
        simp only [List.flatMap_cons, hq, List.length_append, List.length_cons, List.length_nil]
        omega
      refine ⟨b1, ?_, e2, ?_⟩
      · rw [hj, quoteLoop, if_pos hs, w1, Option.some_bind, w2, Option.some_bind, e1]
      · rw [hj, e3, List.flatMap_cons, hq]
        rfl
    · by_cases hw : isWildcard c = true
      · obtain ⟨b1, e1, e2, e3⟩ := two 46 c
        have hq : quoteByte c = [46, c] := by simp [quoteByte, hs, hw]
        have w1 : writeAt b j 46 = some (b.set j 46) := by
          unfold writeAt
          rw [if_pos (by omega)]
        have w2 : writeAt (b.set j 46) (j + 1) c = some ((b.set j 46).set (j + 1) c) := by
          unfold writeAt
          rw [if_pos (by simp only [List.length_set]; omega)]
        have hj : j + ((c :: rest).flatMap quoteByte).length
            = j + 2 + (rest.flatMap quoteByte).length := by
          simp only [List.flatMap_cons, hq, List.length_append, List.length_cons,
            List.length_nil]
          omega
        refine ⟨b1, ?_, e2, ?_⟩
        · rw [hj, quoteLoop, if_neg hs, if_pos hw, w1, Option.some_bind, w2, Option.some_bind,
            e1]
        · rw [hj, e3, List.flatMap_cons, hq]
          rfl
      · obtain ⟨b1, e1, e2, e3⟩ := ih (b.set j c) (j + 1)
          (by simp only [List.length_set]; omega)
        have hq : quoteByte c = [c] := by simp [quoteByte, hs, hw]
        have w1 : writeAt b j c = some (b.set j c) := by
          unfold writeAt
          rw [if_pos (by omega)]
        have hj : j + ((c :: rest).flatMap quoteByte).length
            = j + 1 + (rest.flatMap quoteByte).length := by
          simp only [List.flatMap_cons, hq, List.length_append, List.length_cons,
            List.length_nil]
          omega
        refine ⟨b1, ?_, by simpa using e2, ?_⟩
        · rw [hj, quoteLoop, if_neg hs, if_neg hw, w1, Option.some_bind, e1]
        · rw [hj, e3, take_succ_set _ _ _ (by omega), List.flatMap_cons, hq]
          simp

theorem scanMeta_le (s : GoString) : scanMeta s ≤ s.length := by
  induction s with
  | nil => simp [scanMeta]
  | cons c rest ih =>
    unfold scanMeta
    split
    · omega
    · simp only [List.length_cons]
      omega

theorem flatMap_take_scanMeta (s : GoString) :
    (s.take (scanMeta s)).flatMap quoteByte = s.take (scanMeta s) := by
  induction s with
  | nil => simp [scanMeta]
  | cons c rest ih =>
    unfold scanMeta
    split
    · simp
    · rename_i h
      simp only [Bool.or_eq_true, not_or, Bool.not_eq_true] at h
      simp [quoteByte, h.1, h.2, ih]

/-- `quoteMeta` never panics and is the byte-wise translation. -/
theorem quoteMeta_eq (s : GoString) : quoteMeta s = some (s.flatMap quoteByte) := by
  unfold quoteMeta
  have hle := scanMeta_le s
  have hpre := flatMap_take_scanMeta s
  by_cases hi : scanMeta s ≥ s.length
  · have e : s.take (scanMeta s) = s := List.take_of_length_le hi
    rw [e] at hpre
    simp [hi, hpre]
  · simp only [hi, if_false]
    have hlen : (copy (List.replicate (2 * s.length - scanMeta s) 0)
        (s.take (scanMeta s))).length = 2 * s.length - scanMeta s := by
      simp only [copy, List.length_append, List.length_take, List.length_drop,
        List.length_replicate]
      omega
    have htake : (copy (List.replicate (2 * s.length - scanMeta s) 0)
        (s.take (scanMeta s))).take (scanMeta s) = s.take (scanMeta s) := by
      simp only [copy, List.length_replicate, List.length_take]
      rw [List.take_append_of_le_length (by simp only [List.length_take]; omega)]
      rw [List.take_take, List.take_take]
      congr 1
      omega
    obtain ⟨b1, e1, e2, e3⟩ := quoteLoop_spec (s.drop (scanMeta s)) _ (scanMeta s)
      (by rw [hlen, List.length_drop]; omega)
    have hb := flatMap_quoteByte_length_le (s.drop (scanMeta s))
    rw [List.length_drop] at hb
    rw [e1]
    simp only [Option.bind_eq_bind, Option.some_bind]
    rw [if_pos (by rw [e2, hlen]; omega), e3, htake]
    congr 1
    conv_rhs => rw [← List.take_append_drop (scanMeta s) s, List.flatMap_append, hpre]

theorem preparePatternSections_eq (secs : List GoString) :
    preparePatternSections secs
      = some (secs.map fun sec => (94 : Byte) :: sec.flatMap quoteByte ++ [36]) := by
  induction secs with
  | nil => rfl
  | cons sec rest ih => simp [preparePatternSections, quoteMeta_eq, ih]

/-! ## Facts about UTF-8 decoding -/

theorem acceptLo_cases (s0 : Byte) :
    (s0.val = 0xE0 ∧ utf8.acceptLo s0 = 0xA0) ∨ (s0.val = 0xF0 ∧ utf8.acceptLo s0 = 0x90) ∨
      (s0.val ≠ 0xE0 ∧ s0.val ≠ 0xF0 ∧ utf8.acceptLo s0 = 0x80) := by
  unfold utf8.acceptLo
  split
  · left; exact ⟨by assumption, rfl⟩
  · split
    · right; left; exact ⟨by assumption, rfl⟩
    · right; right; exact ⟨by assumption, by assumption, rfl⟩

theorem acceptHi_cases (s0 : Byte) :
    (s0.val = 0xED ∧ utf8.acceptHi s0 = 0x9F) ∨ (s0.val = 0xF4 ∧ utf8.acceptHi s0 = 0x8F) ∨
      (s0.val ≠ 0xED ∧ s0.val ≠ 0xF4 ∧ utf8.acceptHi s0 = 0xBF) := by
  unfold utf8.acceptHi
  split
  · left; exact ⟨by assumption, rfl⟩
  · split
    · right; left; exact ⟨by assumption, rfl⟩
    · right; right; exact ⟨by assumption, by assumption, rfl⟩

/-- Decoding a well-formed encoding gives its rune and its width, whatever follows. -/
theorem decode_of_encodes {s0 : Byte} {cont : List Byte} {r : Nat} (h : Encodes s0 cont r)
    (rest : GoString) :
    utf8.DecodeRuneInString (s0 :: (cont ++ rest)) = (r, cont.length + 1) := by
  have hlo := acceptLo_cases s0
  have hhi := acceptHi_cases s0
  cases h with
  | one h0 => simp [utf8.DecodeRuneInString, h0]
  | two s1 h0 h0' h1 h1' =>
    have a1 : ¬ s0.val < 0x80 := by omega
    have a2 : ¬ (s0.val < 0xC2 ∨ 0xF4 < s0.val) := by omega
    have a3 : ¬ (s1.val < utf8.acceptLo s0 ∨ utf8.acceptHi s0 < s1.val) := by omega
    simp only [utf8.DecodeRuneInString, List.cons_append, List.nil_append, if_neg a1, if_neg a2,
      if_neg a3, if_pos h0', List.length_cons, List.length_nil]
  | three s1 s2 h0 h0' h1 h1' hlo' hhi' h2 h2' =>
    have a1 : ¬ s0.val < 0x80 := by omega
    have a2 : ¬ (s0.val < 0xC2 ∨ 0xF4 < s0.val) := by omega
    have a3 : ¬ (s1.val < utf8.acceptLo s0 ∨ utf8.acceptHi s0 < s1.val) := by omega
    have a4 : ¬ s0.val < 0xE0 := by omega
    have a5 : ¬ (s2.val < 0x80 ∨ 0xBF < s2.val) := by omega
    simp only [utf8.DecodeRuneInString, List.cons_append, List.nil_append, if_neg a1, if_neg a2,
      if_neg a3, if_neg a4, if_neg a5, if_pos h0', List.length_cons, List.length_nil]
  | four s1 s2 s3 h0 h0' h1 h1' hlo' hhi' h2 h2' h3 h3' =>
    have a1 : ¬ s0.val < 0x80 := by omega
    have a2 : ¬ (s0.val < 0xC2 ∨ 0xF4 < s0.val) := by omega
    have a3 : ¬ (s1.val < utf8.acceptLo s0 ∨ utf8.acceptHi s0 < s1.val) := by omega
    have a4 : ¬ s0.val < 0xE0 := by omega
    have a5 : ¬ (s2.val < 0x80 ∨ 0xBF < s2.val) := by omega
    have a6 : ¬ s0.val < 0xF0 := by omega
    have a7 : ¬ (s3.val < 0x80 ∨ 0xBF < s3.val) := by omega
    simp only [utf8.DecodeRuneInString, List.cons_append, List.nil_append, if_neg a1, if_neg a2,
      if_neg a3, if_neg a4, if_neg a5, if_neg a6, if_neg a7, List.length_cons, List.length_nil]

/-- What `DecodeRuneInString` returns on a non-empty string: the error pair, or
the rune of a well-formed encoding the string starts with. -/
theorem decode_cases (s0 : Byte) (t : GoString) :
    utf8.DecodeRuneInString (s0 :: t) = (utf8.RuneError, 1) ∨
      ∃ cont rest r, t = cont ++ rest ∧ Encodes s0 cont r ∧
        utf8.DecodeRuneInString (s0 :: t) = (r, cont.length + 1) := by
  have hlo := acceptLo_cases s0
  have hhi := acceptHi_cases s0
  by_cases a1 : s0.val < 0x80
  · right
    exact ⟨[], t, s0.val, rfl, .one s0 a1, by simp [utf8.DecodeRuneInString, a1]⟩
  by_cases a2 : s0.val < 0xC2 ∨ 0xF4 < s0.val
  · left
    simp [utf8.DecodeRuneInString, a1, a2]
  cases t with
  | nil => left; simp [utf8.DecodeRuneInString, a1, a2]
  | cons s1 t1 =>
    by_cases a3 : s1.val < utf8.acceptLo s0 ∨ utf8.acceptHi s0 < s1.val
    · left
      simp only [utf8.DecodeRuneInString, if_neg a1, if_neg a2, if_pos a3]
    by_cases a4 : s0.val < 0xE0
    · right
      have e : Encodes s0 [s1] (s0.val % 32 * 64 + s1.val % 64) :=
        .two s0 s1 (by omega) a4 (by omega) (by omega)
      exact ⟨[s1], t1, _, rfl, e, decode_of_encodes e t1⟩
    cases t1 with
    | nil => left; simp only [utf8.DecodeRuneInString, if_neg a1, if_neg a2, if_neg a3, if_neg a4]
    | cons s2 t2 =>
      by_cases a5 : s2.val < 0x80 ∨ 0xBF < s2.val
      · left
        simp only [utf8.DecodeRuneInString, if_neg a1, if_neg a2, if_neg a3, if_neg a4, if_pos a5]
      by_cases a6 : s0.val < 0xF0
      · right
        have e : Encodes s0 [s1, s2] (s0.val % 16 * 4096 + s1.val % 64 * 64 + s2.val % 64) :=
          .three s0 s1 s2 (by omega) a6 (by omega) (by omega) (by omega) (by omega) (by omega)
            (by omega)
        exact ⟨[s1, s2], t2, _, rfl, e, decode_of_encodes e t2⟩
      cases t2 with
      | nil =>
        left
        simp only [utf8.DecodeRuneInString, if_neg a1, if_neg a2, if_neg a3, if_neg a4,
          if_neg a5, if_neg a6]
      | cons s3 t3 =>
        by_cases a7 : s3.val < 0x80 ∨ 0xBF < s3.val
        · left
          simp only [utf8.DecodeRuneInString, if_neg a1, if_neg a2, if_neg a3, if_neg a4,
            if_neg a5, if_neg a6, if_pos a7]
        · right
          have e : Encodes s0 [s1, s2, s3]
              (s0.val % 8 * 262144 + s1.val % 64 * 4096 + s2.val % 64 * 64 + s3.val % 64) :=
            .four s0 s1 s2 s3 (by omega) (by omega) (by omega) (by omega) (by omega) (by omega)
              (by omega) (by omega) (by omega) (by omega)
          exact ⟨[s1, s2, s3], t3, _, rfl, e, decode_of_encodes e t3⟩

theorem encodes_cont_ge {s0 : Byte} {cont : List Byte} {r : Nat} (h : Encodes s0 cont r) :
    ∀ b ∈ cont, 128 ≤ b.val := by
  cases h <;> simp <;> omega

theorem encodes_ascii {s0 : Byte} {cont : List Byte} {r : Nat} (h : Encodes s0 cont r)
    (h0 : s0.val < 128) : cont = [] ∧ r = s0.val := by
  cases h <;> first | exact ⟨rfl, rfl⟩ | omega

theorem encodes_rune_ge {s0 : Byte} {cont : List Byte} {r : Nat} (h : Encodes s0 cont r)
    (h0 : 128 ≤ s0.val) : 128 ≤ r := by
  cases h <;> omega

/-- A well-formed encoding is never the error pair. -/
theorem encodes_not_error {s0 : Byte} {cont : List Byte} {r : Nat} (h : Encodes s0 cont r) :
    ¬ (r = utf8.RuneError ∧ cont.length + 1 = 1) := by
  rintro ⟨h1, h2⟩
  cases h with
  | one h0 => simp only [utf8.RuneError] at h1; omega
  | two => simp at h2
  | three => simp at h2
  | four => simp at h2

/-- The rune of a well-formed encoding written without `%`, with its range. -/
theorem encodes_value {s0 : Byte} {cont : List Byte} {r : Nat} (h : Encodes s0 cont r) :
    (cont = [] ∧ r = s0.val ∧ r < 128) ∨
    (∃ s1 : Byte, cont = [s1] ∧ 194 ≤ s0.val ∧ s0.val < 224 ∧ 128 ≤ s1.val ∧ s1.val ≤ 191 ∧
      r = (s0.val - 192) * 64 + (s1.val - 128) ∧ 128 ≤ r ∧ r < 2048) ∨
    (∃ s1 s2 : Byte, cont = [s1, s2] ∧ 224 ≤ s0.val ∧ s0.val < 240 ∧ 128 ≤ s1.val ∧
      s1.val ≤ 191 ∧ 128 ≤ s2.val ∧ s2.val ≤ 191 ∧
      r = (s0.val - 224) * 4096 + (s1.val - 128) * 64 + (s2.val - 128) ∧ 2048 ≤ r ∧ r < 65536) ∨
    (∃ s1 s2 s3 : Byte, cont = [s1, s2, s3] ∧ 240 ≤ s0.val ∧ s0.val ≤ 244 ∧ 128 ≤ s1.val ∧
      s1.val ≤ 191 ∧ 128 ≤ s2.val ∧ s2.val ≤ 191 ∧ 128 ≤ s3.val ∧ s3.val ≤ 191 ∧
      r = (s0.val - 240) * 262144 + (s1.val - 128) * 4096 + (s2.val - 128) * 64 + (s3.val - 128) ∧
      65536 ≤ r) := by
  cases h with
  | one h0 => left; exact ⟨rfl, rfl, h0⟩
  | two s1 h0 h0' h1 h1' =>
    right; left
    have m0 : s0.val % 32 = s0.val - 192 := by omega
    have m1 : s1.val % 64 = s1.val - 128 := by omega
    rw [m0, m1]
    exact ⟨s1, rfl, h0, h0', h1, h1', rfl, by omega, by omega⟩
  | three s1 s2 h0 h0' h1 h1' hlo hhi h2 h2' =>
    right; right; left
    have m0 : s0.val % 16 = s0.val - 224 := by omega
    have m1 : s1.val % 64 = s1.val - 128 := by omega
    have m2 : s2.val % 64 = s2.val - 128 := by omega
    rw [m0, m1, m2]
    exact ⟨s1, s2, rfl, h0, h0', h1, h1', h2, h2', rfl, by omega, by omega⟩
  | four s1 s2 s3 h0 h0' h1 h1' hlo hhi h2 h2' h3 h3' =>
    right; right; right
    have m0 : s0.val % 8 = s0.val - 240 := by omega
    have m1 : s1.val % 64 = s1.val - 128 := by omega
    have m2 : s2.val % 64 = s2.val - 128 := by omega
    have m3 : s3.val % 64 = s3.val - 128 := by omega
    rw [m0, m1, m2, m3]
    exact ⟨s1, s2, s3, rfl, h0, h0', h1, h1', h2, h2', h3, h3', rfl, by omega⟩

/-- Two well-formed encodings of the same rune are the same bytes. -/
theorem encodes_inj {s0 s0' : Byte} {cont cont' : List Byte} {r : Nat}
    (h : Encodes s0 cont r) (h' : Encodes s0' cont' r) : s0 = s0' ∧ cont = cont' := by
  rcases encodes_value h with ⟨rfl, a1, a2⟩ | ⟨s1, rfl, a⟩ | ⟨s1, s2, rfl, a⟩ |
      ⟨s1, s2, s3, rfl, a⟩ <;>
    rcases encodes_value h' with ⟨rfl, b1, b2⟩ | ⟨t1, rfl, b⟩ | ⟨t1, t2, rfl, b⟩ |
      ⟨t1, t2, t3, rfl, b⟩
  · exact ⟨Fin.ext (by omega), rfl⟩
  · omega
  · omega
  · omega
  · omega
  · have e0 : s0.val = s0'.val := by omega
    have e1 : s1.val = t1.val := by omega
    rw [Fin.ext e0, Fin.ext e1]
    exact ⟨rfl, rfl⟩
  · omega
  · omega
  · omega
  · omega
  · have e0 : s0.val = s0'.val := by omega
    have e1 : s1.val = t1.val := by omega
    have e2 : s2.val = t2.val := by omega
    rw [Fin.ext e0, Fin.ext e1, Fin.ext e2]
    exact ⟨rfl, rfl⟩
  · omega
  · omega
  · omega
  · omega
  · have e0 : s0.val = s0'.val := by omega
    have e1 : s1.val = t1.val := by omega
    have e2 : s2.val = t2.val := by omega
    have e3 : s3.val = t3.val := by omega
    rw [Fin.ext e0, Fin.ext e1, Fin.ext e2, Fin.ext e3]
    exact ⟨rfl, rfl⟩

/-! ### The decoding loop -/

theorem decodeLoop_fuel (fuel fuel' : Nat) (s : GoString) (h : s.length ≤ fuel)
    (h' : s.length ≤ fuel') : utf8.decodeLoop fuel s = utf8.decodeLoop fuel' s := by
  induction fuel generalizing fuel' s with
  | zero =>
    have : s = [] := List.eq_nil_of_length_eq_zero (by omega)
    subst this
    cases fuel' <;> rfl
  | succ fuel ih =>
    cases s with
    | nil => cases fuel' <;> rfl
    | cons c t =>
      cases fuel' with
      | zero => simp at h'
      | succ fuel' =>
        simp only [List.length_cons] at h h'
        simp only [utf8.decodeLoop]
        congr 1
        apply ih
        · simp only [List.length_drop, List.length_cons]
          rcases decode_cases c t with e | ⟨cont, rest, r, _, _, e⟩ <;> rw [e] <;> simp <;> omega
        · simp only [List.length_drop, List.length_cons]
          rcases decode_cases c t with e | ⟨cont, rest, r, _, _, e⟩ <;> rw [e] <;> simp <;> omega

theorem decode_nil : utf8.decode [] = [] := rfl

/-- One step of the decoding loop. -/
theorem decode_cons (c : Byte) (t : GoString) :
    utf8.decode (c :: t) = utf8.DecodeRuneInString (c :: t) ::
      utf8.decode ((c :: t).drop (utf8.DecodeRuneInString (c :: t)).2) := by
  unfold utf8.decode
  simp only [List.length_cons, utf8.decodeLoop]
  congr 1
  apply decodeLoop_fuel
  · simp only [List.length_drop, List.length_cons]
    rcases decode_cases c t with e | ⟨cont, rest, r, _, _, e⟩ <;> rw [e] <;> simp
  · exact le_refl _

theorem decode_encodes {s0 : Byte} {cont : List Byte} {r : Nat} (h : Encodes s0 cont r)
    (rest : GoString) :
    utf8.decode (s0 :: (cont ++ rest)) = (r, cont.length + 1) :: utf8.decode rest := by
  rw [decode_cons, decode_of_encodes h rest]
  simp

theorem runes_encodes {s0 : Byte} {cont : List Byte} {r : Nat} (h : Encodes s0 cont r)
    (rest : GoString) : utf8.runes (s0 :: (cont ++ rest)) = r :: utf8.runes rest := by
  simp [utf8.runes, decode_encodes h rest]

theorem validString_encodes {s0 : Byte} {cont : List Byte} {r : Nat} (h : Encodes s0 cont r)
    (rest : GoString) :
    utf8.ValidString (s0 :: (cont ++ rest)) = utf8.ValidString rest := by
  have := encodes_not_error h
  simp only [utf8.ValidString, decode_encodes h rest, List.all_cons]
  have e : (!(r == utf8.RuneError && cont.length + 1 == 1)) = true := by
    simp only [Bool.not_eq_true', Bool.and_eq_false_imp, beq_iff_eq, beq_eq_false_iff_ne]
    intro h1 h2
    exact this ⟨h1, h2⟩
  rw [e, Bool.true_and]

/-- A valid string is empty or starts with a well-formed encoding followed by
a valid string. -/
theorem validString_cons {s0 : Byte} {t : GoString} (h : utf8.ValidString (s0 :: t) = true) :
    ∃ cont rest r, t = cont ++ rest ∧ Encodes s0 cont r ∧ utf8.ValidString rest = true := by
  rcases decode_cases s0 t with e | ⟨cont, rest, r, rfl, henc, _⟩
  · simp [utf8.ValidString, decode_cons, e] at h
  · rw [validString_encodes henc] at h
    exact ⟨cont, rest, r, rfl, henc, h⟩

/-- Induction over a valid string, one encoded rune at a time. -/
theorem validString_induction {P : GoString → Prop} (nil : P [])
    (step : ∀ (s0 : Byte) (cont : List Byte) (r : Nat) (rest : GoString),
      Encodes s0 cont r → utf8.ValidString rest = true → P rest → P (s0 :: (cont ++ rest)))
    (s : GoString) (h : utf8.ValidString s = true) : P s := by
  generalize hn : s.length = n
  induction n using Nat.strong_induction_on generalizing s with
  | _ n ih =>
    cases s with
    | nil => exact nil
    | cons s0 t =>
      obtain ⟨cont, rest, r, rfl, henc, hv⟩ := validString_cons h
      exact step s0 cont r rest henc hv
        (ih rest.length (by simp only [List.length_cons, List.length_append] at hn; omega)
          rest hv rfl)

/-- A valid string cut at an ASCII byte: both sides are valid. -/
theorem validString_split (a : GoString) (c : Byte) (b : GoString) (hc : c.val < 128)
    (h : utf8.ValidString (a ++ c :: b) = true) :
    utf8.ValidString a = true ∧ utf8.ValidString b = true := by
  generalize hn : a.length = n
  induction n using Nat.strong_induction_on generalizing a with
  | _ n ih =>
    cases a with
    | nil =>
      have e : Encodes c [] c.val := .one c hc
      have := validString_encodes e b
      simp only [List.nil_append] at this h
      rw [this] at h
      exact ⟨rfl, h⟩
    | cons s0 a =>
      simp only [List.cons_append] at h
      obtain ⟨cont, rest, r, hsplit, henc, hv⟩ := validString_cons h
      have hge := encodes_cont_ge henc
      -- the continuation bytes lie inside `a`
      have hpre : ∃ a', a = cont ++ a' ∧ rest = a' ++ c :: b := by
        clear ih hn h hv henc
        induction cont generalizing a with
        | nil => exact ⟨a, rfl, by simpa using hsplit.symm⟩
        | cons x cont ihc =>
          cases a with
          | nil =>
            simp only [List.nil_append, List.cons_append, List.cons.injEq] at hsplit
            have := hge x (by simp)
            rw [← hsplit.1] at this
            omega
          | cons y a =>
            simp only [List.cons_append, List.cons.injEq] at hsplit
            obtain ⟨a', h1, h2⟩ := ihc a hsplit.2 (fun z hz => hge z (by simp [hz]))
            exact ⟨a', by rw [hsplit.1, h1]; rfl, h2⟩
      obtain ⟨a', rfl, rfl⟩ := hpre
      obtain ⟨h1, h2⟩ := ih a'.length
        (by simp only [List.length_cons, List.length_append] at hn; omega) a' hv rfl
      exact ⟨by rw [validString_encodes henc]; exact h1, h2⟩

/-! ### Invalid bytes -/

/-- The error pair is returned only on a byte that is not ASCII. -/
theorem decode_error_ge {s0 : Byte} {t : GoString}
    (e : utf8.DecodeRuneInString (s0 :: t) = (utf8.RuneError, 1)) : 128 ≤ s0.val := by
  by_contra h
  have h' : s0.val < 128 := by omega
  have e2 := decode_of_encodes (.one s0 h') t
  simp only [List.nil_append] at e2
  rw [e2] at e
  simp only [utf8.RuneError, Prod.mk.injEq] at e
  omega

theorem decode_error {s0 : Byte} {t : GoString}
    (e : utf8.DecodeRuneInString (s0 :: t) = (utf8.RuneError, 1)) :
    utf8.decode (s0 :: t) = (utf8.RuneError, 1) :: utf8.decode t := by
  rw [decode_cons, e]
  simp

/-- An invalid byte reads as U+FFFD and the loop goes on with the next byte. -/
theorem runes_error {s0 : Byte} {t : GoString}
    (e : utf8.DecodeRuneInString (s0 :: t) = (utf8.RuneError, 1)) :
    utf8.runes (s0 :: t) = utf8.RuneError :: utf8.runes t := by
  simp [utf8.runes, decode_error e]

theorem validString_error {s0 : Byte} {t : GoString}
    (e : utf8.DecodeRuneInString (s0 :: t) = (utf8.RuneError, 1)) :
    utf8.ValidString (s0 :: t) = false := by
  simp [utf8.ValidString, decode_error e]

/-- Induction over any string, one step of the decoding loop at a time: an
invalid byte, or a well-formed encoding. -/
theorem string_induction {P : GoString → Prop} (nil : P [])
    (bad : ∀ (s0 : Byte) (t : GoString), 128 ≤ s0.val →
      utf8.DecodeRuneInString (s0 :: t) = (utf8.RuneError, 1) → P t → P (s0 :: t))
    (good : ∀ (s0 : Byte) (cont : List Byte) (r : Nat) (rest : GoString),
      Encodes s0 cont r → P rest → P (s0 :: (cont ++ rest)))
    (s : GoString) : P s := by
  generalize hn : s.length = n
  induction n using Nat.strong_induction_on generalizing s with
  | _ n ih =>
    cases s with
    | nil => exact nil
    | cons s0 t =>
      rcases decode_cases s0 t with e | ⟨cont, rest, r, rfl, henc, _⟩
      · exact bad s0 t (decode_error_ge e) e
          (ih t.length (by simp only [List.length_cons] at hn; omega) t rfl)
      · exact good s0 cont r rest henc
          (ih rest.length (by simp only [List.length_cons, List.length_append] at hn; omega)
            rest rfl)

/-! ## Compiling a sanitized section -/

theorem special_not_alnum {b : Byte} (h : special b = true) :
    regexp.isalnum b = false ∧ b ≠ 42 ∧ b ≠ 63 := by
  rw [special_eq_mem] at h
  simp only [decide_eq_true_eq, specialList, List.mem_cons, List.mem_singleton,
    List.not_mem_nil, or_false] at h
  rcases h with h | h | h | h | h | h | h | h | h | h | h | h <;> subst h <;> decide

theorem plain_ne {b : Byte} (hs : special b = false) (hw : isWildcard b = false) :
    b ≠ 94 ∧ b ≠ 36 ∧ b ≠ 46 ∧ b ≠ 42 ∧ b ≠ 63 ∧ b ≠ 92 ∧
      ¬ (b = 43 ∨ b = 40 ∨ b = 41 ∨ b = 124 ∨ b = 91 ∨ b = 93 ∨ b = 123 ∨ b = 125) := by
  rw [special_eq_mem] at hs
  simp only [decide_eq_false_iff_not, specialList, List.mem_cons, List.mem_singleton,
    List.not_mem_nil, or_false, not_or] at hs
  simp only [isWildcard, Bool.or_eq_false_iff, beq_eq_false_iff_ne, ne_eq] at hw
  simp only [ne_eq, not_or]
  tauto

theorem ne_of_ge {b : Byte} (h : 128 ≤ b.val) (n : Byte) (hn : n.val < 128) : b ≠ n := by
  rintro rfl
  omega

theorem high_ne {b : Byte} (h : 128 ≤ b.val) :
    b ≠ 94 ∧ b ≠ 36 ∧ b ≠ 46 ∧ b ≠ 42 ∧ b ≠ 63 ∧ b ≠ 92 ∧
      ¬ (b = 43 ∨ b = 40 ∨ b = 41 ∨ b = 124 ∨ b = 91 ∨ b = 93 ∨ b = 123 ∨ b = 125) := by
  have v := ne_of_ge h
  simp only [not_or]
  refine ⟨v _ ?_, v _ ?_, v _ ?_, v _ ?_, v _ ?_, v _ ?_, v _ ?_, v _ ?_, v _ ?_, v _ ?_,
    v _ ?_, v _ ?_, v _ ?_, v _ ?_⟩ <;> decide

/-! ### The limits of the parser -/

theorem node_calcHeight_le (n : regexp.Node) : n.calcHeight ≤ 2 := by
  cases n <;> simp [regexp.Node.calcHeight]

theorem foldl_max_le (l : List Nat) (b : Nat) (hl : ∀ x ∈ l, x ≤ b) :
    ∀ init, init ≤ b → l.foldl max init ≤ b := by
  induction l with
  | nil => exact fun init h => h
  | cons x l ih =>
    intro init h
    rw [List.foldl_cons]
    exact ih (fun y hy => hl y (by simp [hy])) _ (max_le h (hl x (by simp)))

theorem calcHeight_le (re : regexp.StackItem) : re.calcHeight ≤ 2 := by
  unfold regexp.StackItem.calcHeight
  refine foldl_max_le _ 2 ?_ 1 (by omega)
  intro x hx
  obtain ⟨n, _, rfl⟩ := List.mem_map.1 hx
  exact node_calcHeight_le n

/-- No height of the fragment reaches `maxHeight`. -/
theorem checkHeight_eq (p : regexp.parser) : p.checkHeight = some p := by
  unfold regexp.parser.checkHeight
  split
  · rfl
  · rw [if_neg]
    simp only [List.any_eq_true, decide_eq_true_eq, not_exists, not_and, not_lt]
    intro re _
    have := calcHeight_le re
    unfold regexp.maxHeight
    omega

theorem checkLimits_eq (p : regexp.parser) :
    p.checkLimits = if regexp.maxRunes < p.numRunes then none else p.checkSize := by
  unfold regexp.parser.checkLimits
  split
  · rfl
  · cases h : p.checkSize with
    | none => rfl
    | some q => exact checkHeight_eq q

/-- Below the limits nothing is computed and the state is left as it is. -/
theorem checkLimits_small {p : regexp.parser} (hs : p.sizing = false)
    (hn : p.numRegexp < regexp.maxSize) (hr : p.numRunes ≤ regexp.maxRunes) :
    p.checkLimits = some p := by
  rw [checkLimits_eq, if_neg (by omega)]
  unfold regexp.parser.checkSize
  simp [hs, hn]

/-- The checks change the entries of `p.size` only. -/
theorem checkSize_some {p q : regexp.parser} (h : p.checkSize = some q) :
    q.shape = p.shape ∧ q.free = p.free ∧ q.numRegexp = p.numRegexp ∧
      q.numRunes = p.numRunes := by
  unfold regexp.parser.checkSize at h
  split at h
  · split at h
    · cases h
      exact ⟨rfl, rfl, rfl, rfl⟩
    · split at h
      · cases h
      · cases h
        rename_i hst _
        exact ⟨by simp [regexp.parser.shape, hst], rfl, rfl, rfl⟩
  · split at h
    · cases h
      exact ⟨rfl, rfl, rfl, rfl⟩
    · split at h
      · cases h
      · cases h
        refine ⟨?_, rfl, rfl, rfl⟩
        simp [regexp.parser.shape, Function.comp_def]

theorem checkLimits_some {p q : regexp.parser} (h : p.checkLimits = some q) :
    q.shape = p.shape ∧ q.free = p.free ∧ q.numRegexp = p.numRegexp ∧
      q.numRunes = p.numRunes := by
  rw [checkLimits_eq] at h
  split at h
  · cases h
  · exact checkSize_some h


theorem maybeConcat_nodes (p : regexp.parser) : p.maybeConcat.nodes = p.nodes := by
  unfold regexp.parser.maybeConcat
  split
  · split
    · rename_i hst _
      simp [regexp.parser.nodes, regexp.parser.shape, regexp.parser.reuse, hst]
    · rfl
  · rfl

theorem maybeConcat_stack_congr {p q : regexp.parser} (h : p.stack = q.stack) :
    p.maybeConcat.stack = q.maybeConcat.stack := by
  cases p with
  | mk s1 f1 n1 r1 z1 =>
    cases q with
    | mk s2 f2 n2 r2 z2 =>
      simp only at h
      subst h
      cases s1 with
      | nil => rfl
      | cons a l =>
        cases l with
        | nil => rfl
        | cons b l =>
          simp only [regexp.parser.maybeConcat]
          split <;> rfl

theorem maybeConcat_counters (p : regexp.parser) :
    p.maybeConcat.numRegexp = p.numRegexp ∧ p.maybeConcat.numRunes = p.numRunes ∧
      p.maybeConcat.sizing = p.sizing := by
  unfold regexp.parser.maybeConcat
  split
  · split
    · exact ⟨rfl, rfl, rfl⟩
    · exact ⟨rfl, rfl, rfl⟩
  · exact ⟨rfl, rfl, rfl⟩

theorem maybeConcat_shape_ne_nil {p : regexp.parser} (h : p.shape ≠ []) :
    p.maybeConcat.shape ≠ [] := by
  unfold regexp.parser.maybeConcat
  split
  · split
    · simp [regexp.parser.shape, regexp.parser.reuse]
    · exact h
  · exact h

theorem newRegexp_stack (p : regexp.parser) :
    p.newRegexp.stack = p.stack ∧ p.newRegexp.numRunes = p.numRunes ∧
      p.newRegexp.sizing = p.sizing ∧ p.newRegexp.numRegexp ≤ p.numRegexp + 1 := by
  unfold regexp.parser.newRegexp
  split
  · exact ⟨rfl, rfl, rfl, le_refl _⟩
  · exact ⟨rfl, rfl, rfl, Nat.le_succ _⟩

/-- Allocating, giving back and allocating again is allocating once. -/
theorem newRegexp_reuse_newRegexp (p : regexp.parser) :
    p.newRegexp.reuse.newRegexp = p.newRegexp := by
  unfold regexp.parser.newRegexp regexp.parser.reuse
  cases h : p.free <;> simp

theorem push_some {p q : regexp.parser} {re : regexp.StackItem} (h : p.push re = some q) :
    q.shape = (re.nodes, re.isLiteral) :: p.maybeConcat.shape ∧
      q.nodes = p.nodes ++ re.nodes := by
  unfold regexp.parser.push at h
  have h1 := (checkLimits_some h).1
  have e : q.shape = (re.nodes, re.isLiteral) :: p.maybeConcat.shape := by
    rw [h1]
    simp only [regexp.parser.shape, List.map_cons]
    congr 2
    exact maybeConcat_stack_congr rfl
  refine ⟨e, ?_⟩
  rw [← maybeConcat_nodes p]
  simp [regexp.parser.nodes, e]

theorem op_some {p q : regexp.parser} {n : regexp.Node} (h : p.op n = some q) :
    q.shape = ([n], false) :: p.maybeConcat.shape ∧ q.nodes = p.nodes ++ [n] := by
  unfold regexp.parser.op at h
  have := push_some h
  have hs : p.newRegexp.maybeConcat.shape = p.maybeConcat.shape := by
    unfold regexp.parser.shape
    rw [maybeConcat_stack_congr (newRegexp_stack p).1]
  have hn : p.newRegexp.nodes = p.nodes := by
    unfold regexp.parser.nodes regexp.parser.shape
    rw [(newRegexp_stack p).1]
  rw [hs, hn] at this
  exact this

theorem literal_some {p q : regexp.parser} {r : Nat} (h : p.literal r = some q) :
    q.shape = ([.one (.literal r)], true) :: p.maybeConcat.shape ∧
      q.nodes = p.nodes ++ [.one (.literal r)] := by
  unfold regexp.parser.literal at h
  have := push_some h
  have hs : p.newRegexp.maybeConcat.shape = p.maybeConcat.shape := by
    unfold regexp.parser.shape
    rw [maybeConcat_stack_congr (newRegexp_stack p).1]
  have hn : p.newRegexp.nodes = p.nodes := by
    unfold regexp.parser.nodes regexp.parser.shape
    rw [(newRegexp_stack p).1]
  rw [hs, hn] at this
  exact this

theorem nodes_cons {q p : regexp.parser} {x : List regexp.Node × Bool}
    (h : q.shape = x :: p.shape) : q.nodes = p.nodes ++ x.1 := by
  simp [regexp.parser.nodes, h]

theorem nodeOf_literal {r : Nat} (h : ¬ (r = 42 ∨ r = 63)) :
    nodeOf r = .one (.literal r) := by
  unfold nodeOf
  rw [if_neg (fun e => h (Or.inl e)), if_neg (fun e => h (Or.inr e))]

/-- Reading the sanitized form of one rune puts its node on the stack. -/
theorem read_some {p q : regexp.parser} {r : Nat} (h : p.read r = some q) :
    q.shape = ([nodeOf r], decide (¬ (r = 42 ∨ r = 63))) :: p.maybeConcat.shape ∧
      q.nodes = p.nodes ++ [nodeOf r] := by
  have key : q.shape = ([nodeOf r], decide (¬ (r = 42 ∨ r = 63))) :: p.maybeConcat.shape := by
    unfold regexp.parser.read at h
    split at h
    · rename_i hr
      cases h1 : p.op (.one .anyCharNotNL) with
      | none => rw [h1] at h; cases h
      | some p1 =>
        rw [h1] at h
        simp only [Option.some_bind] at h
        have e1 := (op_some h1).1
        have e2 := (checkLimits_some h).1
        rw [e2]
        have : p1.stack.tail.map (fun re => (re.nodes, re.isLiteral)) = p.maybeConcat.shape := by
          have : p1.shape.tail = p.maybeConcat.shape := by rw [e1]; rfl
          rw [← this]
          simp [regexp.parser.shape]
        simp only [regexp.parser.shape, List.map_cons, this, hr, not_true_eq_false,
          decide_False]
    · rename_i hr
      rw [(literal_some h).1, nodeOf_literal hr]
      simp [hr]
  refine ⟨key, ?_⟩
  rw [← maybeConcat_nodes p]
  exact nodes_cons key

theorem read_shape_ne_nil {p q : regexp.parser} {r : Nat} (h : p.read r = some q) :
    q.shape ≠ [] := by
  rw [(read_some h).1]
  exact List.cons_ne_nil _ _

theorem readAll_some (rs : List Nat) :
    ∀ {p q : regexp.parser}, p.readAll rs = some q →
      q.nodes = p.nodes ++ rs.map nodeOf ∧ (p.shape ≠ [] → q.shape ≠ []) := by
  induction rs with
  | nil =>
    intro p q h
    cases h
    exact ⟨by simp, id⟩
  | cons r rs ih =>
    intro p q h
    rw [regexp.parser.readAll] at h
    cases h1 : p.read r with
    | none => rw [h1] at h; cases h
    | some p1 =>
      rw [h1] at h
      simp only [Option.some_bind] at h
      obtain ⟨i1, i2⟩ := ih h
      refine ⟨?_, fun _ => i2 (read_shape_ne_nil h1)⟩
      rw [i1, (read_some h1).2]
      simp

/-- What `concat` returns, when it returns, is the nodes of the stack. -/
theorem concat_some {p : regexp.parser} {re : regexp.Regexp} (h : p.concat = some re) :
    re = p.nodes := by
  rw [← maybeConcat_nodes p]
  unfold regexp.parser.concat at h
  simp only at h
  split at h
  · rename_i hst
    cases h1 : ({ p.maybeConcat with stack := [] } : regexp.parser).newRegexp.push ⟨[], false, none⟩ with
    | none => rw [h1] at h; cases h
    | some p2 =>
      rw [h1] at h
      simp only [Option.some_bind, Option.map_eq_some'] at h
      obtain ⟨_, _, rfl⟩ := h
      simp [regexp.parser.nodes, regexp.parser.shape, hst]
  · rename_i x hst
    cases h1 : ({ p.maybeConcat with stack := [] } : regexp.parser).push x with
    | none => rw [h1] at h; cases h
    | some p2 =>
      rw [h1] at h
      simp only [Option.some_bind, Option.map_eq_some'] at h
      obtain ⟨_, _, rfl⟩ := h
      simp [regexp.parser.nodes, regexp.parser.shape, hst]
  · rename_i re1 re2 rest hst
    split at h
    · cases h
    · split at h
      · cases h
      · split at h
        · cases h
        · cases h
          simp [regexp.parser.nodes, regexp.parser.shape, hst, List.flatMap, Function.comp_def]

/-- What the parser returns for `^`, the sanitized runes and `$`, when it
returns: the nodes of the runes between the two anchors. -/
theorem compileRunes_some {rs : List Nat} {re : regexp.Regexp}
    (h : regexp.compileRunes rs = some re) :
    re = .beginText :: rs.map nodeOf ++ [.endText] := by
  unfold regexp.compileRunes at h
  cases h0 : (regexp.parser.mk [] 0 0 0 false).op .beginText with
  | none => rw [h0] at h; cases h
  | some p =>
    rw [h0] at h
    simp only [Option.some_bind] at h
    cases h1 : p.readAll rs with
    | none => rw [h1] at h; cases h
    | some p1 =>
      rw [h1] at h
      simp only [Option.some_bind] at h
      cases h2 : p1.op .endText with
      | none => rw [h2] at h; cases h
      | some p2 =>
        rw [h2] at h
        simp only [Option.some_bind] at h
        rw [concat_some h, (op_some h2).2, (readAll_some rs h1).1, (op_some h0).2]
        simp [regexp.parser.nodes, regexp.parser.shape]

/-! ### Below the limits -/

theorem maxSize_eq : regexp.maxSize = 3355443 := by decide

theorem maxRunes_eq : regexp.maxRunes = 33554432 := by decide

theorem push_small {p : regexp.parser} {re : regexp.StackItem} {n m : Nat}
    (hs : p.sizing = false) (hn : p.numRegexp ≤ n) (hr : p.numRunes + re.runes ≤ m)
    (hn' : n < regexp.maxSize) (hm : m ≤ regexp.maxRunes) :
    ∃ q, p.push re = some q ∧ q.Small n m := by
  unfold regexp.parser.push
  simp only
  obtain ⟨c1, c2, c3⟩ := maybeConcat_counters
    { p with numRunes := p.numRunes + re.runes }
  simp only at c1 c2 c3
  refine ⟨_, checkLimits_small ?_ ?_ ?_, ?_, ?_, ?_⟩
  · exact c3.trans hs
  · simp only [c1]; omega
  · simp only [c2]; omega
  · exact c3.trans hs
  · simp only [c1]; omega
  · simp only [c2]; omega

theorem op_small {p : regexp.parser} {n m : Nat} (nd : regexp.Node) (h : p.Small n m)
    (hn : n + 1 < regexp.maxSize) (hm : m ≤ regexp.maxRunes) :
    ∃ q, p.op nd = some q ∧ q.Small (n + 1) m := by
  obtain ⟨h1, h2, h3⟩ := h
  obtain ⟨e1, e2, e3, e4⟩ := newRegexp_stack p
  unfold regexp.parser.op
  refine push_small (by rw [e3, h1]) (by omega) ?_ hn hm
  rw [e2]
  simp only [regexp.StackItem.runes, Bool.false_eq_true, if_false]
  omega

theorem literal_small {p : regexp.parser} {n m : Nat} (r : Nat) (h : p.Small n m)
    (hn : n + 1 < regexp.maxSize) (hm : m + 1 ≤ regexp.maxRunes) :
    ∃ q, p.literal r = some q ∧ q.Small (n + 1) (m + 1) := by
  obtain ⟨h1, h2, h3⟩ := h
  obtain ⟨e1, e2, e3, e4⟩ := newRegexp_stack p
  unfold regexp.parser.literal
  refine push_small (by rw [e3, h1]) (by omega) ?_ hn hm
  rw [e2]
  simp only [regexp.StackItem.runes, if_true, List.length_singleton]
  omega

theorem read_small {p : regexp.parser} {n m : Nat} (r : Nat) (h : p.Small n m)
    (hn : n + 2 < regexp.maxSize) (hm : m + 1 ≤ regexp.maxRunes) :
    ∃ q, p.read r = some q ∧ q.Small (n + 2) (m + 1) := by
  unfold regexp.parser.read
  split
  · obtain ⟨p1, e1, s1, s2, s3⟩ := op_small (.one .anyCharNotNL) h (by omega)
      (by omega : m ≤ regexp.maxRunes)
    rw [e1]
    simp only [Option.some_bind]
    obtain ⟨f1, f2, f3, f4⟩ := newRegexp_stack p1
    refine ⟨_, checkLimits_small ?_ ?_ ?_, ?_, ?_, ?_⟩
    · exact f3.trans s1
    · simp only; omega
    · simp only [f2]; omega
    · exact f3.trans s1
    · simp only; omega
    · simp only [f2]; omega
  · obtain ⟨q, e, s1, s2, s3⟩ := literal_small r h (by omega) hm
    exact ⟨q, e, s1, by omega, by omega⟩

theorem readAll_small (rs : List Nat) :
    ∀ {p : regexp.parser} {n m : Nat}, p.Small n m → n + 2 * rs.length < regexp.maxSize →
      m + rs.length ≤ regexp.maxRunes →
      ∃ q, p.readAll rs = some q ∧ q.Small (n + 2 * rs.length) (m + rs.length) := by
  induction rs with
  | nil => exact fun h _ _ => ⟨_, rfl, h⟩
  | cons r rs ih =>
    intro p n m h hn hm
    simp only [List.length_cons] at hn hm ⊢
    obtain ⟨p1, e1, s1⟩ := read_small r h (by omega) (by omega)
    obtain ⟨q, e2, s2⟩ := ih s1 (by omega) (by omega)
    refine ⟨q, ?_, ?_⟩
    · rw [regexp.parser.readAll, e1]
      exact e2
    · have e3 : n + 2 + 2 * rs.length = n + 2 * (rs.length + 1) := by omega
      have e4 : m + 1 + rs.length = m + (rs.length + 1) := by omega
      rwa [e3, e4] at s2

theorem maybeConcat_of_top {p : regexp.parser} {a : regexp.StackItem}
    {l : List regexp.StackItem} (hst : p.stack = a :: l) (ha : a.isLiteral = false) :
    p.maybeConcat = p := by
  unfold regexp.parser.maybeConcat
  split
  · rename_i re1 re2 rest h
    rw [hst] at h
    cases h
    rw [if_neg (by simp [ha])]
  · rfl

theorem concat_small {p : regexp.parser} {n m : Nat} (h : p.Small n m)
    (hn : n + 1 < regexp.maxSize) (hm : m ≤ regexp.maxRunes) {a b : regexp.StackItem}
    {l : List regexp.StackItem} (hst : p.stack = a :: b :: l) (ha : a.isLiteral = false) :
    ∃ re, p.concat = some re := by
  obtain ⟨h1, h2, h3⟩ := h
  obtain ⟨e1, e2, e3, e4⟩ := newRegexp_stack p
  unfold regexp.parser.concat
  simp only [maybeConcat_of_top hst ha, hst]
  rw [if_neg (by rw [e2]; omega), if_neg, if_neg]
  · exact ⟨_, rfl⟩
  · simp only [Bool.and_eq_true, decide_eq_true_eq, not_and, not_lt]
    intro _
    have : ((a :: b :: l).map regexp.StackItem.calcHeight).foldl max 0 ≤ 2 := by
      refine foldl_max_le _ 2 ?_ 0 (by omega)
      intro x hx
      obtain ⟨re, _, rfl⟩ := List.mem_map.1 hx
      exact calcHeight_le re
    unfold regexp.maxHeight
    omega
  · simp only [Bool.and_eq_true, Bool.or_eq_true, decide_eq_true_eq, not_and, not_lt]
    rintro (hc | hc)
    · rw [e3, h1] at hc
      cases hc
    · omega

/-- After `$` the parser ends, when it is below its limits and the stack was
not empty. -/
theorem end_small {p : regexp.parser} {n m : Nat} (h : p.Small n m) (hp : p.shape ≠ [])
    (hn : n + 2 < regexp.maxSize) (hm : m ≤ regexp.maxRunes) :
    ∃ re, (p.op .endText).bind regexp.parser.concat = some re := by
  obtain ⟨p2, e2, s2⟩ := op_small .endText h (by omega) hm
  rw [e2]
  simp only [Option.some_bind]
  have hp1 := maybeConcat_shape_ne_nil hp
  have hp2 := (op_some e2).1
  obtain ⟨a, b, l, hst, ha⟩ : ∃ a b l, p2.stack = a :: b :: l ∧ a.isLiteral = false := by
    unfold regexp.parser.shape at hp1 hp2
    cases hs2 : p2.stack with
    | nil => rw [hs2] at hp2; cases hp2
    | cons a l =>
      rw [hs2] at hp2
      simp only [List.map_cons, List.cons.injEq, Prod.mk.injEq] at hp2
      cases l with
      | nil =>
        exfalso
        apply hp1
        rw [← hp2.2]
        rfl
      | cons b l => exact ⟨a, b, l, rfl, hp2.1.2⟩
  exact concat_small s2 (by omega) hm hst ha

theorem compileRunes_eq (rs : List Nat) :
    regexp.compileRunes rs
      = ((regexp.parser.mk [] 0 0 0 false).op .beginText).bind fun p =>
          (p.readAll rs).bind fun p1 => (p1.op .endText).bind regexp.parser.concat := rfl

/-- Below the limits the parser returns. -/
theorem compileRunes_small (rs : List Nat) (hm : 2 * rs.length + 3 < regexp.maxSize) :
    regexp.compileRunes rs = some (.beginText :: rs.map nodeOf ++ [.endText]) := by
  have key : ∃ re, regexp.compileRunes rs = some re := by
    rw [compileRunes_eq]
    have hm' := hm
    rw [maxSize_eq] at hm'
    obtain ⟨p, e0, s0⟩ := op_small (p := regexp.parser.mk [] 0 0 0 false) (n := 0) (m := 0)
      .beginText ⟨rfl, le_refl _, le_refl _⟩ (by omega) (by omega)
    obtain ⟨p1, e1, s1⟩ := readAll_small rs s0 (by omega) (by rw [maxRunes_eq]; omega)
    rw [e0]
    simp only [Option.some_bind]
    rw [e1]
    simp only [Option.some_bind]
    have hp : p.shape ≠ [] := by rw [(op_some e0).1]; exact List.cons_ne_nil _ _
    exact end_small s1 ((readAll_some rs e1).2 hp) (by omega) (by rw [maxRunes_eq]; omega)
  obtain ⟨re, e⟩ := key
  rw [e, compileRunes_some e]

/-! ### The parser on a sanitized section -/

theorem orLarge_eq_match {α : Type} (whole : GoString) (o : Option α)
    (k : α → Except regexp.SyntaxError regexp.Regexp) :
    (match o with
      | none => .error ⟨.large, whole⟩
      | some a => k a) = regexp.orLarge whole o k := by
  cases o <;> rfl

theorem parseLoop_nil (whole : GoString) (fuel : Nat) (p : regexp.parser) :
    regexp.parseLoop whole fuel p [] = regexp.orLarge whole p.concat .ok := by
  cases fuel <;> simp only [regexp.parseLoop] <;> cases p.concat <;> rfl

theorem parseLoop_begin (whole : GoString) (fuel : Nat) (p : regexp.parser) (t : GoString) :
    regexp.parseLoop whole (fuel + 1) p (94 :: t)
      = regexp.orLarge whole (p.op .beginText) fun p1 => regexp.parseLoop whole fuel p1 t := by
  simp only [regexp.parseLoop, if_true]
  cases p.op .beginText <;> rfl

theorem parseLoop_end (whole : GoString) (fuel : Nat) (p : regexp.parser) (t : GoString) :
    regexp.parseLoop whole (fuel + 1) p (36 :: t)
      = regexp.orLarge whole (p.op .endText) fun p1 => regexp.parseLoop whole fuel p1 t := by
  have h : ¬ ((36 : Byte) = 94) := by decide
  simp only [regexp.parseLoop, if_neg h, if_true]
  cases p.op .endText <;> rfl

theorem literal_after_escape (p : regexp.parser) (r : Nat) :
    p.newRegexp.reuse.literal r = p.literal r := by
  unfold regexp.parser.literal
  rw [newRegexp_reuse_newRegexp]

theorem parseLoop_escape (whole : GoString) (fuel : Nat) (p : regexp.parser) (e : Byte)
    (t : GoString) (h : special e = true) :
    regexp.parseLoop whole (fuel + 1) p (92 :: e :: t)
      = regexp.orLarge whole (p.literal e.val) fun p1 => regexp.parseLoop whole fuel p1 t := by
  have h1 := special_lt h
  have h2 := (special_not_alnum h).1
  have c1 : ¬ ((92 : Byte) = 94) := by decide
  have c2 : ¬ ((92 : Byte) = 36) := by decide
  have c3 : ¬ ((92 : Byte) = 46) := by decide
  have c4 : ¬ ((92 : Byte) = 42) := by decide
  have c5 : ¬ ((92 : Byte) = 63) := by decide
  simp only [regexp.parseLoop, if_neg c1, if_neg c2, if_neg c3, if_neg c4, if_neg c5, if_true,
    h1, h2, decide_True, Bool.not_false, Bool.and_self, literal_after_escape]
  cases p.literal e.val <;> rfl

theorem parseLoop_dot_wildcard (whole : GoString) (fuel : Nat) (p : regexp.parser) (w : Byte)
    (t : GoString) (hw : w = 42 ∨ w = 63) :
    regexp.parseLoop whole (fuel + 2) p (46 :: w :: t)
      = regexp.orLarge whole (p.read w.val) fun p1 => regexp.parseLoop whole fuel p1 t := by
  have c1 : ¬ ((46 : Byte) = 94) := by decide
  have c2 : ¬ ((46 : Byte) = 36) := by decide
  have hr : w.val = 42 ∨ w.val = 63 := by
    rcases hw with rfl | rfl
    · exact Or.inl rfl
    · exact Or.inr rfl
  rw [regexp.parseLoop]
  simp only [if_neg c1, if_neg c2, if_true, regexp.parser.read, if_pos hr]
  cases h1 : p.op (.one .anyCharNotNL) with
  | none => rfl
  | some p1 =>
    simp only [Option.some_bind, regexp.orLarge]
    have e1 := (op_some h1).1
    obtain ⟨s, below, hst⟩ : ∃ s below, p1.stack = ⟨[.one .anyCharNotNL], false, s⟩ :: below := by
      unfold regexp.parser.shape at e1
      cases hs : p1.stack with
      | nil => rw [hs] at e1; cases e1
      | cons a l =>
        rw [hs] at e1
        simp only [List.map_cons, List.cons.injEq, Prod.mk.injEq] at e1
        obtain ⟨n, b, s⟩ := a
        simp only at e1
        exact ⟨s, l, by rw [e1.1.1, e1.1.2]⟩
    rcases hw with rfl | rfl
    · have d1 : ¬ ((42 : Byte) = 94) := by decide
      have d2 : ¬ ((42 : Byte) = 36) := by decide
      have d3 : ¬ ((42 : Byte) = 46) := by decide
      have n1 : nodeOf ((42 : Byte).val) = .star .anyCharNotNL := by decide
      simp only [regexp.parseLoop, if_neg d1, if_neg d2, if_neg d3, if_true, hst,
        List.tail_cons, n1]
      generalize regexp.parser.checkLimits _ = o
      cases o <;> rfl
    · have d1 : ¬ ((63 : Byte) = 94) := by decide
      have d2 : ¬ ((63 : Byte) = 36) := by decide
      have d3 : ¬ ((63 : Byte) = 46) := by decide
      have d4 : ¬ ((63 : Byte) = 42) := by decide
      have n1 : nodeOf ((63 : Byte).val) = .quest .anyCharNotNL := by decide
      simp only [regexp.parseLoop, if_neg d1, if_neg d2, if_neg d3, if_neg d4, if_true, hst,
        List.tail_cons, n1]
      generalize regexp.parser.checkLimits _ = o
      cases o <;> rfl

theorem parseLoop_literal (whole : GoString) (fuel : Nat) (p : regexp.parser) (c : Byte)
    (t : GoString)
    (h : c ≠ 94 ∧ c ≠ 36 ∧ c ≠ 46 ∧ c ≠ 42 ∧ c ≠ 63 ∧ c ≠ 92 ∧
      ¬ (c = 43 ∨ c = 40 ∨ c = 41 ∨ c = 124 ∨ c = 91 ∨ c = 93 ∨ c = 123 ∨ c = 125))
    {r n : Nat} (hd : utf8.DecodeRuneInString (c :: t) = (r, n))
    (hv : ¬ (r = utf8.RuneError ∧ n = 1)) :
    regexp.parseLoop whole (fuel + 1) p (c :: t)
      = regexp.orLarge whole (p.literal r) fun p1 =>
          regexp.parseLoop whole fuel p1 ((c :: t).drop n) := by
  obtain ⟨h1, h2, h3, h4, h5, h6, h7⟩ := h
  simp only [regexp.parseLoop, if_neg h1, if_neg h2, if_neg h3, if_neg h4, if_neg h5,
    if_neg h6, if_neg h7, hd, if_neg hv]
  cases p.literal r <;> rfl

theorem flatMap_quoteByte_high (cont : List Byte) (h : ∀ b ∈ cont, 128 ≤ b.val) :
    cont.flatMap quoteByte = cont := by
  induction cont with
  | nil => rfl
  | cons x cont ih =>
    rw [List.flatMap_cons, quoteByte_of_ge (h x (by simp)), ih (fun z hz => h z (by simp [hz]))]
    rfl

theorem parseLoop_invalid (whole : GoString) (fuel : Nat) (p : regexp.parser) (c : Byte)
    (t : GoString)
    (h : c ≠ 94 ∧ c ≠ 36 ∧ c ≠ 46 ∧ c ≠ 42 ∧ c ≠ 63 ∧ c ≠ 92 ∧
      ¬ (c = 43 ∨ c = 40 ∨ c = 41 ∨ c = 124 ∨ c = 91 ∨ c = 93 ∨ c = 123 ∨ c = 125))
    (hd : utf8.DecodeRuneInString (c :: t) = (utf8.RuneError, 1)) :
    regexp.parseLoop whole (fuel + 1) p (c :: t) = .error ⟨.invalidUTF8, c :: t⟩ := by
  obtain ⟨h1, h2, h3, h4, h5, h6, h7⟩ := h
  simp only [regexp.parseLoop, if_neg h1, if_neg h2, if_neg h3, if_neg h4, if_neg h5,
    if_neg h6, if_neg h7, hd, and_self, if_true]

theorem read_literal (p : regexp.parser) {r : Nat} (h : ¬ (r = 42 ∨ r = 63)) :
    p.read r = p.literal r := by
  unfold regexp.parser.read
  rw [if_neg h]

/-- The parser reads the sanitized form of one encoded rune as one step. -/
theorem parseLoop_step (whole : GoString) {s0 : Byte} {cont : List Byte} {r : Nat}
    (henc : Encodes s0 cont r) (p : regexp.parser) (text : GoString) (fuel : Nat)
    (hf : (quoteByte s0).length + text.length ≤ fuel) :
    ∃ fuel', text.length ≤ fuel' ∧
      regexp.parseLoop whole fuel p (quoteByte s0 ++ (cont ++ text))
        = regexp.orLarge whole (p.read r) fun p1 => regexp.parseLoop whole fuel' p1 text := by
  have hd := decode_of_encodes henc text
  by_cases h0 : s0.val < 128
  · obtain ⟨rfl, rfl⟩ := encodes_ascii henc h0
    simp only [List.nil_append, List.length_nil] at hd ⊢
    by_cases hs : special s0 = true
    · have hq : quoteByte s0 = [92, s0] := by simp [quoteByte, hs]
      have hql : (quoteByte s0).length = 2 := by rw [hq]; rfl
      obtain ⟨k, rfl⟩ : ∃ k, fuel = k + 1 := ⟨fuel - 1, by omega⟩
      have hn : ¬ (s0.val = 42 ∨ s0.val = 63) := by
        have := special_not_alnum hs
        rintro (e | e)
        · exact this.2.1 (Fin.ext e)
        · exact this.2.2 (Fin.ext e)
      refine ⟨k, by omega, ?_⟩
      rw [hq, read_literal p hn]
      exact parseLoop_escape _ _ _ _ _ hs
    · simp only [Bool.not_eq_true] at hs
      by_cases hw : isWildcard s0 = true
      · have hq : quoteByte s0 = [46, s0] := by simp [quoteByte, hs, hw]
        have hql : (quoteByte s0).length = 2 := by rw [hq]; rfl
        obtain ⟨k, rfl⟩ : ∃ k, fuel = k + 2 := ⟨fuel - 2, by omega⟩
        refine ⟨k, by omega, ?_⟩
        rw [hq]
        simp only [isWildcard, Bool.or_eq_true, beq_iff_eq] at hw
        exact parseLoop_dot_wildcard _ _ _ _ _ hw
      · simp only [Bool.not_eq_true] at hw
        have hq : quoteByte s0 = [s0] := by simp [quoteByte, hs, hw]
        have hql : (quoteByte s0).length = 1 := by rw [hq]; rfl
        obtain ⟨k, rfl⟩ : ∃ k, fuel = k + 1 := ⟨fuel - 1, by omega⟩
        have hp := plain_ne hs hw
        have hn : ¬ (s0.val = 42 ∨ s0.val = 63) := by
          rintro (e | e)
          · exact hp.2.2.2.1 (Fin.ext e)
          · exact hp.2.2.2.2.1 (Fin.ext e)
        refine ⟨k, by omega, ?_⟩
        rw [hq, read_literal p hn]
        simp only [List.cons_append, List.nil_append]
        rw [parseLoop_literal _ _ _ _ _ hp hd (encodes_not_error henc),
          List.drop_succ_cons, List.drop_zero]
  · have h0' : 128 ≤ s0.val := by omega
    have hq : quoteByte s0 = [s0] := quoteByte_of_ge h0'
    have hql : (quoteByte s0).length = 1 := by rw [hq]; rfl
    obtain ⟨k, rfl⟩ : ∃ k, fuel = k + 1 := ⟨fuel - 1, by omega⟩
    have hr := encodes_rune_ge henc h0'
    have hn : ¬ (r = 42 ∨ r = 63) := by omega
    refine ⟨k, by omega, ?_⟩
    rw [hq, read_literal p hn]
    simp only [List.cons_append, List.nil_append] at hd ⊢
    rw [parseLoop_literal _ _ _ _ _ (high_ne h0') hd (encodes_not_error henc),
      List.drop_succ_cons, List.drop_left]

/-- Bytes that are not ASCII at the head of a sanitized text are at the head
of the text it was made from. -/
theorem high_prefix_of_quoted (cont : List Byte) (h : ∀ b ∈ cont, 128 ≤ b.val) :
    ∀ (t rest : GoString), t.flatMap quoteByte ++ [36] = cont ++ rest →
      ∃ t', t = cont ++ t' := by
  induction cont with
  | nil => exact fun t _ _ => ⟨t, rfl⟩
  | cons x cont ih =>
    intro t rest e
    have hx := h x (by simp)
    cases t with
    | nil =>
      simp only [List.flatMap_nil, List.nil_append, List.cons_append, List.cons.injEq] at e
      rw [← e.1] at hx
      exact absurd hx (by decide)
    | cons y t =>
      by_cases hy : 128 ≤ y.val
      · rw [List.flatMap_cons, quoteByte_of_ge hy] at e
        simp only [List.cons_append, List.nil_append, List.cons.injEq] at e
        obtain ⟨t', rfl⟩ := ih (fun z hz => h z (by simp [hz])) t rest e.2
        exact ⟨t', by rw [e.1]; rfl⟩
      · exfalso
        rw [List.flatMap_cons] at e
        unfold quoteByte at e
        split at e
        · simp only [List.cons_append, List.cons.injEq] at e
          rw [← e.1] at hx
          exact absurd hx (by decide)
        · split at e
          · simp only [List.cons_append, List.cons.injEq] at e
            rw [← e.1] at hx
            exact absurd hx (by decide)
          · simp only [List.cons_append, List.nil_append, List.cons.injEq] at e
            rw [← e.1] at hx
            exact hy hx

/-- A byte that does not decode in a section does not decode in its sanitized form. -/
theorem decode_error_quoted {s0 : Byte} {t : GoString}
    (e : utf8.DecodeRuneInString (s0 :: t) = (utf8.RuneError, 1)) :
    utf8.DecodeRuneInString (s0 :: (t.flatMap quoteByte ++ [36])) = (utf8.RuneError, 1) := by
  rcases decode_cases s0 (t.flatMap quoteByte ++ [36]) with e' | ⟨cont, rest, r, hs, henc, _⟩
  · exact e'
  · exfalso
    obtain ⟨t', rfl⟩ := high_prefix_of_quoted cont (encodes_cont_ge henc) t rest hs
    rw [decode_of_encodes henc t'] at e
    simp only [Prod.mk.injEq] at e
    exact encodes_not_error henc e

/-- The parser on a sanitized section followed by `$`: when the section is
valid UTF-8 it reads the runes one by one, then `$`, and ends; when it is not,
it returns an error. -/
theorem parseLoop_quoted (whole : GoString) (sec : GoString) :
    ∀ (p : regexp.parser) (fuel : Nat), (sec.flatMap quoteByte).length + 1 ≤ fuel →
      (utf8.ValidString sec = true →
        regexp.parseLoop whole fuel p (sec.flatMap quoteByte ++ [36])
          = regexp.orLarge whole (p.readAll (utf8.runes sec)) fun p1 =>
              regexp.orLarge whole (p1.op .endText) fun p2 =>
                regexp.orLarge whole p2.concat .ok) ∧
      (utf8.ValidString sec = false →
        ∃ e, regexp.parseLoop whole fuel p (sec.flatMap quoteByte ++ [36]) = .error e) := by
  refine string_induction
    (P := fun sec => ∀ (p : regexp.parser) (fuel : Nat),
      (sec.flatMap quoteByte).length + 1 ≤ fuel →
      (utf8.ValidString sec = true →
        regexp.parseLoop whole fuel p (sec.flatMap quoteByte ++ [36])
          = regexp.orLarge whole (p.readAll (utf8.runes sec)) fun p1 =>
              regexp.orLarge whole (p1.op .endText) fun p2 =>
                regexp.orLarge whole p2.concat .ok) ∧
      (utf8.ValidString sec = false →
        ∃ e, regexp.parseLoop whole fuel p (sec.flatMap quoteByte ++ [36]) = .error e))
    ?_ ?_ ?_ sec
  · intro p fuel hf
    obtain ⟨k, rfl⟩ : ∃ k, fuel = k + 1 := ⟨fuel - 1, by simp at hf; omega⟩
    refine ⟨fun _ => ?_, fun h => ?_⟩
    · simp only [List.flatMap_nil, List.nil_append, parseLoop_end, parseLoop_nil]
      rfl
    · exact absurd h (by decide)
  · intro s0 t h0 he _ p fuel hf
    rw [List.flatMap_cons, quoteByte_of_ge h0] at hf ⊢
    obtain ⟨k, rfl⟩ : ∃ k, fuel = k + 1 := ⟨fuel - 1, by omega⟩
    refine ⟨fun h => ?_, fun _ => ⟨⟨.invalidUTF8, s0 :: (t.flatMap quoteByte ++ [36])⟩, ?_⟩⟩
    · rw [validString_error he] at h
      exact absurd h (by decide)
    · simp only [List.cons_append, List.nil_append]
      exact parseLoop_invalid _ _ _ _ _ (high_ne h0) (decode_error_quoted he)
  · intro s0 cont r rest henc ih p fuel hf
    have hfl : (s0 :: (cont ++ rest)).flatMap quoteByte
        = quoteByte s0 ++ (cont ++ rest.flatMap quoteByte) := by
      rw [List.flatMap_cons, List.flatMap_append,
        flatMap_quoteByte_high cont (encodes_cont_ge henc)]
    rw [hfl] at hf
    simp only [List.length_append] at hf
    obtain ⟨fuel', hf', e⟩ := parseLoop_step whole henc p (rest.flatMap quoteByte ++ [36]) fuel
      (by simp only [List.length_append, List.length_cons, List.length_nil]; omega)
    rw [hfl, validString_encodes henc, runes_encodes henc]
    simp only [List.append_assoc] at e ⊢
    rw [e, regexp.parser.readAll]
    cases h1 : p.read r with
    | none => exact ⟨fun _ => rfl, fun _ => ⟨_, rfl⟩⟩
    | some p1 =>
      simp only [regexp.orLarge, Option.some_bind]
      exact ih p1 fuel'
        (by simp only [List.length_append, List.length_cons, List.length_nil] at hf'; omega)

/-- Compiling a sanitized section that is valid UTF-8: the nodes of its runes
between the two anchors, unless the parser meets one of its limits. -/
theorem compile_prepared_eq (sec : GoString) (hv : utf8.ValidString sec = true) :
    regexp.Compile (prepared sec)
      = regexp.orLarge (prepared sec) (regexp.compileRunes (utf8.runes sec)) .ok := by
  unfold regexp.Compile regexp.compileRunes
  conv_lhs => unfold prepared
  simp only [List.length_cons, List.cons_append]
  rw [parseLoop_begin]
  cases h0 : (regexp.parser.mk [] 0 0 0 false).op .beginText with
  | none => rfl
  | some p =>
    simp only [regexp.orLarge, Option.some_bind]
    rw [(parseLoop_quoted _ sec p _ (by simp)).1 hv]
    cases h1 : p.readAll (utf8.runes sec) with
    | none => rfl
    | some p1 =>
      simp only [regexp.orLarge, Option.some_bind]
      cases h2 : p1.op .endText with
      | none => rfl
      | some p2 => rfl

/-- A sanitized section that is not valid UTF-8 does not compile. -/
theorem compile_prepared_invalid (sec : GoString) (hv : utf8.ValidString sec = false) :
    ∃ e, regexp.Compile (prepared sec) = .error e := by
  unfold regexp.Compile prepared
  simp only [List.length_cons, List.cons_append]
  rw [parseLoop_begin]
  cases h0 : (regexp.parser.mk [] 0 0 0 false).op .beginText with
  | none => exact ⟨_, rfl⟩
  | some p => exact (parseLoop_quoted _ sec p _ (by simp)).2 hv

/-- A sanitized section that compiles is valid UTF-8 and compiles to the nodes
of its runes between the two anchors. -/
theorem compile_prepared_ok {sec : GoString} {re : regexp.Regexp}
    (h : regexp.Compile (prepared sec) = .ok re) :
    utf8.ValidString sec = true ∧ re = .beginText :: nodesOf sec ++ [.endText] := by
  have hv : utf8.ValidString sec = true := by
    cases hv : utf8.ValidString sec with
    | true => rfl
    | false =>
      obtain ⟨e, he⟩ := compile_prepared_invalid sec hv
      rw [he] at h
      cases h
  refine ⟨hv, ?_⟩
  rw [compile_prepared_eq sec hv] at h
  cases h1 : regexp.compileRunes (utf8.runes sec) with
  | none => rw [h1] at h; cases h
  | some re1 =>
    rw [h1] at h
    simp only [regexp.orLarge, Except.ok.injEq] at h
    rw [← h, compileRunes_some h1]
    rfl

theorem runes_length_le (sec : GoString) (hv : utf8.ValidString sec = true) :
    (utf8.runes sec).length ≤ sec.length := by
  refine validString_induction (P := fun sec => (utf8.runes sec).length ≤ sec.length) ?_ ?_ sec hv
  · exact Nat.le_refl _
  · intro s0 cont r rest henc _ ih
    rw [runes_encodes henc]
    simp only [List.length_cons, List.length_append]
    omega

/-- A sanitized section that is valid UTF-8 and short enough compiles to the
nodes of its runes between the two anchors. -/
theorem compile_prepared (sec : GoString) (hv : utf8.ValidString sec = true)
    (hs : 2 * sec.length + 3 < regexp.maxSize) :
    regexp.Compile (prepared sec) = .ok (.beginText :: nodesOf sec ++ [.endText]) := by
  have := runes_length_le sec hv
  rw [compile_prepared_eq sec hv, compileRunes_small _ (by omega)]
  rfl

theorem compiles_of_small {pat : GoString} (hv : utf8.ValidString pat = true)
    (hs : 2 * pat.length + 3 < regexp.maxSize) : Compiles pat :=
  compile_prepared pat hv hs

theorem compiles_arn : Compiles [97, 114, 110] :=
  compiles_of_small (by decide) (by decide)

/-! ### A run of literals -/

theorem map_isLiteral_one {s : List regexp.StackItem}
    (h : s.map (fun re => re.isLiteral) = [false]) :
    ∃ a, s = [a] ∧ a.isLiteral = false := by
  cases s with
  | nil => cases h
  | cons a l =>
    cases l with
    | nil => exact ⟨a, rfl, by simpa using h⟩
    | cons b l => simp at h

theorem map_isLiteral_two {s : List regexp.StackItem}
    (h : s.map (fun re => re.isLiteral) = [true, false]) :
    ∃ a b, s = [a, b] ∧ a.isLiteral = true ∧ b.isLiteral = false := by
  cases s with
  | nil => cases h
  | cons a l =>
    cases l with
    | nil => simp at h
    | cons b l =>
      cases l with
      | nil => exact ⟨a, b, rfl, by simpa using h⟩
      | cons c l => simp at h

theorem map_isLiteral_three {s : List regexp.StackItem}
    (h : s.map (fun re => re.isLiteral) = [true, true, false]) :
    ∃ a b c, s = [a, b, c] ∧ a.isLiteral = true ∧ b.isLiteral = true ∧ c.isLiteral = false := by
  cases s with
  | nil => cases h
  | cons a l =>
    cases l with
    | nil => simp at h
    | cons b l =>
      cases l with
      | nil => simp at h
      | cons c l =>
        cases l with
        | nil => exact ⟨a, b, c, rfl, by simpa using h⟩
        | cons d l => simp at h

/-- In a run of literals one more literal costs no more than one rune: the
number of `Regexp` allocated stays at most 4. -/
theorem literal_litRun {p : regexp.parser} (h : p.LitRun) (r : Nat)
    (hm : p.numRunes + 1 ≤ regexp.maxRunes) :
    ∃ q, p.literal r = some q ∧ q.LitRun ∧ q.numRunes = p.numRunes + 1 := by
  obtain ⟨stack, free, nR, runes, sizing⟩ := p
  obtain ⟨hs, hc⟩ := h
  simp only at hs hc hm
  subst hs
  have h4 : (4 : Nat) < regexp.maxSize := by decide
  rcases hc with ⟨h1, rfl, rfl⟩ | ⟨h1, rfl, rfl⟩ | ⟨h1, rfl, rfl⟩ | ⟨h1, rfl, rfl⟩
  · obtain ⟨a, rfl, ha⟩ := map_isLiteral_one h1
    refine ⟨⟨[⟨[.one (.literal r)], true, none⟩, a], 0, 2, runes + 1, false⟩, ?_, ?_, rfl⟩
    · simp only [regexp.parser.literal, regexp.parser.newRegexp, regexp.parser.push,
        regexp.parser.maybeConcat, regexp.StackItem.runes, if_true, List.length_singleton]
      exact checkLimits_small rfl (by simp only; omega) hm
    · exact ⟨rfl, Or.inr (Or.inl ⟨by simp [ha], rfl, rfl⟩)⟩
  · obtain ⟨a, b, rfl, ha, hb⟩ := map_isLiteral_two h1
    refine ⟨⟨[⟨[.one (.literal r)], true, none⟩, a, b], 0, 3, runes + 1, false⟩, ?_, ?_, rfl⟩
    · simp only [regexp.parser.literal, regexp.parser.newRegexp, regexp.parser.push,
        regexp.parser.maybeConcat, regexp.StackItem.runes, if_true, List.length_singleton,
        ha, hb, Bool.and_false, Bool.false_eq_true, if_false]
      exact checkLimits_small rfl (by simp only; omega) hm
    · exact ⟨rfl, Or.inr (Or.inr (Or.inl ⟨by simp [ha, hb], rfl, rfl⟩))⟩
  · obtain ⟨a, b, c, rfl, ha, hb, hc⟩ := map_isLiteral_three h1
    refine ⟨⟨[⟨[.one (.literal r)], true, none⟩, { b with nodes := b.nodes ++ a.nodes }, c],
      1, 4, runes + 1, false⟩, ?_, ?_, rfl⟩
    · simp only [regexp.parser.literal, regexp.parser.newRegexp, regexp.parser.push,
        regexp.parser.maybeConcat, regexp.parser.reuse, regexp.StackItem.runes, if_true,
        List.length_singleton, ha, hb, Bool.and_self]
      exact checkLimits_small rfl (by simp only; omega) hm
    · exact ⟨rfl, Or.inr (Or.inr (Or.inr ⟨by simp [hb, hc], rfl, rfl⟩))⟩
  · obtain ⟨a, b, c, rfl, ha, hb, hc⟩ := map_isLiteral_three h1
    refine ⟨⟨[⟨[.one (.literal r)], true, none⟩, { b with nodes := b.nodes ++ a.nodes }, c],
      1, 4, runes + 1, false⟩, ?_, ?_, rfl⟩
    · simp only [regexp.parser.literal, regexp.parser.newRegexp, regexp.parser.push,
        regexp.parser.maybeConcat, regexp.parser.reuse, regexp.StackItem.runes, if_true,
        List.length_singleton, ha, hb, Bool.and_self]
      exact checkLimits_small rfl (by simp only; omega) hm
    · exact ⟨rfl, Or.inr (Or.inr (Or.inr ⟨by simp [hb, hc], rfl, rfl⟩))⟩

theorem readAll_append (a b : List Nat) :
    ∀ p : regexp.parser, p.readAll (a ++ b) = (p.readAll a).bind fun q => q.readAll b := by
  induction a with
  | nil => exact fun p => rfl
  | cons r a ih =>
    intro p
    rw [List.cons_append, regexp.parser.readAll, regexp.parser.readAll]
    cases p.read r with
    | none => rfl
    | some q => exact ih q

theorem readAll_litRun (rs : List Nat) (hl : ∀ r ∈ rs, ¬ (r = 42 ∨ r = 63)) :
    ∀ {p : regexp.parser}, p.LitRun → p.numRunes + rs.length ≤ regexp.maxRunes →
      ∃ q, p.readAll rs = some q ∧ q.LitRun ∧ q.numRunes = p.numRunes + rs.length := by
  induction rs with
  | nil => exact fun h _ => ⟨_, rfl, h, rfl⟩
  | cons r rs ih =>
    intro p h hm
    simp only [List.length_cons] at hm ⊢
    obtain ⟨p1, e1, l1, n1⟩ := literal_litRun h r (by omega)
    obtain ⟨q, e2, l2, n2⟩ := ih (fun x hx => hl x (by simp [hx])) l1 (by omega)
    refine ⟨q, ?_, l2, by omega⟩
    rw [regexp.parser.readAll, read_literal p (hl r (by simp)), e1]
    exact e2

theorem litRun_small {p : regexp.parser} (h : p.LitRun) : p.Small 4 p.numRunes := by
  obtain ⟨hs, hc⟩ := h
  refine ⟨hs, ?_, le_refl _⟩
  rcases hc with ⟨_, _, e⟩ | ⟨_, _, e⟩ | ⟨_, _, e⟩ | ⟨_, _, e⟩ <;> omega

theorem litRun_shape {p : regexp.parser} (h : p.LitRun) : p.shape ≠ [] := by
  obtain ⟨_, hc⟩ := h
  intro e
  have : p.stack = [] := by
    unfold regexp.parser.shape at e
    exact List.map_eq_nil_iff.1 e
  rw [this] at hc
  simp at hc

theorem op_beginText :
    (regexp.parser.mk [] 0 0 0 false).op .beginText
      = some ⟨[⟨[.beginText], false, none⟩], 0, 1, 0, false⟩ := by
  decide

theorem litRun_begin :
    (regexp.parser.mk [⟨[.beginText], false, none⟩] 0 1 0 false).LitRun :=
  ⟨rfl, Or.inl ⟨rfl, rfl, rfl⟩⟩

/-- A run of literals followed by a few other runes compiles as long as the
runes are at most `maxRunes`: the literals allocate 4 `Regexp` at most. -/
theorem compileRunes_literals (lits rest : List Nat) (hl : ∀ r ∈ lits, ¬ (r = 42 ∨ r = 63))
    (hm : lits.length + rest.length ≤ regexp.maxRunes)
    (hn : 2 * rest.length + 6 < regexp.maxSize) :
    regexp.compileRunes (lits ++ rest)
      = some (.beginText :: (lits ++ rest).map nodeOf ++ [.endText]) := by
  have key : ∃ re, regexp.compileRunes (lits ++ rest) = some re := by
    rw [compileRunes_eq, op_beginText]
    simp only [Option.some_bind]
    obtain ⟨q, e1, l1, n1⟩ := readAll_litRun lits hl litRun_begin (by simp only; omega)
    simp only [Nat.zero_add] at n1
    have s1 := litRun_small l1
    rw [n1] at s1
    obtain ⟨q2, e2, s2⟩ := readAll_small rest s1 (by omega) hm
    rw [readAll_append, e1]
    simp only [Option.some_bind]
    rw [e2]
    simp only [Option.some_bind]
    exact end_small s2 ((readAll_some rest e2).2 (litRun_shape l1)) (by omega) hm
  obtain ⟨re, e⟩ := key
  rw [e, compileRunes_some e]

theorem literal_numRunes {p q : regexp.parser} {r : Nat} (h : p.literal r = some q) :
    q.numRunes = p.numRunes + 1 ∧ q.numRunes ≤ regexp.maxRunes := by
  unfold regexp.parser.literal regexp.parser.push at h
  simp only at h
  have e := (checkLimits_some h).2.2.2
  simp only at e
  rw [(maybeConcat_counters _).2.1] at e
  simp only [regexp.StackItem.runes, if_true, List.length_singleton,
    (newRegexp_stack p).2.1] at e
  refine ⟨e, ?_⟩
  rw [checkLimits_eq] at h
  split at h
  · cases h
  · rename_i hle
    simp only [(maybeConcat_counters _).2.1, regexp.StackItem.runes, if_true,
      List.length_singleton, (newRegexp_stack p).2.1] at hle
    omega

/-- More literals than `maxRunes` make the parser stop with `ErrLarge`. -/
theorem readAll_literals_large (rs : List Nat) (hl : ∀ r ∈ rs, ¬ (r = 42 ∨ r = 63)) :
    ∀ p : regexp.parser, p.numRunes ≤ regexp.maxRunes →
      regexp.maxRunes < p.numRunes + rs.length → p.readAll rs = none := by
  induction rs with
  | nil =>
    intro p h1 h2
    simp only [List.length_nil, Nat.add_zero] at h2
    omega
  | cons r rs ih =>
    intro p h1 h2
    simp only [List.length_cons] at h2
    rw [regexp.parser.readAll, read_literal p (hl r (by simp))]
    cases e : p.literal r with
    | none => rfl
    | some q =>
      obtain ⟨n1, n2⟩ := literal_numRunes e
      exact ih (fun x hx => hl x (by simp [hx])) q n2 (by omega)

theorem compileRunes_literals_large (rs : List Nat) (hl : ∀ r ∈ rs, ¬ (r = 42 ∨ r = 63))
    (hm : regexp.maxRunes < rs.length) : regexp.compileRunes rs = none := by
  rw [compileRunes_eq, op_beginText]
  simp only [Option.some_bind]
  rw [readAll_literals_large rs hl _ (by simp) (by simpa using hm)]
  rfl

theorem read_wildcard_small {p : regexp.parser} {n m : Nat} {r : Nat} (hr : r = 42 ∨ r = 63)
    (h : p.Small n m) (hn : n + 2 < regexp.maxSize) (hm : m ≤ regexp.maxRunes) :
    ∃ q, p.read r = some q ∧ q.Small (n + 2) m := by
  unfold regexp.parser.read
  rw [if_pos hr]
  obtain ⟨p1, e1, s1, s2, s3⟩ := op_small (.one .anyCharNotNL) h (by omega) hm
  rw [e1]
  simp only [Option.some_bind]
  obtain ⟨f1, f2, f3, f4⟩ := newRegexp_stack p1
  refine ⟨_, checkLimits_small ?_ ?_ ?_, ?_, ?_, ?_⟩
  · exact f3.trans s1
  · simp only; omega
  · simp only [f2]; omega
  · exact f3.trans s1
  · simp only; omega
  · simp only [f2]; omega

/-- A run of literals followed by one wildcard compiles as long as the
literals are at most `maxRunes`. -/
theorem compileRunes_literals_wildcard (lits : List Nat) (r : Nat)
    (hl : ∀ r ∈ lits, ¬ (r = 42 ∨ r = 63)) (hr : r = 42 ∨ r = 63)
    (hm : lits.length ≤ regexp.maxRunes) :
    regexp.compileRunes (lits ++ [r])
      = some (.beginText :: (lits ++ [r]).map nodeOf ++ [.endText]) := by
  have key : ∃ re, regexp.compileRunes (lits ++ [r]) = some re := by
    rw [compileRunes_eq, op_beginText]
    simp only [Option.some_bind]
    obtain ⟨q, e1, l1, n1⟩ := readAll_litRun lits hl litRun_begin (by simp only; omega)
    simp only [Nat.zero_add] at n1
    have s1 := litRun_small l1
    rw [n1] at s1
    have h6 : (6 : Nat) + 2 < regexp.maxSize := by decide
    obtain ⟨q2, e2, s2⟩ := read_wildcard_small hr s1 (by omega) hm
    rw [readAll_append, e1]
    simp only [Option.some_bind, regexp.parser.readAll]
    rw [e2]
    simp only [Option.some_bind]
    exact end_small s2 (read_shape_ne_nil e2) (by omega) hm
  obtain ⟨re, e⟩ := key
  rw [e, compileRunes_some e]

/-- More literals than `maxRunes` make the parser stop, whatever follows. -/
theorem compileRunes_literals_large_append (lits rest : List Nat)
    (hl : ∀ r ∈ lits, ¬ (r = 42 ∨ r = 63)) (hm : regexp.maxRunes < lits.length) :
    regexp.compileRunes (lits ++ rest) = none := by
  rw [compileRunes_eq, op_beginText]
  simp only [Option.some_bind]
  rw [readAll_append, readAll_literals_large lits hl _ (by simp) (by simpa using hm)]
  rfl

/-! ### Wildcards only: the exact counters -/

/-- Below the limits a wildcard puts one item on the stack and allocates two
`Regexp`, when the free list is empty and the top of the stack is no literal. -/
theorem read_wildcard {p : regexp.parser} {r : Nat} (hr : r = 42 ∨ r = 63)
    (hs : p.sizing = false) (hf : p.free = 0) {a : regexp.StackItem}
    {l : List regexp.StackItem} (hst : p.stack = a :: l) (ha : a.isLiteral = false)
    (hn : p.numRegexp + 2 < regexp.maxSize) (hm : p.numRunes ≤ regexp.maxRunes) :
    p.read r = some { p with
      stack := ⟨[nodeOf r], false, none⟩ :: p.stack
      numRegexp := p.numRegexp + 2 } := by
  obtain ⟨stack, free, nR, runes, sizing⟩ := p
  simp only at hs hf hst hn hm
  subst hs hf hst
  have e1 : (regexp.parser.mk (a :: l) 0 nR runes false).op (.one .anyCharNotNL)
      = some ⟨⟨[.one .anyCharNotNL], false, none⟩ :: a :: l, 0, nR + 1, runes, false⟩ := by
    simp only [regexp.parser.op, regexp.parser.newRegexp, regexp.parser.push,
      regexp.StackItem.runes, Bool.false_eq_true, if_false, Nat.add_zero]
    rw [maybeConcat_of_top (a := a) (l := l) rfl ha]
    exact checkLimits_small rfl (by simp only; omega) hm
  unfold regexp.parser.read
  rw [if_pos hr, e1]
  simp only [Option.some_bind, regexp.parser.newRegexp, List.tail_cons]
  exact checkLimits_small rfl (by simp only; omega) hm

theorem readAll_wildcards (rs : List Nat) (hr : ∀ r ∈ rs, r = 42 ∨ r = 63) :
    ∀ {p : regexp.parser}, p.sizing = false → p.free = 0 →
      (∃ a l, p.stack = a :: l ∧ a.isLiteral = false) →
      p.numRegexp + 2 * rs.length < regexp.maxSize → p.numRunes ≤ regexp.maxRunes →
      p.readAll rs = some { p with
        stack := (rs.reverse.map fun r => (⟨[nodeOf r], false, none⟩ : regexp.StackItem))
          ++ p.stack
        numRegexp := p.numRegexp + 2 * rs.length } := by
  induction rs with
  | nil =>
    intro p _ _ _ _ _
    rfl
  | cons r rs ih =>
    intro p hs hf hst hn hm
    obtain ⟨a, l, hst, ha⟩ := hst
    simp only [List.length_cons] at hn
    rw [regexp.parser.readAll, read_wildcard (hr r (by simp)) hs hf hst ha (by omega) hm]
    simp only [Option.some_bind]
    rw [ih (fun x hx => hr x (by simp [hx]))
      (p := { p with
        stack := ⟨[nodeOf r], false, none⟩ :: p.stack
        numRegexp := p.numRegexp + 2 })
      hs hf ⟨_, _, rfl, rfl⟩ (by simp only; omega) hm]
    simp only [List.reverse_cons, List.map_append, List.map_cons, List.map_nil,
      List.append_assoc, List.singleton_append, List.length_cons, Option.some.injEq,
      regexp.parser.mk.injEq, and_true, true_and]
    omega

theorem heights_le (l : List regexp.StackItem) :
    (l.map regexp.StackItem.calcHeight).foldl max 0 ≤ 2 := by
  refine foldl_max_le _ 2 ?_ 0 (by omega)
  intro x hx
  obtain ⟨re, _, rfl⟩ := List.mem_map.1 hx
  exact calcHeight_le re

/-- When the end of the parse is reached with no size computed yet: `concat`
panics exactly when the `OpConcat` it allocates brings `numRegexp` to `maxSize`
and the sizes of the items add up to more than `maxSize`. -/
theorem concat_eq_none {p : regexp.parser} (hs : p.sizing = false) (hf : p.free = 0)
    {a b : regexp.StackItem} {l : List regexp.StackItem} (hst : p.stack = a :: b :: l)
    (ha : a.isLiteral = false) (hz : ∀ re ∈ p.stack, re.size = none)
    (hm : p.numRunes ≤ regexp.maxRunes) :
    p.concat = none ↔
      (regexp.maxSize ≤ p.numRegexp + 1 ∧
        regexp.maxSize < (p.stack.map regexp.StackItem.calcSize).sum) := by
  have hsum : ((a :: b :: l).map fun re => re.size.getD re.calcSize).sum
      = ((a :: b :: l).map regexp.StackItem.calcSize).sum := by
    congr 1
    refine List.map_congr_left fun re hre => ?_
    rw [hz re (by rw [hst]; exact hre)]
    rfl
  have hh : ¬ (regexp.maxHeight
      < 1 + ((a :: b :: l).map regexp.StackItem.calcHeight).foldl max 0) := by
    have := heights_le (a :: b :: l)
    unfold regexp.maxHeight
    omega
  unfold regexp.parser.concat
  simp only [maybeConcat_of_top hst ha, hst, regexp.parser.newRegexp, hf, hs, hsum,
    Bool.false_or]
  rw [if_neg (by omega)]
  by_cases hc : regexp.maxSize ≤ p.numRegexp + 1 ∧
      regexp.maxSize < ((a :: b :: l).map regexp.StackItem.calcSize).sum
  · rw [if_pos (by simp only [Bool.and_eq_true, decide_eq_true_eq]; exact hc)]
    exact ⟨fun _ => hc, fun _ => rfl⟩
  · rw [if_neg (by simp only [Bool.and_eq_true, decide_eq_true_eq]; exact hc),
      if_neg (by simp only [Bool.and_eq_true, decide_eq_true_eq]; exact fun h => hh h.2)]
    exact ⟨fun h => (by cases h), fun h => absurd h hc⟩

theorem calcSize_wildcard {r : Nat} (hr : r = 42 ∨ r = 63) :
    (⟨[nodeOf r], false, none⟩ : regexp.StackItem).calcSize = (nodeOf r).calcSize := by
  rcases hr with rfl | rfl <;> decide

/-- The parser on `^`, wildcards only and `$`, when the wildcards leave
`numRegexp` below `maxSize` before the end: it panics exactly when the
`OpConcat` is the `Regexp` number `maxSize` or more and the sizes (3 for a `*`,
2 for a `?`, 1 for each anchor) add up to more than `maxSize`. -/
theorem compileRunes_wildcards (rs : List Nat) (hr : ∀ r ∈ rs, r = 42 ∨ r = 63)
    (hn : 2 * rs.length + 2 < regexp.maxSize) :
    regexp.compileRunes rs = none ↔
      (regexp.maxSize ≤ 2 * rs.length + 3 ∧
        regexp.maxSize < 2 + (rs.map fun r => (nodeOf r).calcSize).sum) := by
  have hR : (0 : Nat) ≤ regexp.maxRunes := Nat.zero_le _
  rw [compileRunes_eq, op_beginText]
  simp only [Option.some_bind]
  rw [readAll_wildcards rs hr rfl rfl ⟨_, _, rfl, rfl⟩ (by simp only; omega) hR]
  simp only [Option.some_bind]
  obtain ⟨b, l, hbl⟩ : ∃ b l,
      (rs.reverse.map fun r => (⟨[nodeOf r], false, none⟩ : regexp.StackItem))
        ++ [⟨[.beginText], false, none⟩] = b :: l := by
    cases (rs.reverse.map fun r => (⟨[nodeOf r], false, none⟩ : regexp.StackItem)) with
    | nil => exact ⟨_, _, rfl⟩
    | cons x xs => exact ⟨_, _, rfl⟩
  have e2 : (regexp.parser.mk
        ((rs.reverse.map fun r => (⟨[nodeOf r], false, none⟩ : regexp.StackItem))
          ++ [⟨[.beginText], false, none⟩]) 0 (1 + 2 * rs.length) 0 false).op .endText
      = some ⟨⟨[.endText], false, none⟩ ::
          ((rs.reverse.map fun r => (⟨[nodeOf r], false, none⟩ : regexp.StackItem))
            ++ [⟨[.beginText], false, none⟩]), 0, 1 + 2 * rs.length + 1, 0, false⟩ := by
    simp only [regexp.parser.op, regexp.parser.newRegexp, regexp.parser.push,
      regexp.StackItem.runes, Bool.false_eq_true, if_false, Nat.add_zero]
    have hb : b.isLiteral = false := by
      cases hrs : (rs.reverse.map fun r => (⟨[nodeOf r], false, none⟩ : regexp.StackItem)) with
      | nil => rw [hrs] at hbl; cases hbl; rfl
      | cons x xs =>
        rw [hrs] at hbl
        cases hbl
        have : b ∈ (rs.reverse.map fun r => (⟨[nodeOf r], false, none⟩ : regexp.StackItem)) := by
          rw [hrs]; exact List.mem_cons_self _ _
        obtain ⟨r, _, rfl⟩ := List.mem_map.1 this
        rfl
    rw [maybeConcat_of_top (a := b) (l := l) hbl hb]
    exact checkLimits_small rfl (by simp only; omega) hR
  rw [e2]
  simp only [Option.some_bind]
  have hz : ∀ re ∈ (⟨[.endText], false, none⟩ : regexp.StackItem) ::
      ((rs.reverse.map fun r => (⟨[nodeOf r], false, none⟩ : regexp.StackItem))
        ++ [⟨[.beginText], false, none⟩]), re.size = none := by
    intro re hre
    simp only [List.mem_cons, List.mem_append, List.mem_map, List.mem_reverse,
      List.mem_singleton, List.not_mem_nil, or_false] at hre
    rcases hre with rfl | ⟨r, _, rfl⟩ | rfl <;> rfl
  rw [concat_eq_none (a := ⟨[.endText], false, none⟩) (b := b) (l := l) rfl rfl
    (by simp only [hbl]) rfl hz hR]
  have hsum : (((⟨[.endText], false, none⟩ : regexp.StackItem) ::
      ((rs.reverse.map fun r => (⟨[nodeOf r], false, none⟩ : regexp.StackItem))
        ++ [⟨[.beginText], false, none⟩])).map regexp.StackItem.calcSize).sum
      = 2 + (rs.map fun r => (nodeOf r).calcSize).sum := by
    have e : ((rs.reverse.map fun r => (⟨[nodeOf r], false, none⟩ : regexp.StackItem)).map
        regexp.StackItem.calcSize) = rs.reverse.map fun r => (nodeOf r).calcSize := by
      rw [List.map_map]
      refine List.map_congr_left fun r hx => ?_
      exact calcSize_wildcard (hr r (List.mem_reverse.1 hx))
    have c1 : (⟨[.endText], false, none⟩ : regexp.StackItem).calcSize = 1 := by decide
    have c2 : (⟨[.beginText], false, none⟩ : regexp.StackItem).calcSize = 1 := by decide
    rw [List.map_cons, List.sum_cons, List.map_append, List.sum_append, e, List.map_reverse,
      List.sum_reverse, c1]
    simp only [List.map_cons, List.map_nil, List.sum_cons, List.sum_nil, c2]
    omega
  rw [hsum]
  simp only
  constructor <;> rintro ⟨h1, h2⟩ <;> exact ⟨by omega, h2⟩

/-! ## Matching an anchored expression -/

theorem search_begin_false (body : regexp.Regexp) (inp : List Nat) :
    regexp.search (.beginText :: body) false inp = false := by
  induction inp with
  | nil => simp [regexp.search, regexp.matchHere]
  | cons c rest ih => simp [regexp.search, regexp.matchHere, ih]

/-- An expression that starts with `^` matches only from the start of the text. -/
theorem search_begin (body : regexp.Regexp) (inp : List Nat) :
    regexp.search (.beginText :: body) true inp = regexp.matchHere body true inp := by
  cases inp with
  | nil => simp [regexp.search, regexp.matchHere]
  | cons c rest => simp [regexp.search, regexp.matchHere, search_begin_false]

theorem matchString_prepared (sec pat : GoString) :
    regexp.MatchString (.beginText :: nodesOf pat ++ [.endText]) sec = sectionMatch sec pat := by
  unfold regexp.MatchString sectionMatch
  rw [List.cons_append, search_begin]

/-! ## The loop of `ArnLike` -/

theorem matchSections_range' (arnSections patternSections : List GoString) (m k : Nat)
    (h : k + m = arnSections.length) :
    matchSections arnSections patternSections (List.range' k m)
      = matchAll (arnSections.drop k) (patternSections.drop k) := by
  induction m generalizing k with
  | zero =>
    have : arnSections.drop k = [] := List.drop_of_length_le (by omega)
    simp [matchSections, this, matchAll]
  | succ m ih =>
    have hk : k < arnSections.length := by omega
    have e1 : arnSections.drop k = arnSections[k] :: arnSections.drop (k + 1) :=
      List.drop_eq_getElem_cons hk
    rw [List.range'_succ, matchSections, e1, List.getElem?_eq_getElem hk]
    by_cases hp : k < patternSections.length
    · have e2 : patternSections.drop k = patternSections[k] :: patternSections.drop (k + 1) :=
        List.drop_eq_getElem_cons hp
      rw [e2, List.getElem?_eq_getElem hp]
      simp only [matchAll]
      rw [ih (k + 1) (by omega)]
    · have e2 : patternSections.drop k = [] := List.drop_of_length_le (by omega)
      rw [e2, List.getElem?_eq_none (by omega)]
      simp [matchAll]

theorem matchSections_range (arnSections patternSections : List GoString) :
    matchSections arnSections patternSections (List.range arnSections.length)
      = matchAll arnSections patternSections := by
  rw [List.range_eq_range', matchSections_range' _ _ _ 0 (by simp)]
  simp

/-- `ArnLike` on two inputs that parse. -/
theorem arnLike_of_parse {arn pattern : GoString} {arnSections patternSections : List GoString}
    (h1 : parse arn = .ok arnSections) (h2 : parse pattern = .ok patternSections) :
    ArnLike arn pattern = matchAll arnSections (patternSections.map prepared) := by
  unfold ArnLike
  rw [h1, h2]
  simp only [preparePatternSections_eq, Option.some_bind, matchSections_range]
  rfl

/-- One step of the loop on a pattern section that compiles. -/
theorem matchAll_cons_compiles (sec pat : GoString) (secs pats : List GoString)
    (hk : Compiles pat) :
    matchAll (sec :: secs) (prepared pat :: pats)
      = if sectionMatch sec pat then matchAll secs pats else some (false, none) := by
  rw [matchAll, hk]
  simp only [matchString_prepared]
  cases sectionMatch sec pat <;> simp

/-- One step of the loop on a pattern section that is valid UTF-8 and short
enough to compile. -/
theorem matchAll_cons_valid (sec pat : GoString) (secs pats : List GoString)
    (hv : utf8.ValidString pat = true) (hs : 2 * pat.length + 3 < regexp.maxSize) :
    matchAll (sec :: secs) (prepared pat :: pats)
      = if sectionMatch sec pat then matchAll secs pats else some (false, none) :=
  matchAll_cons_compiles sec pat secs pats (compiles_of_small hv hs)

/-- One step of the loop on a pattern section that does not compile: the
compilation error is returned, whatever the value section is. -/
theorem matchAll_cons_error (sec pat : GoString) (secs pats : List GoString)
    {e : regexp.SyntaxError} (h : regexp.Compile (prepared pat) = .error e) :
    matchAll (sec :: secs) (prepared pat :: pats)
      = some (false, some (.compile (prepared pat) e)) := by
  rw [matchAll, h]

/-! ## Runes and bytes -/

/-- An ASCII rune is in the text exactly when its byte is. -/
theorem mem_runes_ascii (n : Byte) (hn : n.val < 128) (s : GoString) :
    n.val ∈ utf8.runes s ↔ n ∈ s := by
  refine string_induction (P := fun s => n.val ∈ utf8.runes s ↔ n ∈ s) ?_ ?_ ?_ s
  · simp [utf8.runes, decode_nil]
  · intro s0 t h0 he ih
    rw [runes_error he, List.mem_cons, List.mem_cons, ih]
    have a1 : ¬ n.val = utf8.RuneError := by simp only [utf8.RuneError]; omega
    have a2 : ¬ n = s0 := by rintro rfl; omega
    simp [a1, a2]
  · intro s0 cont r rest henc ih
    rw [runes_encodes henc, List.mem_cons, List.mem_cons, List.mem_append, ih]
    have hc : n ∉ cont := fun h => by have := encodes_cont_ge henc n h; omega
    by_cases h0 : s0.val < 128
    · obtain ⟨_, rfl⟩ := encodes_ascii henc h0
      simp only [hc, false_or]
      constructor
      · rintro (h | h)
        · exact Or.inl (Fin.ext h)
        · exact Or.inr h
      · rintro (h | h)
        · exact Or.inl (by rw [h])
        · exact Or.inr h
    · have hr := encodes_rune_ge henc (by omega)
      have a1 : ¬ n.val = r := by omega
      have a2 : ¬ n = s0 := by rintro rfl; omega
      simp [a1, a2, hc]

theorem runes_eq_nil {s : GoString} (h : utf8.runes s = []) : s = [] := by
  cases s with
  | nil => rfl
  | cons s0 t => simp [utf8.runes, decode_cons] at h

/-- Two valid strings with the same runes are the same string. -/
theorem runes_injective (s : GoString) (hs : utf8.ValidString s = true) :
    ∀ t : GoString, utf8.ValidString t = true → utf8.runes s = utf8.runes t → s = t := by
  refine validString_induction
    (P := fun s => ∀ t : GoString, utf8.ValidString t = true →
      utf8.runes s = utf8.runes t → s = t) ?_ ?_ s hs
  · intro t _ h
    exact (runes_eq_nil (by rw [← h]; rfl)).symm
  · intro s0 cont r rest henc _ ih t ht h
    cases t with
    | nil =>
      rw [runes_encodes henc] at h
      simp [utf8.runes, decode_nil] at h
    | cons t0 t =>
      obtain ⟨cont', rest', r', rfl, henc', hv'⟩ := validString_cons ht
      rw [runes_encodes henc, runes_encodes henc'] at h
      simp only [List.cons.injEq] at h
      obtain ⟨h1, h2⟩ := h
      subst h1
      obtain ⟨rfl, rfl⟩ := encodes_inj henc henc'
      rw [ih rest' hv' h2]

/-! ## Matching one section -/

theorem starLoop_of_cont {k : Bool → List Nat → Bool} {a : regexp.Atom} {atStart : Bool}
    {inp : List Nat} (h : k atStart inp = true) : regexp.starLoop k a atStart inp = true := by
  cases inp with
  | nil => simpa [regexp.starLoop] using h
  | cons c rest => simp [regexp.starLoop, h]

theorem matchHere_self (l : List Nat) (atStart : Bool) :
    regexp.matchHere (l.map nodeOf ++ [.endText]) atStart l = true := by
  induction l generalizing atStart with
  | nil => simp [regexp.matchHere]
  | cons r l ih =>
    simp only [List.map_cons, List.cons_append]
    by_cases h42 : r = 42
    · subst h42
      have hn : nodeOf 42 = .star .anyCharNotNL := rfl
      rw [hn]
      simp only [regexp.matchHere, regexp.starLoop, Bool.or_eq_true, Bool.and_eq_true]
      right
      exact ⟨by decide, starLoop_of_cont (ih false)⟩
    · by_cases h63 : r = 63
      · subst h63
        have hn : nodeOf 63 = .quest .anyCharNotNL := rfl
        rw [hn]
        simp only [regexp.matchHere, Bool.or_eq_true, Bool.and_eq_true]
        right
        exact ⟨by decide, ih false⟩
      · have hn : nodeOf r = .one (.literal r) := by simp [nodeOf, h42, h63]
        rw [hn]
        simp only [regexp.matchHere, regexp.Atom.accepts, beq_self_eq_true, Bool.true_and]
        exact ih false

/-- A section matches itself, whatever it contains. -/
theorem sectionMatch_self (sec : GoString) : sectionMatch sec sec = true :=
  matchHere_self (utf8.runes sec) true

theorem matchHere_literals (l inp : List Nat) (atStart : Bool) :
    regexp.matchHere (l.map (fun r => regexp.Node.one (.literal r)) ++ [.endText]) atStart inp
      = decide (inp = l) := by
  induction l generalizing inp atStart with
  | nil => cases inp <;> simp [regexp.matchHere]
  | cons r l ih =>
    cases inp with
    | nil => simp [regexp.matchHere]
    | cons c rest =>
      simp only [List.map_cons, List.cons_append, regexp.matchHere, regexp.Atom.accepts,
        List.cons.injEq]
      have ih' : regexp.matchHere ((l.map (fun r => regexp.Node.one (.literal r))).append
          [.endText]) false rest = decide (rest = l) := ih rest false
      rw [ih']
      by_cases h1 : r = c
      · subst h1
        simp
      · have h2 : ¬ c = r := fun e => h1 e.symm
        simp [h1, h2]

theorem nodesOf_literal (pat : GoString) (h : ∀ b ∈ pat, isWildcard b = false) :
    nodesOf pat = (utf8.runes pat).map fun r => regexp.Node.one (.literal r) := by
  unfold nodesOf
  apply List.map_congr_left
  intro r hr
  have h42 : ¬ r = 42 := by
    rintro rfl
    have := (mem_runes_ascii 42 (by decide) pat).1 hr
    have := h 42 this
    simp [isWildcard] at this
  have h63 : ¬ r = 63 := by
    rintro rfl
    have := (mem_runes_ascii 63 (by decide) pat).1 hr
    have := h 63 this
    simp [isWildcard] at this
  simp [nodeOf, h42, h63]

/-- A pattern section without wildcard matches the sections with the same runes. -/
theorem sectionMatch_literal (sec pat : GoString) (h : ∀ b ∈ pat, isWildcard b = false) :
    sectionMatch sec pat = decide (utf8.runes sec = utf8.runes pat) := by
  unfold sectionMatch
  rw [nodesOf_literal pat h, matchHere_literals]

/-- Between two valid sections, a pattern without wildcard matches only itself. -/
theorem sectionMatch_literal_valid (sec pat : GoString) (h : ∀ b ∈ pat, isWildcard b = false)
    (hs : utf8.ValidString sec = true) (hp : utf8.ValidString pat = true) :
    sectionMatch sec pat = decide (sec = pat) := by
  rw [sectionMatch_literal sec pat h]
  by_cases e : sec = pat
  · subst e
    simp
  · have : ¬ utf8.runes sec = utf8.runes pat := fun e' => e (runes_injective sec hs pat hp e')
    simp [e, this]

theorem starLoop_any_end (k : Bool → List Nat → Bool) (hk1 : ∀ b, k b [] = true)
    (hk2 : ∀ b c rest, k b (c :: rest) = false) (inp : List Nat) (atStart : Bool) :
    regexp.starLoop k .anyCharNotNL atStart inp = decide (10 ∉ inp) := by
  induction inp generalizing atStart with
  | nil => simp [regexp.starLoop, hk1]
  | cons c rest ih =>
    simp only [regexp.starLoop, hk2, Bool.false_or, regexp.Atom.accepts, List.mem_cons, not_or]
    rw [ih]
    by_cases h : c = 10
    · subst h
      simp
    · have h' : ¬ 10 = c := fun e => h e.symm
      simp [h, h']

/-- The pattern section `*` matches the sections without a newline. -/
theorem sectionMatch_star (sec : GoString) :
    sectionMatch sec [42] = decide ((10 : Byte) ∉ sec) := by
  unfold sectionMatch
  have e : nodesOf [42] = [.star .anyCharNotNL] := by decide
  rw [e]
  simp only [List.cons_append, List.nil_append, regexp.matchHere]
  rw [starLoop_any_end _ (fun b => by simp [regexp.matchHere])
    (fun b c rest => by simp [regexp.matchHere])]
  have := mem_runes_ascii 10 (by decide) sec
  have e10 : (10 : Byte).val = 10 := rfl
  rw [e10] at this
  simp [this]

/-! ## Sections without wildcard and the limit on the runes -/

theorem runes_not_wildcard {sec : GoString} (hw : ∀ b ∈ sec, isWildcard b = false) :
    ∀ r ∈ utf8.runes sec, ¬ (r = 42 ∨ r = 63) := by
  rintro r hr (rfl | rfl)
  · have := (mem_runes_ascii 42 (by decide) sec).1 hr
    exact absurd (hw _ this) (by decide)
  · have := (mem_runes_ascii 63 (by decide) sec).1 hr
    exact absurd (hw _ this) (by decide)

/-- A sanitized section without wildcard that is valid UTF-8 compiles exactly
when it has at most `maxRunes` runes. -/
theorem compile_literal (sec : GoString) (hv : utf8.ValidString sec = true)
    (hw : ∀ b ∈ sec, isWildcard b = false) :
    regexp.Compile (prepared sec)
      = if (utf8.runes sec).length ≤ regexp.maxRunes
        then .ok (.beginText :: nodesOf sec ++ [.endText])
        else .error ⟨.large, prepared sec⟩ := by
  rw [compile_prepared_eq sec hv]
  split
  · rename_i h
    have := compileRunes_literals (utf8.runes sec) [] (runes_not_wildcard hw) (by simpa using h)
      (by decide)
    rw [List.append_nil] at this
    rw [this]
    rfl
  · rename_i h
    rw [compileRunes_literals_large _ (runes_not_wildcard hw) (by omega)]
    rfl

theorem compiles_of_literal {pat : GoString} (hv : utf8.ValidString pat = true)
    (hw : ∀ b ∈ pat, isWildcard b = false) (hm : (utf8.runes pat).length ≤ regexp.maxRunes) :
    Compiles pat := by
  unfold Compiles
  rw [compile_literal pat hv hw, if_pos hm]

/-! ## `ArnLike` on parsed inputs -/

/-- A string with the prefix and five colons parses into `arn` and five sections. -/
theorem parse_of_prefix_count {s : GoString} (hp : strings.HasPrefix s arnPrefix = true)
    (hc : 5 ≤ s.count arnDelimiter) :
    ∃ f1 f2 f3 f4 f5, parse s = .ok [[97, 114, 110], f1, f2, f3, f4, f5] ∧
      s = arnOf f1 f2 f3 f4 f5 ∧
      arnDelimiter ∉ f1 ∧ arnDelimiter ∉ f2 ∧ arnDelimiter ∉ f3 ∧ arnDelimiter ∉ f4 := by
  have h := parse_of_hasPrefix hp
  rw [if_pos hc] at h
  obtain ⟨f1, f2, f3, f4, f5, e, r⟩ := parse_ok_shape h
  exact ⟨f1, f2, f3, f4, f5, by rw [h, e], r⟩

theorem valid_arnOf {f1 f2 f3 f4 f5 : GoString}
    (h : utf8.ValidString (arnOf f1 f2 f3 f4 f5) = true) :
    utf8.ValidString f1 = true ∧ utf8.ValidString f2 = true ∧ utf8.ValidString f3 = true ∧
      utf8.ValidString f4 = true ∧ utf8.ValidString f5 = true := by
  unfold arnOf at h
  have c : (58 : Byte).val < 128 := by decide
  obtain ⟨_, h0⟩ := validString_split _ _ _ c h
  obtain ⟨h1, h0⟩ := validString_split _ _ _ c h0
  obtain ⟨h2, h0⟩ := validString_split _ _ _ c h0
  obtain ⟨h3, h0⟩ := validString_split _ _ _ c h0
  obtain ⟨h4, h5⟩ := validString_split _ _ _ c h0
  exact ⟨h1, h2, h3, h4, h5⟩

theorem mem_arnOf {f1 f2 f3 f4 f5 : GoString} {b : Byte}
    (h : b ∈ f1 ∨ b ∈ f2 ∨ b ∈ f3 ∨ b ∈ f4 ∨ b ∈ f5) : b ∈ arnOf f1 f2 f3 f4 f5 := by
  unfold arnOf
  simp only [List.mem_append, List.mem_cons]
  tauto

theorem arnOf_length (f1 f2 f3 f4 f5 : GoString) :
    (arnOf f1 f2 f3 f4 f5).length
      = 8 + f1.length + f2.length + f3.length + f4.length + f5.length := by
  simp only [arnOf, List.length_append, List.length_cons, List.length_nil]
  omega

/-- The result of `ArnLike` when the five sections of the pattern compile:
never an error, and the conjunction of the five section matches. -/
theorem arnLike_arnOf_compiles (f1 f2 f3 f4 f5 g1 g2 g3 g4 g5 : GoString)
    (hf1 : arnDelimiter ∉ f1) (hf2 : arnDelimiter ∉ f2) (hf3 : arnDelimiter ∉ f3)
    (hf4 : arnDelimiter ∉ f4) (hg1 : arnDelimiter ∉ g1) (hg2 : arnDelimiter ∉ g2)
    (hg3 : arnDelimiter ∉ g3) (hg4 : arnDelimiter ∉ g4)
    (k1 : Compiles g1) (k2 : Compiles g2) (k3 : Compiles g3) (k4 : Compiles g4)
    (k5 : Compiles g5) :
    ArnLike (arnOf f1 f2 f3 f4 f5) (arnOf g1 g2 g3 g4 g5)
      = some (sectionMatch f1 g1 && sectionMatch f2 g2 && sectionMatch f3 g3 &&
          sectionMatch f4 g4 && sectionMatch f5 g5, none) := by
  rw [arnLike_of_parse (parse_arnOf f1 f2 f3 f4 f5 hf1 hf2 hf3 hf4)
    (parse_arnOf g1 g2 g3 g4 g5 hg1 hg2 hg3 hg4)]
  simp only [List.map_cons, List.map_nil]
  rw [matchAll_cons_compiles _ _ _ _ compiles_arn, sectionMatch_self, if_pos rfl,
    matchAll_cons_compiles _ _ _ _ k1, matchAll_cons_compiles _ _ _ _ k2,
    matchAll_cons_compiles _ _ _ _ k3, matchAll_cons_compiles _ _ _ _ k4,
    matchAll_cons_compiles _ _ _ _ k5]
  cases sectionMatch f1 g1 <;> cases sectionMatch f2 g2 <;> cases sectionMatch f3 g3 <;>
    cases sectionMatch f4 g4 <;> cases sectionMatch f5 g5 <;> simp [matchAll]

/-- The result of `ArnLike` when the pattern is valid UTF-8 and short enough
for its sections to compile: never an error, and the conjunction of the five
section matches. -/
theorem arnLike_arnOf (f1 f2 f3 f4 f5 g1 g2 g3 g4 g5 : GoString)
    (hf1 : arnDelimiter ∉ f1) (hf2 : arnDelimiter ∉ f2) (hf3 : arnDelimiter ∉ f3)
    (hf4 : arnDelimiter ∉ f4) (hg1 : arnDelimiter ∉ g1) (hg2 : arnDelimiter ∉ g2)
    (hg3 : arnDelimiter ∉ g3) (hg4 : arnDelimiter ∉ g4)
    (v1 : utf8.ValidString g1 = true) (v2 : utf8.ValidString g2 = true)
    (v3 : utf8.ValidString g3 = true) (v4 : utf8.ValidString g4 = true)
    (v5 : utf8.ValidString g5 = true)
    (hs : 2 * (arnOf g1 g2 g3 g4 g5).length + 3 < regexp.maxSize) :
    ArnLike (arnOf f1 f2 f3 f4 f5) (arnOf g1 g2 g3 g4 g5)
      = some (sectionMatch f1 g1 && sectionMatch f2 g2 && sectionMatch f3 g3 &&
          sectionMatch f4 g4 && sectionMatch f5 g5, none) := by
  rw [arnOf_length] at hs
  exact arnLike_arnOf_compiles f1 f2 f3 f4 f5 g1 g2 g3 g4 g5 hf1 hf2 hf3 hf4 hg1 hg2 hg3 hg4
    (compiles_of_small v1 (by omega)) (compiles_of_small v2 (by omega))
    (compiles_of_small v3 (by omega)) (compiles_of_small v4 (by omega))
    (compiles_of_small v5 (by omega))

/-- A pattern section within the limits of the parser compiles: it is valid
UTF-8 and either short, or without wildcard and of at most `maxRunes` runes. -/
theorem compiles_of_limits {pat : GoString} (hv : utf8.ValidString pat = true)
    (hl : 2 * pat.length + 3 < regexp.maxSize ∨
      ((∀ b ∈ pat, isWildcard b = false) ∧ (utf8.runes pat).length ≤ regexp.maxRunes)) :
    Compiles pat := by
  rcases hl with hs | ⟨hw, hm⟩
  · exact compiles_of_small hv hs
  · exact compiles_of_literal hv hw hm

/-- The sections that `parse` returns are those of `strings.SplitN`. -/
theorem splitN_of_parse {s : GoString} {secs : List GoString} (h : parse s = .ok secs) :
    strings.SplitN s arnDelimiter arnSectionsExpected = secs := by
  unfold parse at h
  split at h
  · cases h
  · simp only at h
    split at h
    · cases h
    · exact Except.ok.inj h

theorem splitN_arnOf (g1 g2 g3 g4 g5 : GoString) (h1 : arnDelimiter ∉ g1)
    (h2 : arnDelimiter ∉ g2) (h3 : arnDelimiter ∉ g3) (h4 : arnDelimiter ∉ g4) :
    strings.SplitN (arnOf g1 g2 g3 g4 g5) arnDelimiter arnSectionsExpected
      = [[97, 114, 110], g1, g2, g3, g4, g5] :=
  splitN_of_parse (parse_arnOf g1 g2 g3 g4 g5 h1 h2 h3 h4)

/-- The sections of a pattern that is valid UTF-8 compile when each of them is
within the limits of the parser. -/
theorem compiles_arnOf {g1 g2 g3 g4 g5 : GoString}
    (hv : utf8.ValidString (arnOf g1 g2 g3 g4 g5) = true)
    (hl : ∀ sec ∈ [[97, 114, 110], g1, g2, g3, g4, g5],
      2 * sec.length + 3 < regexp.maxSize ∨
        ((∀ b ∈ sec, isWildcard b = false) ∧ (utf8.runes sec).length ≤ regexp.maxRunes)) :
    Compiles g1 ∧ Compiles g2 ∧ Compiles g3 ∧ Compiles g4 ∧ Compiles g5 := by
  obtain ⟨v1, v2, v3, v4, v5⟩ := valid_arnOf hv
  exact ⟨compiles_of_limits v1 (hl g1 (by simp)), compiles_of_limits v2 (hl g2 (by simp)),
    compiles_of_limits v3 (hl g3 (by simp)), compiles_of_limits v4 (hl g4 (by simp)),
    compiles_of_limits v5 (hl g5 (by simp))⟩

/-- The result of `ArnLike` when the pattern is valid UTF-8 and each of its
sections is within the limits of the parser: never an error, and the
conjunction of the five section matches. -/
theorem arnLike_arnOf_limits (f1 f2 f3 f4 f5 g1 g2 g3 g4 g5 : GoString)
    (hf1 : arnDelimiter ∉ f1) (hf2 : arnDelimiter ∉ f2) (hf3 : arnDelimiter ∉ f3)
    (hf4 : arnDelimiter ∉ f4) (hg1 : arnDelimiter ∉ g1) (hg2 : arnDelimiter ∉ g2)
    (hg3 : arnDelimiter ∉ g3) (hg4 : arnDelimiter ∉ g4)
    (hv : utf8.ValidString (arnOf g1 g2 g3 g4 g5) = true)
    (hl : ∀ sec ∈ [[97, 114, 110], g1, g2, g3, g4, g5],
      2 * sec.length + 3 < regexp.maxSize ∨
        ((∀ b ∈ sec, isWildcard b = false) ∧ (utf8.runes sec).length ≤ regexp.maxRunes)) :
    ArnLike (arnOf f1 f2 f3 f4 f5) (arnOf g1 g2 g3 g4 g5)
      = some (sectionMatch f1 g1 && sectionMatch f2 g2 && sectionMatch f3 g3 &&
          sectionMatch f4 g4 && sectionMatch f5 g5, none) := by
  obtain ⟨k1, k2, k3, k4, k5⟩ := compiles_arnOf hv hl
  exact arnLike_arnOf_compiles f1 f2 f3 f4 f5 g1 g2 g3 g4 g5 hf1 hf2 hf3 hf4 hg1 hg2 hg3 hg4
    k1 k2 k3 k4 k5

theorem fieldMatches_eq (sec pat : GoString) :
    fieldMatches sec pat = match regexp.Compile (prepared pat) with
      | .error _ => false
      | .ok patternGlob => regexp.MatchString patternGlob sec := by
  unfold fieldMatches
  rw [quoteMeta_eq]
  rfl

theorem fieldMatches_compiles (sec pat : GoString) (hk : Compiles pat) :
    fieldMatches sec pat = sectionMatch sec pat := by
  rw [fieldMatches_eq, hk]
  exact matchString_prepared sec pat

theorem fieldMatches_valid (sec pat : GoString) (hv : utf8.ValidString pat = true)
    (hs : 2 * pat.length + 3 < regexp.maxSize) :
    fieldMatches sec pat = sectionMatch sec pat :=
  fieldMatches_compiles sec pat (compiles_of_small hv hs)

theorem matchAll_cons_true (sec pat : GoString) (secs pats : List GoString) :
    matchAll (sec :: secs) (prepared pat :: pats) = some (true, none) ↔
      fieldMatches sec pat = true ∧ matchAll secs pats = some (true, none) := by
  rw [matchAll, fieldMatches_eq]
  cases regexp.Compile (prepared pat) with
  | error err => simp
  | ok re =>
    simp only
    cases h : regexp.MatchString re sec <;> simp

/-- One step of the loop on a pattern section that is not valid UTF-8: a
compilation error is returned, whatever the value section is. -/
theorem matchAll_cons_invalid (sec pat : GoString) (secs pats : List GoString)
    (hv : utf8.ValidString pat = false) :
    ∃ e, matchAll (sec :: secs) (prepared pat :: pats)
      = some (false, some (.compile (prepared pat) e)) := by
  obtain ⟨e, he⟩ := compile_prepared_invalid pat hv
  exact ⟨e, matchAll_cons_error sec pat secs pats he⟩

/-- What the loop tests at one index, for a pattern section short enough: the
pattern section is valid UTF-8 and its nodes match the whole value section. -/
theorem fieldMatches_eq_and (sec pat : GoString) (hs : 2 * pat.length + 3 < regexp.maxSize) :
    fieldMatches sec pat = (utf8.ValidString pat && sectionMatch sec pat) := by
  cases hv : utf8.ValidString pat
  · obtain ⟨expr, e⟩ := compile_prepared_invalid pat hv
    rw [fieldMatches_eq, e]
    rfl
  · rw [fieldMatches_valid sec pat hv hs]
    rfl

/-- What the loop tests at one index implies that the nodes of the pattern
section match the whole value section, whatever the length of the pattern. -/
theorem sectionMatch_of_fieldMatches {sec pat : GoString} (h : fieldMatches sec pat = true) :
    utf8.ValidString pat = true ∧ sectionMatch sec pat = true := by
  rw [fieldMatches_eq] at h
  cases hc : regexp.Compile (prepared pat) with
  | error e => rw [hc] at h; cases h
  | ok re =>
    rw [hc] at h
    obtain ⟨hv, rfl⟩ := compile_prepared_ok hc
    exact ⟨hv, by rw [← matchString_prepared]; exact h⟩

/-! ## Patterns made of `?` -/

theorem runes_replicate_ascii (c : Byte) (hc : c.val < 128) (n : Nat) :
    utf8.runes (List.replicate n c) = List.replicate n c.val := by
  induction n with
  | zero => rfl
  | succ n ih =>
    have := runes_encodes (.one c hc) (List.replicate n c)
    simp only [List.nil_append] at this
    rw [List.replicate_succ, this, ih, List.replicate_succ]

theorem matchHere_quest_nil (a : regexp.Atom) (re : regexp.Regexp) (atStart : Bool) :
    regexp.matchHere (.quest a :: re) atStart [] = regexp.matchHere re atStart [] := by
  simp [regexp.matchHere]

theorem matchHere_quest_cons (a : regexp.Atom) (re : regexp.Regexp) (atStart : Bool) (c : Nat)
    (rest : List Nat) :
    regexp.matchHere (.quest a :: re) atStart (c :: rest)
      = (regexp.matchHere re atStart (c :: rest) ||
          (a.accepts c && regexp.matchHere re false rest)) := by
  simp [regexp.matchHere]

theorem matchHere_quests (n : Nat) (inp : List Nat) (atStart : Bool) :
    regexp.matchHere (List.replicate n (.quest .anyCharNotNL) ++ [.endText]) atStart inp
      = decide (inp.length ≤ n ∧ 10 ∉ inp) := by
  induction n generalizing inp atStart with
  | zero => cases inp <;> simp [regexp.matchHere]
  | succ n ih =>
    cases inp with
    | nil =>
      rw [List.replicate_succ, List.cons_append, matchHere_quest_nil, ih]
      simp
    | cons c rest =>
      rw [List.replicate_succ, List.cons_append, matchHere_quest_cons, ih, ih]
      rw [Bool.eq_iff_iff]
      simp only [regexp.Atom.accepts, List.length_cons, List.mem_cons, not_or, Bool.or_eq_true,
        Bool.and_eq_true, decide_eq_true_eq, bne_iff_ne, ne_eq]
      constructor
      · rintro (⟨h1, h2, h3⟩ | ⟨h1, h2, h3⟩)
        · exact ⟨by omega, h2, h3⟩
        · exact ⟨by omega, fun e => h1 e.symm, h3⟩
      · rintro ⟨h1, h2, h3⟩
        exact Or.inr ⟨fun e => h2 e.symm, by omega, h3⟩

/-- A pattern section of `n` characters `?` matches the sections of at most
`n` runes, none of them a newline. -/
theorem sectionMatch_quests (sec : GoString) (n : Nat) :
    sectionMatch sec (List.replicate n 63)
      = decide ((utf8.runes sec).length ≤ n ∧ (10 : Byte) ∉ sec) := by
  unfold sectionMatch nodesOf
  rw [runes_replicate_ascii 63 (by decide) n]
  have e : List.map nodeOf (List.replicate n (63 : Byte).val)
      = List.replicate n (.quest .anyCharNotNL) := by
    rw [List.map_replicate]
    rfl
  rw [e, matchHere_quests]
  have := mem_runes_ascii 10 (by decide) sec
  have e10 : (10 : Byte).val = 10 := rfl
  rw [e10] at this
  simp only [this]

/-! ## Sections made of one repeated character and the limits of the parser -/

theorem validString_replicate_ascii (c : Byte) (hc : c.val < 128) (n : Nat) :
    utf8.ValidString (List.replicate n c) = true := by
  induction n with
  | zero => rfl
  | succ n ih =>
    have := validString_encodes (.one c hc) (List.replicate n c)
    simp only [List.nil_append] at this
    rw [List.replicate_succ, this, ih]

theorem compile_replicate_wildcard (c : Byte) (hc : c = 42 ∨ c = 63) (n : Nat) :
    regexp.Compile (prepared (List.replicate n c))
      = regexp.orLarge (prepared (List.replicate n c))
          (regexp.compileRunes (List.replicate n c.val)) .ok := by
  have h128 : c.val < 128 := by rcases hc with rfl | rfl <;> decide
  rw [compile_prepared_eq _ (validString_replicate_ascii c h128 n),
    runes_replicate_ascii c h128 n]

theorem compileRunes_replicate_none (c : Nat) (hc : c = 42 ∨ c = 63) (n : Nat)
    (hn : 2 * n + 2 < regexp.maxSize) :
    regexp.compileRunes (List.replicate n c) = none ↔
      (regexp.maxSize ≤ 2 * n + 3 ∧ regexp.maxSize < 2 + n * (nodeOf c).calcSize) := by
  rw [compileRunes_wildcards _ (fun r hr => by rw [List.eq_of_mem_replicate hr]; exact hc)
    (by simpa using hn)]
  simp [List.map_replicate, List.sum_replicate]

/-- A section of `n` characters `?` compiles up to `n = 1677720`: the `OpConcat`
is then the `Regexp` number `maxSize`, and the sizes add up to `2 * n + 2`,
which is not more than `maxSize`. -/
theorem compiles_quests (n : Nat) (hn : n ≤ 1677720) : Compiles (List.replicate n 63) := by
  unfold Compiles
  rw [compile_replicate_wildcard 63 (Or.inr rfl) n]
  cases h : regexp.compileRunes (List.replicate n (63 : Byte).val) with
  | none =>
    exfalso
    have := (compileRunes_replicate_none (63 : Byte).val (Or.inr rfl) n
      (by rw [maxSize_eq]; omega)).1 h
    have e : (nodeOf (63 : Byte).val).calcSize = 2 := by decide
    rw [e, maxSize_eq] at this
    omega
  | some re =>
    rw [compileRunes_some h]
    simp only [regexp.orLarge, nodesOf, runes_replicate_ascii 63 (by decide) n]

/-- A section of `n` characters `*` compiles up to `n = 1677719`. -/
theorem compiles_stars (n : Nat) (hn : n ≤ 1677719) : Compiles (List.replicate n 42) :=
  compiles_of_small (validString_replicate_ascii 42 (by decide) n)
    (by rw [List.length_replicate, maxSize_eq]; omega)

/-- A section of 1677720 characters `*` does not compile: the `OpConcat` is the
`Regexp` number `maxSize` (one for `^`, two for each `*`, one for `$`, one for
the concatenation), so the sizes are computed, and they add up to
`3 * 1677720 + 2`, more than `maxSize`. -/
theorem compile_stars_large :
    regexp.Compile (prepared (List.replicate 1677720 42))
      = .error ⟨.large, prepared (List.replicate 1677720 42)⟩ := by
  rw [compile_replicate_wildcard 42 (Or.inl rfl) 1677720]
  have e : (nodeOf (42 : Byte).val).calcSize = 3 := by decide
  rw [(compileRunes_replicate_none (42 : Byte).val (Or.inl rfl) 1677720
    (by rw [maxSize_eq]; omega)).2 (by rw [e, maxSize_eq]; omega)]
  rfl

/-! ## The parser once it computes sizes -/

theorem any_calcSize_small (S : List regexp.StackItem) (hc : ∀ re ∈ S, re.calcSize ≤ 3) :
    (S.any fun re => decide (regexp.maxSize < re.calcSize)) = false := by
  rw [List.any_eq_false]
  intro re hre
  have := hc re hre
  rw [maxSize_eq]
  simp only [decide_eq_true_eq]
  omega

theorem sum_sized (S : List regexp.StackItem) :
    ((S.map fun re => ({ re with size := some re.calcSize } : regexp.StackItem)).map
      fun re => re.size.getD re.calcSize).sum = (S.map regexp.StackItem.calcSize).sum := by
  rw [List.map_map]
  congr 1

/-- The wildcard whose operator is the `Regexp` number `maxSize`, followed by
`$` and the end of the parse: the sizes of all the items are computed, and the
parser panics when they add up to more than `maxSize`. -/
theorem read_wildcard_sizing {S : List regexp.StackItem} {a : regexp.StackItem}
    {l : List regexp.StackItem} (hS : S = a :: l) (ha : a.isLiteral = false)
    (hc : ∀ re ∈ S, re.calcSize ≤ 3) {N : Nat} (hN : N + 2 = regexp.maxSize)
    {r : Nat} (hr : r = 42 ∨ r = 63)
    (hsum : regexp.maxSize < 1 + (nodeOf r).calcSize + (S.map regexp.StackItem.calcSize).sum) :
    (((regexp.parser.mk S 0 N 0 false).read r).bind fun p1 =>
      (p1.op .endText).bind regexp.parser.concat) = none := by
  have hR : (0 : Nat) ≤ regexp.maxRunes := Nat.zero_le _
  have e1 : (regexp.parser.mk S 0 N 0 false).op (.one .anyCharNotNL)
      = some ⟨⟨[.one .anyCharNotNL], false, none⟩ :: S, 0, N + 1, 0, false⟩ := by
    simp only [regexp.parser.op, regexp.parser.newRegexp, regexp.parser.push,
      regexp.StackItem.runes, Bool.false_eq_true, if_false, Nat.add_zero]
    rw [maybeConcat_of_top (a := a) (l := l) hS ha]
    exact checkLimits_small rfl (by simp only; omega) hR
  have hw : (⟨[nodeOf r], false, none⟩ : regexp.StackItem).calcSize ≤ 3 := by
    rcases hr with rfl | rfl <;> decide
  have e2 : (regexp.parser.mk ((⟨[nodeOf r], false, none⟩ : regexp.StackItem) :: S) 0
        (N + 1 + 1) 0 false).checkLimits
      = some ⟨((⟨[nodeOf r], false, none⟩ : regexp.StackItem) :: S).map
          (fun (re : regexp.StackItem) => { re with size := some re.calcSize }),
          0, N + 1 + 1, 0, true⟩ := by
    rw [checkLimits_eq, if_neg (by simp)]
    unfold regexp.parser.checkSize
    simp only [Bool.false_eq_true, if_false]
    rw [if_neg (by omega), any_calcSize_small _ (by
      intro re hre
      rcases List.mem_cons.1 hre with rfl | hre
      · exact hw
      · exact hc re hre)]
    rfl
  have e3 : (regexp.parser.mk (((⟨[nodeOf r], false, none⟩ : regexp.StackItem) :: S).map
        (fun (re : regexp.StackItem) => { re with size := some re.calcSize }))
        0 (N + 1 + 1) 0 true).op .endText
      = some ⟨⟨[.endText], false, some 1⟩ ::
          (((⟨[nodeOf r], false, none⟩ : regexp.StackItem) :: S).map
            (fun (re : regexp.StackItem) => { re with size := some re.calcSize })),
          0, N + 1 + 1 + 1, 0, true⟩ := by
    simp only [regexp.parser.op, regexp.parser.newRegexp, regexp.parser.push,
      regexp.StackItem.runes, Bool.false_eq_true, if_false, Nat.add_zero, List.map_cons]
    rw [maybeConcat_of_top (a := (⟨[nodeOf r], false, some _⟩ : regexp.StackItem)) rfl rfl]
    rw [checkLimits_eq, if_neg (by simp)]
    unfold regexp.parser.checkSize
    simp only [if_true]
    rw [if_neg (by rw [maxSize_eq]; decide)]
    rfl
  unfold regexp.parser.read
  rw [if_pos hr, e1]
  simp only [Option.some_bind, regexp.parser.newRegexp, List.tail_cons]
  rw [e2]
  simp only [Option.some_bind]
  rw [e3]
  simp only [Option.some_bind, List.map_cons]
  unfold regexp.parser.concat
  rw [maybeConcat_of_top (a := (⟨[.endText], false, some 1⟩ : regexp.StackItem)) rfl rfl]
  simp only [regexp.parser.newRegexp, Bool.true_or, Bool.true_and]
  rw [if_neg (by simp)]
  rw [if_pos]
  simp only [decide_eq_true_eq, List.map_cons, List.sum_cons, Option.getD_some, sum_sized]
  rw [calcSize_wildcard hr]
  omega

/-- The parser on `^`, wildcards and `$` when the operator of the last
wildcard is the `Regexp` number `maxSize`: it panics when the sizes add up to
more than `maxSize`. -/
theorem compileRunes_wildcards_sizing (rs : List Nat) (r : Nat)
    (hrs : ∀ x ∈ rs, x = 42 ∨ x = 63) (hr : r = 42 ∨ r = 63)
    (hn : 1 + 2 * rs.length + 2 = regexp.maxSize)
    (hsum : regexp.maxSize
      < 2 + (nodeOf r).calcSize + (rs.map fun x => (nodeOf x).calcSize).sum) :
    regexp.compileRunes (rs ++ [r]) = none := by
  have hR : (0 : Nat) ≤ regexp.maxRunes := Nat.zero_le _
  rw [compileRunes_eq, op_beginText]
  simp only [Option.some_bind]
  rw [readAll_append, readAll_wildcards rs hrs rfl rfl ⟨_, _, rfl, rfl⟩ (by simp only; omega) hR]
  simp only [Option.some_bind, regexp.parser.readAll]
  obtain ⟨b, l, hbl, hb⟩ : ∃ b l,
      (rs.reverse.map fun r => (⟨[nodeOf r], false, none⟩ : regexp.StackItem))
        ++ [⟨[.beginText], false, none⟩] = b :: l ∧ b.isLiteral = false := by
    cases hrs : (rs.reverse.map fun r => (⟨[nodeOf r], false, none⟩ : regexp.StackItem)) with
    | nil => exact ⟨_, _, rfl, rfl⟩
    | cons x xs =>
      refine ⟨_, _, rfl, ?_⟩
      have : x ∈ (rs.reverse.map fun r => (⟨[nodeOf r], false, none⟩ : regexp.StackItem)) := by
        rw [hrs]; exact List.mem_cons_self _ _
      obtain ⟨r, _, rfl⟩ := List.mem_map.1 this
      rfl
  have hc : ∀ re ∈ (rs.reverse.map fun r => (⟨[nodeOf r], false, none⟩ : regexp.StackItem))
      ++ [⟨[.beginText], false, none⟩], re.calcSize ≤ 3 := by
    intro re hre
    simp only [List.mem_append, List.mem_map, List.mem_reverse, List.mem_singleton] at hre
    rcases hre with ⟨x, hx, rfl⟩ | rfl
    · rcases hrs x hx with rfl | rfl <;> decide
    · decide
  have hs : ((rs.reverse.map fun r => (⟨[nodeOf r], false, none⟩ : regexp.StackItem))
      ++ [(⟨[.beginText], false, none⟩ : regexp.StackItem)]).map regexp.StackItem.calcSize
      = (rs.reverse.map fun x => (nodeOf x).calcSize) ++ [1] := by
    rw [List.map_append, List.map_map]
    congr 1
    refine List.map_congr_left fun x hx => ?_
    exact calcSize_wildcard (hrs x (List.mem_reverse.1 hx))
  have key := read_wildcard_sizing (N := 1 + 2 * rs.length) hbl hb hc hn hr (by
    rw [hs, List.sum_append, List.map_reverse, List.sum_reverse]
    simp only [List.sum_cons, List.sum_nil]
    omega)
  cases h : (regexp.parser.mk ((rs.reverse.map fun r =>
      (⟨[nodeOf r], false, none⟩ : regexp.StackItem)) ++ [⟨[.beginText], false, none⟩])
      0 (1 + 2 * rs.length) 0 false).read r with
  | none => rfl
  | some q =>
    rw [h] at key
    exact key

theorem sum_calcSize_replicate (c n : Nat) :
    ((List.replicate n c).map fun x => (nodeOf x).calcSize).sum = n * (nodeOf c).calcSize := by
  simp [List.map_replicate, List.sum_replicate]

/-- A section of 1677721 characters `?` does not compile: the operator of the
last `?` is the `Regexp` number `maxSize`, so the sizes are computed, and at
the end they add up to `2 * 1677721 + 2`, more than `maxSize`. -/
theorem compile_quests_large :
    regexp.Compile (prepared (List.replicate 1677721 63))
      = .error ⟨.large, prepared (List.replicate 1677721 63)⟩ := by
  rw [compile_replicate_wildcard 63 (Or.inr rfl) 1677721]
  have e : List.replicate 1677721 (63 : Byte).val
      = List.replicate 1677720 (63 : Byte).val ++ [(63 : Byte).val] :=
    List.replicate_succ' 1677720 (63 : Byte).val
  have c : (nodeOf (63 : Byte).val).calcSize = 2 := by decide
  have h1 : 1 + 2 * (List.replicate 1677720 (63 : Byte).val).length + 2 = regexp.maxSize := by
    rw [List.length_replicate, maxSize_eq]
  have h2 : regexp.maxSize < 2 + (nodeOf (63 : Byte).val).calcSize
      + ((List.replicate 1677720 (63 : Byte).val).map fun x => (nodeOf x).calcSize).sum := by
    rw [sum_calcSize_replicate, c, maxSize_eq]
    omega
  rw [e, compileRunes_wildcards_sizing _ (63 : Byte).val
    (fun x hx => by rw [List.eq_of_mem_replicate hx]; exact Or.inr rfl) (Or.inr rfl) h1 h2]
  rfl

theorem forall_lt_six (P : Nat → Prop) :
    (∀ i, i < 6 → P i) ↔ P 0 ∧ P 1 ∧ P 2 ∧ P 3 ∧ P 4 ∧ P 5 := by
  constructor
  · intro h
    exact ⟨h 0 (by omega), h 1 (by omega), h 2 (by omega), h 3 (by omega), h 4 (by omega),
      h 5 (by omega)⟩
  · rintro ⟨h0, h1, h2, h3, h4, h5⟩ i hi
    interval_cases i <;> assumption

theorem arnOf_inj {f1 f2 f3 f4 f5 g1 g2 g3 g4 g5 : GoString}
    (hf1 : arnDelimiter ∉ f1) (hf2 : arnDelimiter ∉ f2) (hf3 : arnDelimiter ∉ f3)
    (hf4 : arnDelimiter ∉ f4) (hg1 : arnDelimiter ∉ g1) (hg2 : arnDelimiter ∉ g2)
    (hg3 : arnDelimiter ∉ g3) (hg4 : arnDelimiter ∉ g4)
    (h : arnOf f1 f2 f3 f4 f5 = arnOf g1 g2 g3 g4 g5) :
    f1 = g1 ∧ f2 = g2 ∧ f3 = g3 ∧ f4 = g4 ∧ f5 = g5 := by
  have e1 := parse_arnOf f1 f2 f3 f4 f5 hf1 hf2 hf3 hf4
  have e2 := parse_arnOf g1 g2 g3 g4 g5 hg1 hg2 hg3 hg4
  rw [h, e2] at e1
  simp only [Except.ok.injEq, List.cons.injEq, true_and, and_true] at e1
  obtain ⟨a1, a2, a3, a4, a5⟩ := e1
  exact ⟨a1.symm, a2.symm, a3.symm, a4.symm, a5.symm⟩

/-! ## The claims -/

/-- C1, amended: every string that starts with `arn:`, contains at least five
colons, is valid UTF-8 and whose sections are within the limits of the parser
of `regexp` is matched by itself, whatever its sections contain
(metacharacters, wildcards and newlines included): `ArnLike(x, x)` is
`(true, nil)`. A section is within the limits when it is shorter than 1677720
bytes (`2 * len + 3 < maxSize`), or has no wildcard and at most 33554432
characters (`maxRunes`). -/
theorem ArnLike_self (x : GoString) (hp : strings.HasPrefix x arnPrefix = true)
    (hc : 5 ≤ x.count arnDelimiter) (hv : utf8.ValidString x = true)
    (hl : ∀ sec ∈ strings.SplitN x arnDelimiter arnSectionsExpected,
      2 * sec.length + 3 < regexp.maxSize ∨
        ((∀ b ∈ sec, isWildcard b = false) ∧ (utf8.runes sec).length ≤ regexp.maxRunes)) :
    ArnLike x x = some (true, none) := by
  obtain ⟨f1, f2, f3, f4, f5, -, rfl, c1, c2, c3, c4⟩ := parse_of_prefix_count hp hc
  rw [splitN_arnOf f1 f2 f3 f4 f5 c1 c2 c3 c4] at hl
  rw [arnLike_arnOf_limits f1 f2 f3 f4 f5 f1 f2 f3 f4 f5 c1 c2 c3 c4 c1 c2 c3 c4 hv hl]
  simp [sectionMatch_self]

/-- C1, witness: the identifier with brackets, braces and a backslash of the tests. -/
theorem ArnLike_self_witness :
    (strings.HasPrefix
        (str "arn:aws:testservice::000000000000:some/wacky-new-[resource]\x7bwith\x7d\\meta")
        arnPrefix = true ∧
      5 ≤ (str "arn:aws:testservice::000000000000:some/wacky-new-[resource]\x7bwith\x7d\\meta").count
        arnDelimiter ∧
      utf8.ValidString
        (str "arn:aws:testservice::000000000000:some/wacky-new-[resource]\x7bwith\x7d\\meta")
        = true ∧
      ∀ sec ∈ strings.SplitN
          (str "arn:aws:testservice::000000000000:some/wacky-new-[resource]\x7bwith\x7d\\meta")
          arnDelimiter arnSectionsExpected,
        2 * sec.length + 3 < regexp.maxSize) ∧
    ArnLike (str "arn:aws:testservice::000000000000:some/wacky-new-[resource]\x7bwith\x7d\\meta")
        (str "arn:aws:testservice::000000000000:some/wacky-new-[resource]\x7bwith\x7d\\meta")
      = some (true, none) :=
  ⟨⟨by decide, by decide, by decide, by decide⟩,
    ArnLike_self _ (by decide) (by decide) (by decide)
      (fun sec hs => Or.inl ((by decide :
        ∀ sec ∈ strings.SplitN
            (str "arn:aws:testservice::000000000000:some/wacky-new-[resource]\x7bwith\x7d\\meta")
            arnDelimiter arnSectionsExpected,
          2 * sec.length + 3 < regexp.maxSize) sec hs))⟩

/-- C2: when the value does not start with `arn:`, `ArnLike` returns false and
an error whose message is `Could not parse input arn: invalid prefix`, whatever
the pattern is. -/
theorem ArnLike_invalid_prefix (s p : GoString)
    (h : strings.HasPrefix s arnPrefix = false) :
    ∃ err, ArnLike s p = some (false, some err) ∧
      err.Error = str "Could not parse input arn: invalid prefix" := by
  refine ⟨.parseArn .invalidPrefix, ?_, by decide⟩
  unfold ArnLike
  rw [parse_invalidPrefix h]

/-- C2, witness: the value `nar:...` of the tests, against a pattern that does not parse. -/
theorem ArnLike_invalid_prefix_witness :
    strings.HasPrefix (str "nar:aws:iam::000000000000:role/some-role") arnPrefix = false ∧
      ∃ err, ArnLike (str "nar:aws:iam::000000000000:role/some-role") (str "no pattern")
          = some (false, some err) ∧
        err.Error = str "Could not parse input arn: invalid prefix" :=
  ⟨by decide, ArnLike_invalid_prefix _ _ (by decide)⟩

/-- C3: when the value starts with `arn:` but contains fewer than five colons,
`ArnLike` returns false and an error whose message is
`Could not parse input arn: not enough sections`, whatever the pattern is. -/
theorem ArnLike_not_enough_sections (s p : GoString)
    (h : strings.HasPrefix s arnPrefix = true) (hc : s.count arnDelimiter < 5) :
    ∃ err, ArnLike s p = some (false, some err) ∧
      err.Error = str "Could not parse input arn: not enough sections" := by
  refine ⟨.parseArn .invalidSections, ?_, by decide⟩
  unfold ArnLike
  rw [parse_of_hasPrefix h, if_neg (by omega)]

/-- C3, witness: the value with four colons of the tests. -/
theorem ArnLike_not_enough_sections_witness :
    (strings.HasPrefix (str "arn:aws:iam:000000000000:role/some-role") arnPrefix = true ∧
      (str "arn:aws:iam:000000000000:role/some-role").count arnDelimiter < 5) ∧
      ∃ err, ArnLike (str "arn:aws:iam:000000000000:role/some-role") (str "no pattern")
          = some (false, some err) ∧
        err.Error = str "Could not parse input arn: not enough sections" :=
  ⟨⟨by decide, by decide⟩, ArnLike_not_enough_sections _ _ (by decide) (by decide)⟩

/-- C4: `parse` succeeds exactly on the strings that start with `arn:` and
contain at least five colons; the result has exactly six sections, the first is
`arn`, the first five contain no colon, the sixth is all that follows the fifth
colon, and joining the six sections with `:` gives the input back. -/
theorem parse_spec (s : GoString) :
    ((∃ secs, parse s = .ok secs) ↔
        (strings.HasPrefix s arnPrefix = true ∧ 5 ≤ s.count arnDelimiter)) ∧
      ∀ secs, parse s = .ok secs →
        ∃ f1 f2 f3 f4 f5 : GoString, secs = [str "arn", f1, f2, f3, f4, f5] ∧
          (∀ f ∈ [str "arn", f1, f2, f3, f4], arnDelimiter ∉ f) ∧
          s = str "arn:" ++ f1 ++ str ":" ++ f2 ++ str ":" ++ f3 ++ str ":" ++ f4 ++ str ":" ++ f5 ∧
          [arnDelimiter].intercalate secs = s := by
  refine ⟨⟨?_, ?_⟩, ?_⟩
  · rintro ⟨secs, h⟩
    by_cases hp : strings.HasPrefix s arnPrefix = true
    · refine ⟨hp, ?_⟩
      rw [parse_of_hasPrefix hp] at h
      by_contra hc
      rw [if_neg hc] at h
      simp at h
    · simp only [Bool.not_eq_true] at hp
      rw [parse_invalidPrefix hp] at h
      simp at h
  · rintro ⟨hp, hc⟩
    rw [parse_of_hasPrefix hp, if_pos hc]
    exact ⟨_, rfl⟩
  · intro secs h
    obtain ⟨f1, f2, f3, f4, f5, rfl, rfl, c1, c2, c3, c4⟩ := parse_ok_shape h
    refine ⟨f1, f2, f3, f4, f5, rfl, ?_, ?_, ?_⟩
    · intro f hf
      simp only [List.mem_cons, List.mem_singleton, List.not_mem_nil, or_false] at hf
      rcases hf with rfl | rfl | rfl | rfl | rfl
      · decide
      · exact c1
      · exact c2
      · exact c3
      · exact c4
    · have e1 : str "arn:" = [97, 114, 110, 58] := by decide
      have e2 : str ":" = [58] := by decide
      rw [e1, e2]
      simp [arnOf]
    · simp [arnOf, List.intercalate, arnDelimiter]

/-- C4, witness: an identifier whose resource contains colons. -/
theorem parse_spec_witness :
    parse (str "arn:aws:s3:::a:b") = .ok [str "arn", str "aws", str "s3", [], [], str "a:b"] ∧
      ((∃ secs, parse (str "arn:aws:s3:::a:b") = .ok secs) ↔
        (strings.HasPrefix (str "arn:aws:s3:::a:b") arnPrefix = true ∧
          5 ≤ (str "arn:aws:s3:::a:b").count arnDelimiter)) :=
  ⟨rfl, (parse_spec (str "arn:aws:s3:::a:b")).1⟩

/-- C5: when the value parses and the pattern does not, `ArnLike` returns false
and an error that names the pattern (`Could not parse ArnLike string: `) and
carries the error of `parse`: `invalid prefix` when the pattern does not start
with `arn:`, `not enough sections` when it does and has fewer than five colons. -/
theorem ArnLike_pattern_error (v p : GoString)
    (hv : strings.HasPrefix v arnPrefix = true) (hvc : 5 ≤ v.count arnDelimiter)
    (hp : strings.HasPrefix p arnPrefix = false ∨ p.count arnDelimiter < 5) :
    ∃ err, ArnLike v p = some (false, some err) ∧
      err.Error = str "Could not parse ArnLike string: " ++
        (if strings.HasPrefix p arnPrefix then str "not enough sections"
          else str "invalid prefix") := by
  obtain ⟨f1, f2, f3, f4, f5, e, -⟩ := parse_of_prefix_count hv hvc
  by_cases h : strings.HasPrefix p arnPrefix = true
  · have hc : ¬ 5 ≤ p.count arnDelimiter := by
      rcases hp with hp | hp
      · rw [h] at hp
        simp at hp
      · omega
    refine ⟨.parsePattern .invalidSections, ?_, ?_⟩
    · unfold ArnLike
      rw [e]
      simp only
      rw [parse_of_hasPrefix h, if_neg hc]
    · rw [if_pos h]
      rfl
  · simp only [Bool.not_eq_true] at h
    refine ⟨.parsePattern .invalidPrefix, ?_, ?_⟩
    · unfold ArnLike
      rw [e]
      simp only
      rw [parse_invalidPrefix h]
    · rw [h]
      rfl

/-- C5, witness: a pattern without the prefix. -/
theorem ArnLike_pattern_error_witness :
    (strings.HasPrefix (str "arn:aws:iam::000000000000:role") arnPrefix = true ∧
      5 ≤ (str "arn:aws:iam::000000000000:role").count arnDelimiter ∧
      (strings.HasPrefix (str "ar:*") arnPrefix = false ∨
        (str "ar:*").count arnDelimiter < 5)) ∧
      ∃ err, ArnLike (str "arn:aws:iam::000000000000:role") (str "ar:*")
          = some (false, some err) ∧
        err.Error = str "Could not parse ArnLike string: " ++
          (if strings.HasPrefix (str "ar:*") arnPrefix then str "not enough sections"
            else str "invalid prefix") :=
  ⟨⟨by decide, by decide, by decide⟩,
    ArnLike_pattern_error _ _ (by decide) (by decide) (by decide)⟩

/-- C6, amended: for a value and a pattern that both parse, when the pattern is
valid UTF-8 and each of its sections is within the limits of the parser of
`regexp`, every sanitized section compiles and `ArnLike` returns no error: the
result is `(true, nil)` or `(false, nil)`. A section is within the limits when
it is shorter than 1677720 bytes (`2 * len + 3 < maxSize`), or has no wildcard
and at most 33554432 characters (`maxRunes`). -/
theorem ArnLike_no_error (v p : GoString)
    (hv : strings.HasPrefix v arnPrefix = true) (hvc : 5 ≤ v.count arnDelimiter)
    (hp : strings.HasPrefix p arnPrefix = true) (hpc : 5 ≤ p.count arnDelimiter)
    (up : utf8.ValidString p = true)
    (lp : ∀ sec ∈ strings.SplitN p arnDelimiter arnSectionsExpected,
      2 * sec.length + 3 < regexp.maxSize ∨
        ((∀ b ∈ sec, isWildcard b = false) ∧ (utf8.runes sec).length ≤ regexp.maxRunes)) :
    ArnLike v p = some (true, none) ∨ ArnLike v p = some (false, none) := by
  obtain ⟨f1, f2, f3, f4, f5, -, rfl, c1, c2, c3, c4⟩ := parse_of_prefix_count hv hvc
  obtain ⟨g1, g2, g3, g4, g5, -, rfl, d1, d2, d3, d4⟩ := parse_of_prefix_count hp hpc
  rw [splitN_arnOf g1 g2 g3 g4 g5 d1 d2 d3 d4] at lp
  rw [arnLike_arnOf_limits f1 f2 f3 f4 f5 g1 g2 g3 g4 g5 c1 c2 c3 c4 d1 d2 d3 d4 up lp]
  cases (sectionMatch f1 g1 && sectionMatch f2 g2 && sectionMatch f3 g3 &&
    sectionMatch f4 g4 && sectionMatch f5 g5)
  · exact Or.inr rfl
  · exact Or.inl rfl

/-- C6, witness: the non-matching pair of the tests. -/
theorem ArnLike_no_error_witness :
    (strings.HasPrefix (str "arn:aws:iam::111111111111:role/some-role") arnPrefix = true ∧
      5 ≤ (str "arn:aws:iam::111111111111:role/some-role").count arnDelimiter ∧
      strings.HasPrefix (str "arn:aws:iam::000000000000:role/some-role") arnPrefix = true ∧
      5 ≤ (str "arn:aws:iam::000000000000:role/some-role").count arnDelimiter ∧
      utf8.ValidString (str "arn:aws:iam::000000000000:role/some-role") = true ∧
      ∀ sec ∈ strings.SplitN (str "arn:aws:iam::000000000000:role/some-role") arnDelimiter
          arnSectionsExpected,
        2 * sec.length + 3 < regexp.maxSize) ∧
      (ArnLike (str "arn:aws:iam::111111111111:role/some-role")
          (str "arn:aws:iam::000000000000:role/some-role") = some (true, none) ∨
        ArnLike (str "arn:aws:iam::111111111111:role/some-role")
          (str "arn:aws:iam::000000000000:role/some-role") = some (false, none)) :=
  ⟨⟨by decide, by decide, by decide, by decide, by decide, by decide⟩,
    ArnLike_no_error _ _ (by decide) (by decide) (by decide) (by decide) (by decide)
      (fun sec hs => Or.inl ((by decide :
        ∀ sec ∈ strings.SplitN (str "arn:aws:iam::000000000000:role/some-role") arnDelimiter
            arnSectionsExpected,
          2 * sec.length + 3 < regexp.maxSize) sec hs))⟩

/-- C7, amended: for a value and a pattern that both parse, `ArnLike` returns
`(true, nil)` exactly when, at each of the six indices, the sanitized section
of the pattern compiles and matches the section of the value; and when the
pattern is valid UTF-8 and each of its sections is within the limits of the
parser of `regexp` (shorter than 1677720 bytes, or without wildcard and of at
most 33554432 characters), one section that does not match makes the result
`(false, nil)`, whatever the other five sections are. -/
theorem ArnLike_fieldwise (v p : GoString) (vs ps : List GoString)
    (hv : parse v = .ok vs) (hp : parse p = .ok ps) :
    (ArnLike v p = some (true, none) ↔
        ∀ i, i < 6 → fieldMatches (vs.getD i []) (ps.getD i []) = true) ∧
      (utf8.ValidString p = true →
        (∀ sec ∈ ps, 2 * sec.length + 3 < regexp.maxSize ∨
          ((∀ b ∈ sec, isWildcard b = false) ∧
            (utf8.runes sec).length ≤ regexp.maxRunes)) →
        ∀ i, i < 6 → fieldMatches (vs.getD i []) (ps.getD i []) = false →
          ArnLike v p = some (false, none)) := by
  obtain ⟨f1, f2, f3, f4, f5, rfl, rfl, c1, c2, c3, c4⟩ := parse_ok_shape hv
  obtain ⟨g1, g2, g3, g4, g5, rfl, rfl, d1, d2, d3, d4⟩ := parse_ok_shape hp
  refine ⟨?_, ?_⟩
  · rw [arnLike_of_parse hv hp]
    simp only [List.map_cons, List.map_nil]
    rw [matchAll_cons_true, matchAll_cons_true, matchAll_cons_true, matchAll_cons_true,
      matchAll_cons_true, matchAll_cons_true, forall_lt_six]
    simp [matchAll]
  · intro up lp i hi hm
    obtain ⟨k1, k2, k3, k4, k5⟩ := compiles_arnOf up lp
    rw [arnLike_arnOf_compiles f1 f2 f3 f4 f5 g1 g2 g3 g4 g5 c1 c2 c3 c4 d1 d2 d3 d4
      k1 k2 k3 k4 k5]
    interval_cases i
    · simp only [List.getD_cons_zero] at hm
      rw [fieldMatches_compiles _ _ compiles_arn, sectionMatch_self] at hm
      exact absurd hm (by decide)
    · simp only [List.getD_cons_succ, List.getD_cons_zero] at hm
      rw [fieldMatches_compiles _ _ k1] at hm
      simp [hm]
    · simp only [List.getD_cons_succ, List.getD_cons_zero] at hm
      rw [fieldMatches_compiles _ _ k2] at hm
      simp [hm]
    · simp only [List.getD_cons_succ, List.getD_cons_zero] at hm
      rw [fieldMatches_compiles _ _ k3] at hm
      simp [hm]
    · simp only [List.getD_cons_succ, List.getD_cons_zero] at hm
      rw [fieldMatches_compiles _ _ k4] at hm
      simp [hm]
    · simp only [List.getD_cons_succ, List.getD_cons_zero] at hm
      rw [fieldMatches_compiles _ _ k5] at hm
      simp [hm]

/-- C7, witness: the two identifiers of the tests that differ in the account section. -/
theorem ArnLike_fieldwise_witness :
    (parse (str "arn:aws:iam::111111111111:role/some-role")
        = .ok [str "arn", str "aws", str "iam", [], str "111111111111", str "role/some-role"] ∧
      parse (str "arn:aws:iam::000000000000:role/some-role")
        = .ok [str "arn", str "aws", str "iam", [], str "000000000000", str "role/some-role"] ∧
      utf8.ValidString (str "arn:aws:iam::000000000000:role/some-role") = true ∧
      (∀ sec ∈ [str "arn", str "aws", str "iam", [], str "000000000000", str "role/some-role"],
        2 * sec.length + 3 < regexp.maxSize) ∧
      fieldMatches (str "111111111111") (str "000000000000") = false) ∧
      ArnLike (str "arn:aws:iam::111111111111:role/some-role")
        (str "arn:aws:iam::000000000000:role/some-role") = some (false, none) :=
  ⟨⟨rfl, rfl, by decide, by decide, by decide⟩,
    (ArnLike_fieldwise _ _ _ _
      (rfl : parse (str "arn:aws:iam::111111111111:role/some-role")
        = .ok [str "arn", str "aws", str "iam", [], str "111111111111", str "role/some-role"])
      (rfl : parse (str "arn:aws:iam::000000000000:role/some-role")
        = .ok [str "arn", str "aws", str "iam", [], str "000000000000",
          str "role/some-role"])).2
      (by decide)
      (fun sec hs => Or.inl ((by decide :
        ∀ sec ∈ [str "arn", str "aws", str "iam", [], str "000000000000",
            str "role/some-role"],
          2 * sec.length + 3 < regexp.maxSize) sec hs))
      4 (by decide) (by decide)⟩

set_option maxRecDepth 100000 in
/-- C8, amended: for a value and a pattern that both parse and are valid UTF-8,
if the pattern contains no `*` and no `?` and each of its sections has at most
33554432 characters (`maxRunes`, the number of runes the parser of `regexp`
accepts) then `ArnLike` returns no error and returns true exactly when the
value equals the pattern. So every metacharacter of the pattern matches only itself, no section matches
a proper part or an extension of itself, and two identifiers that differ in
one section do not match. -/
theorem ArnLike_literal (v p : GoString)
    (hv : strings.HasPrefix v arnPrefix = true) (hvc : 5 ≤ v.count arnDelimiter)
    (hp : strings.HasPrefix p arnPrefix = true) (hpc : 5 ≤ p.count arnDelimiter)
    (uv : utf8.ValidString v = true) (up : utf8.ValidString p = true)
    (hw : ∀ b ∈ p, isWildcard b = false)
    (hm : ∀ sec ∈ strings.SplitN p arnDelimiter arnSectionsExpected,
      (utf8.runes sec).length ≤ regexp.maxRunes) :
    ArnLike v p = some (decide (v = p), none) := by
  obtain ⟨f1, f2, f3, f4, f5, -, rfl, c1, c2, c3, c4⟩ := parse_of_prefix_count hv hvc
  obtain ⟨g1, g2, g3, g4, g5, -, rfl, d1, d2, d3, d4⟩ := parse_of_prefix_count hp hpc
  obtain ⟨v1, v2, v3, v4, v5⟩ := valid_arnOf up
  obtain ⟨u1, u2, u3, u4, u5⟩ := valid_arnOf uv
  have w1 : ∀ b ∈ g1, isWildcard b = false := fun b hb => hw b (mem_arnOf (Or.inl hb))
  have w2 : ∀ b ∈ g2, isWildcard b = false :=
    fun b hb => hw b (mem_arnOf (Or.inr (Or.inl hb)))
  have w3 : ∀ b ∈ g3, isWildcard b = false :=
    fun b hb => hw b (mem_arnOf (Or.inr (Or.inr (Or.inl hb))))
  have w4 : ∀ b ∈ g4, isWildcard b = false :=
    fun b hb => hw b (mem_arnOf (Or.inr (Or.inr (Or.inr (Or.inl hb)))))
  have w5 : ∀ b ∈ g5, isWildcard b = false :=
    fun b hb => hw b (mem_arnOf (Or.inr (Or.inr (Or.inr (Or.inr hb)))))
  rw [splitN_arnOf g1 g2 g3 g4 g5 d1 d2 d3 d4] at hm
  have w0 : ∀ b ∈ ([97, 114, 110] : GoString), isWildcard b = false := by decide
  have hl : ∀ sec ∈ [[97, 114, 110], g1, g2, g3, g4, g5],
      2 * sec.length + 3 < regexp.maxSize ∨
        ((∀ b ∈ sec, isWildcard b = false) ∧ (utf8.runes sec).length ≤ regexp.maxRunes) := by
    intro sec hs
    refine Or.inr ⟨?_, hm sec hs⟩
    simp only [List.mem_cons, List.mem_singleton, List.not_mem_nil, or_false] at hs
    rcases hs with rfl | rfl | rfl | rfl | rfl | rfl
    exacts [w0, w1, w2, w3, w4, w5]
  rw [arnLike_arnOf_limits f1 f2 f3 f4 f5 g1 g2 g3 g4 g5 c1 c2 c3 c4 d1 d2 d3 d4 up hl,
    sectionMatch_literal_valid f1 g1 w1 u1 v1, sectionMatch_literal_valid f2 g2 w2 u2 v2,
    sectionMatch_literal_valid f3 g3 w3 u3 v3, sectionMatch_literal_valid f4 g4 w4 u4 v4,
    sectionMatch_literal_valid f5 g5 w5 u5 v5]
  by_cases e : arnOf f1 f2 f3 f4 f5 = arnOf g1 g2 g3 g4 g5
  · obtain ⟨rfl, rfl, rfl, rfl, rfl⟩ := arnOf_inj c1 c2 c3 c4 d1 d2 d3 d4 e
    simp
  · have : ¬ (f1 = g1 ∧ f2 = g2 ∧ f3 = g3 ∧ f4 = g4 ∧ f5 = g5) := by
      rintro ⟨rfl, rfl, rfl, rfl, rfl⟩
      exact e rfl
    have hl : (decide (f1 = g1) && decide (f2 = g2) && decide (f3 = g3) && decide (f4 = g4) &&
        decide (f5 = g5)) = false := by
      by_contra hc
      simp only [Bool.not_eq_false, Bool.and_eq_true, decide_eq_true_eq] at hc
      exact this ⟨hc.1.1.1.1, hc.1.1.1.2, hc.1.1.2, hc.1.2, hc.2⟩
    rw [hl, decide_eq_false e]

set_option maxRecDepth 100000 in
/-- C8, witness: the two identifiers of the tests that differ in the account section. -/
theorem ArnLike_literal_witness :
    (strings.HasPrefix (str "arn:aws:iam::111111111111:role/some-role") arnPrefix = true ∧
      5 ≤ (str "arn:aws:iam::111111111111:role/some-role").count arnDelimiter ∧
      strings.HasPrefix (str "arn:aws:iam::000000000000:role/some-role") arnPrefix = true ∧
      5 ≤ (str "arn:aws:iam::000000000000:role/some-role").count arnDelimiter ∧
      utf8.ValidString (str "arn:aws:iam::111111111111:role/some-role") = true ∧
      utf8.ValidString (str "arn:aws:iam::000000000000:role/some-role") = true ∧
      (∀ b ∈ str "arn:aws:iam::000000000000:role/some-role", isWildcard b = false) ∧
      ∀ sec ∈ strings.SplitN (str "arn:aws:iam::000000000000:role/some-role") arnDelimiter
          arnSectionsExpected,
        (utf8.runes sec).length ≤ regexp.maxRunes) ∧
      ArnLike (str "arn:aws:iam::111111111111:role/some-role")
          (str "arn:aws:iam::000000000000:role/some-role")
        = some (decide (str "arn:aws:iam::111111111111:role/some-role"
            = str "arn:aws:iam::000000000000:role/some-role"), none) :=
  ⟨⟨by decide, by decide, by decide, by decide, by decide, by decide, by decide, by decide⟩,
    ArnLike_literal _ _ (by decide) (by decide) (by decide) (by decide) (by decide) (by decide)
      (by decide) (by decide)⟩

/-- What the code does with `*`. A value that parses is matched by
`arn:*:*:*:*:*` exactly when it contains no newline, whatever else its five
sections contain (empty sections and bytes that are not valid UTF-8 included),
and no error is returned; and replacing any one of its five sections after
`arn` by `*` gives a pattern that matches it, when that pattern is valid UTF-8
and shorter than 1677720 bytes (`2 * len + 3 < maxSize`, so that the parser of
`regexp` stays below its limits) and the replaced section contains no
newline. -/
theorem ArnLike_star (v : GoString)
    (hv : strings.HasPrefix v arnPrefix = true) (hvc : 5 ≤ v.count arnDelimiter) :
    ArnLike v (str "arn:*:*:*:*:*") = some (decide ((10 : Byte) ∉ v), none) ∧
      (∀ secs, parse v = .ok secs → ∀ i, 1 ≤ i → i ≤ 5 →
        utf8.ValidString ([arnDelimiter].intercalate (secs.set i (str "*"))) = true →
        2 * ([arnDelimiter].intercalate (secs.set i (str "*"))).length + 3 < regexp.maxSize →
        (10 : Byte) ∉ secs.getD i [] →
          ArnLike v ([arnDelimiter].intercalate (secs.set i (str "*")))
            = some (true, none)) := by
  obtain ⟨f1, f2, f3, f4, f5, hparse, rfl, c1, c2, c3, c4⟩ := parse_of_prefix_count hv hvc
  have cs : arnDelimiter ∉ ([42] : GoString) := by decide
  have vs : utf8.ValidString [42] = true := by decide
  have es : str "*" = [42] := by decide
  refine ⟨?_, ?_⟩
  · have e : str "arn:*:*:*:*:*" = arnOf [42] [42] [42] [42] [42] := by decide
    have hm : (10 : Byte) ∈ arnOf f1 f2 f3 f4 f5 ↔
        (10 : Byte) ∈ f1 ∨ (10 : Byte) ∈ f2 ∨ (10 : Byte) ∈ f3 ∨ (10 : Byte) ∈ f4 ∨
          (10 : Byte) ∈ f5 := by
      have n1 : ¬ (10 : Byte) = 97 := by decide
      have n2 : ¬ (10 : Byte) = 114 := by decide
      have n3 : ¬ (10 : Byte) = 110 := by decide
      have n4 : ¬ (10 : Byte) = 58 := by decide
      simp [arnOf, n1, n2, n3, n4]
    rw [e, arnLike_arnOf f1 f2 f3 f4 f5 [42] [42] [42] [42] [42] c1 c2 c3 c4 cs cs cs cs
      vs vs vs vs vs (by decide)]
    simp only [sectionMatch_star, hm]
    by_cases h1 : (10 : Byte) ∈ f1 <;> by_cases h2 : (10 : Byte) ∈ f2 <;>
      by_cases h3 : (10 : Byte) ∈ f3 <;> by_cases h4 : (10 : Byte) ∈ f4 <;>
      by_cases h5 : (10 : Byte) ∈ f5 <;> simp [h1, h2, h3, h4, h5]
  · intro secs hs i h1 h5 up sp hn
    rw [hparse] at hs
    simp only [Except.ok.injEq] at hs
    subst hs
    rw [es] at up sp ⊢
    interval_cases i
    · have e : [arnDelimiter].intercalate
          ([[97, 114, 110], f1, f2, f3, f4, f5].set 1 [42]) = arnOf [42] f2 f3 f4 f5 := by
        simp [List.intercalate, arnOf, arnDelimiter]
      simp only [List.getD_cons_succ, List.getD_cons_zero] at hn
      rw [e] at up sp ⊢
      obtain ⟨v1, v2, v3, v4, v5⟩ := valid_arnOf up
      rw [arnLike_arnOf f1 f2 f3 f4 f5 [42] f2 f3 f4 f5 c1 c2 c3 c4 cs c2 c3 c4
        v1 v2 v3 v4 v5 sp]
      simp [sectionMatch_star, sectionMatch_self, hn]
    · have e : [arnDelimiter].intercalate
          ([[97, 114, 110], f1, f2, f3, f4, f5].set 2 [42]) = arnOf f1 [42] f3 f4 f5 := by
        simp [List.intercalate, arnOf, arnDelimiter]
      simp only [List.getD_cons_succ, List.getD_cons_zero] at hn
      rw [e] at up sp ⊢
      obtain ⟨v1, v2, v3, v4, v5⟩ := valid_arnOf up
      rw [arnLike_arnOf f1 f2 f3 f4 f5 f1 [42] f3 f4 f5 c1 c2 c3 c4 c1 cs c3 c4
        v1 v2 v3 v4 v5 sp]
      simp [sectionMatch_star, sectionMatch_self, hn]
    · have e : [arnDelimiter].intercalate
          ([[97, 114, 110], f1, f2, f3, f4, f5].set 3 [42]) = arnOf f1 f2 [42] f4 f5 := by
        simp [List.intercalate, arnOf, arnDelimiter]
      simp only [List.getD_cons_succ, List.getD_cons_zero] at hn
      rw [e] at up sp ⊢
      obtain ⟨v1, v2, v3, v4, v5⟩ := valid_arnOf up
      rw [arnLike_arnOf f1 f2 f3 f4 f5 f1 f2 [42] f4 f5 c1 c2 c3 c4 c1 c2 cs c4
        v1 v2 v3 v4 v5 sp]
      simp [sectionMatch_star, sectionMatch_self, hn]
    · have e : [arnDelimiter].intercalate
          ([[97, 114, 110], f1, f2, f3, f4, f5].set 4 [42]) = arnOf f1 f2 f3 [42] f5 := by
        simp [List.intercalate, arnOf, arnDelimiter]
      simp only [List.getD_cons_succ, List.getD_cons_zero] at hn
      rw [e] at up sp ⊢
      obtain ⟨v1, v2, v3, v4, v5⟩ := valid_arnOf up
      rw [arnLike_arnOf f1 f2 f3 f4 f5 f1 f2 f3 [42] f5 c1 c2 c3 c4 c1 c2 c3 cs
        v1 v2 v3 v4 v5 sp]
      simp [sectionMatch_star, sectionMatch_self, hn]
    · have e : [arnDelimiter].intercalate
          ([[97, 114, 110], f1, f2, f3, f4, f5].set 5 [42]) = arnOf f1 f2 f3 f4 [42] := by
        simp [List.intercalate, arnOf, arnDelimiter]
      simp only [List.getD_cons_succ, List.getD_cons_zero] at hn
      rw [e] at up sp ⊢
      obtain ⟨v1, v2, v3, v4, v5⟩ := valid_arnOf up
      rw [arnLike_arnOf f1 f2 f3 f4 f5 f1 f2 f3 f4 [42] c1 c2 c3 c4 c1 c2 c3 c4
        v1 v2 v3 v4 v5 sp]
      simp [sectionMatch_star, sectionMatch_self, hn]

/-- The identifier of the tests, with an empty region, against
`arn:*:*:*:*:*` and against itself with the resource replaced by `*`. -/
theorem ArnLike_star_witness :
    (strings.HasPrefix (str "arn:aws:iam::000000000000:role/some-role") arnPrefix = true ∧
      5 ≤ (str "arn:aws:iam::000000000000:role/some-role").count arnDelimiter ∧
      (10 : Byte) ∉ str "arn:aws:iam::000000000000:role/some-role" ∧
      utf8.ValidString (str "arn:aws:iam::000000000000:*") = true ∧
      2 * (str "arn:aws:iam::000000000000:*").length + 3 < regexp.maxSize) ∧
      ArnLike (str "arn:aws:iam::000000000000:role/some-role") (str "arn:*:*:*:*:*")
        = some (decide ((10 : Byte) ∉ str "arn:aws:iam::000000000000:role/some-role"), none) ∧
      ArnLike (str "arn:aws:iam::000000000000:role/some-role")
          ([arnDelimiter].intercalate
            ([str "arn", str "aws", str "iam", [], str "000000000000",
              str "role/some-role"].set 5 (str "*")))
        = some (true, none) :=
  ⟨⟨by decide, by decide, by decide, by decide, by decide⟩,
    (ArnLike_star _ (by decide) (by decide)).1,
    (ArnLike_star (str "arn:aws:iam::000000000000:role/some-role") (by decide) (by decide)).2
      [str "arn", str "aws", str "iam", [], str "000000000000", str "role/some-role"]
      rfl 5 (by decide) (by decide) (by decide) (by decide) (by decide)⟩

/-- What the code does with a resource made of `n` characters `?`, for `n` up
to 1677720, the other sections being those of the tests: it matches the
resources of at most `n` runes that contain no newline, and returns no error. -/
theorem ArnLike_quests_at_most (f : GoString) (n : Nat) (hn : n ≤ 1677720) :
    ArnLike (str "arn:aws:iam::000000000000:" ++ f)
        (str "arn:aws:iam::000000000000:" ++ List.replicate n 63)
      = some (decide ((utf8.runes f).length ≤ n ∧ (10 : Byte) ∉ f), none) := by
  have e1 : str "arn:aws:iam::000000000000:" ++ f
      = arnOf (str "aws") (str "iam") [] (str "000000000000") f := rfl
  have e2 : str "arn:aws:iam::000000000000:" ++ List.replicate n 63
      = arnOf (str "aws") (str "iam") [] (str "000000000000") (List.replicate n 63) := rfl
  rw [e1, e2, arnLike_arnOf_compiles _ _ _ _ _ _ _ _ _ _ (by decide) (by decide) (by decide)
    (by decide) (by decide) (by decide) (by decide) (by decide)
    (compiles_of_small (by decide) (by decide)) (compiles_of_small (by decide) (by decide))
    (compiles_of_small (by decide) (by decide)) (compiles_of_small (by decide) (by decide))
    (compiles_quests n hn)]
  simp [sectionMatch_self, sectionMatch_quests]

/-- C9, the code at the failing inputs: the value whose resource is `a`,
newline, `b` is matched neither by `arn:*:*:*:*:*` nor by itself with the
resource replaced by `*`. The wildcard `*` is translated to `.*`, and `.` of
`regexp` does not match a newline. In both cases `ArnLike` returns
`(false, nil)`. -/
theorem ArnLike_star_misses_newline :
    ArnLike (str "arn:aws:iam::000000000000:a\nb") (str "arn:*:*:*:*:*")
        = some (false, none) ∧
      ArnLike (str "arn:aws:iam::000000000000:a\nb") (str "arn:aws:iam::000000000000:*")
        = some (false, none) := by
  decide

/-- C10, the code at the failing inputs: a resource of two `?` matches the
one-character resource `a`, and a resource of one `?` matches the empty
resource, because `?` is translated to `.?`, which also matches nothing. -/
theorem ArnLike_quest_matches_shorter :
    ArnLike (str "arn:aws:iam::000000000000:a") (str "arn:aws:iam::000000000000:??")
        = some (true, none) ∧
      ArnLike (str "arn:aws:iam::000000000000:") (str "arn:aws:iam::000000000000:?")
        = some (true, none) := by
  decide

/-! ## More facts about `quoteMeta` -/

theorem special_iff_mem_metaBytes (c : Byte) : special c = true ↔ c ∈ metaBytes := by
  rw [special_eq_mem]
  simp only [decide_eq_true_eq]
  rfl

theorem quoteByte_eq_referenceByte (c : Byte) : quoteByte c = referenceByte c := by
  unfold quoteByte referenceByte
  by_cases hs : special c = true
  · rw [if_pos hs, if_pos ((special_iff_mem_metaBytes c).1 hs)]
  · rw [if_neg hs, if_neg (fun h => hs ((special_iff_mem_metaBytes c).2 h))]
    by_cases h42 : c = 42
    · subst h42
      rfl
    · by_cases h63 : c = 63
      · subst h63
        rfl
      · have hw : isWildcard c = false := by simp [isWildcard, h42, h63]
        simp [hw, h42, h63]

theorem flatMap_quoteByte_eq_reference (s : GoString) :
    s.flatMap quoteByte = quoteMetaReference s := by
  unfold quoteMetaReference
  induction s with
  | nil => rfl
  | cons c rest ih =>
    rw [List.flatMap_cons, List.map_cons, List.flatten_cons, ih, quoteByte_eq_referenceByte]

theorem flatMap_quoteByte_plain (s : GoString)
    (h : ∀ c ∈ s, special c = false ∧ isWildcard c = false) : s.flatMap quoteByte = s := by
  induction s with
  | nil => rfl
  | cons c rest ih =>
    have hc := h c (by simp)
    rw [List.flatMap_cons, ih (fun z hz => h z (by simp [hz]))]
    simp [quoteByte, hc.1, hc.2]

theorem flatMap_quoteByte_length (s : GoString) :
    (s.flatMap quoteByte).length
      = s.length + s.countP (fun c => special c || isWildcard c) := by
  induction s with
  | nil => rfl
  | cons c rest ih =>
    rw [List.flatMap_cons, List.length_append, ih, List.countP_cons, List.length_cons]
    unfold quoteByte
    by_cases hs : special c = true
    · simp only [hs, if_true, Bool.true_or, List.length_cons, List.length_nil]
      omega
    · simp only [Bool.not_eq_true] at hs
      by_cases hw : isWildcard c = true
      · simp only [hs, hw, Bool.false_or, if_true, List.length_cons, List.length_nil]
        simp
        omega
      · simp only [Bool.not_eq_true] at hw
        simp only [hs, hw, Bool.false_or, List.length_cons, List.length_nil]
        simp
        omega

theorem countP_take_scanMeta (s : GoString) :
    (s.take (scanMeta s)).countP (fun c => special c || isWildcard c) = 0 := by
  induction s with
  | nil => rfl
  | cons c rest ih =>
    unfold scanMeta
    split
    · rfl
    · rename_i h
      rw [List.take_succ_cons, List.countP_cons, ih]
      simp only [h, if_false, Bool.false_eq_true]

theorem writeIndices_lt (rest : GoString) (j : Nat) :
    ∀ k ∈ writeIndices rest j, k < j + 2 * rest.length := by
  induction rest generalizing j with
  | nil => simp [writeIndices]
  | cons c rest ih =>
    intro k hk
    unfold writeIndices at hk
    simp only [List.length_cons]
    split at hk
    · simp only [List.mem_cons] at hk
      rcases hk with rfl | rfl | hk
      · omega
      · omega
      · have := ih (j + 2) k hk
        omega
    · simp only [List.mem_cons] at hk
      rcases hk with rfl | hk
      · omega
      · have := ih (j + 1) k hk
        omega

/-- The second loop returns exactly when every write is inside the buffer. -/
theorem quoteLoop_isSome_iff (rest : GoString) (b : List Byte) (j : Nat) :
    (quoteLoop rest b j).isSome = true ↔ ∀ k ∈ writeIndices rest j, k < b.length := by
  induction rest generalizing b j with
  | nil => simp [quoteLoop, writeIndices]
  | cons c rest ih =>
    unfold quoteLoop writeIndices
    by_cases hs : special c = true
    · simp only [hs, if_true, Bool.true_or, writeAt, List.mem_cons, forall_eq_or_imp]
      by_cases h1 : j < b.length
      · by_cases h2 : j + 1 < b.length
        · simp [h1, h2, ih]
        · simp [h1, h2]
      · simp [h1]
    · simp only [Bool.not_eq_true] at hs
      by_cases hw : isWildcard c = true
      · simp only [hs, hw, Bool.false_or, if_true, writeAt, List.mem_cons, forall_eq_or_imp,
          Bool.false_eq_true, if_false]
        by_cases h1 : j < b.length
        · by_cases h2 : j + 1 < b.length
          · simp [h1, h2, ih]
          · simp [h1, h2]
        · simp [h1]
      · simp only [Bool.not_eq_true] at hw
        simp only [hs, hw, Bool.false_or, Bool.false_eq_true, if_false, writeAt, List.mem_cons,
          forall_eq_or_imp]
        by_cases h1 : j < b.length
        · simp [h1, ih]
        · simp [h1]

theorem quoteByte_ne_nil (c : Byte) : quoteByte c ≠ [] := by
  unfold quoteByte
  split
  · simp
  · split <;> simp

/-- The byte-wise translation can be read back. -/
theorem flatMap_quoteByte_injective (s : GoString) :
    ∀ t : GoString, s.flatMap quoteByte = t.flatMap quoteByte → s = t := by
  induction s with
  | nil =>
    intro t h
    cases t with
    | nil => rfl
    | cons d t =>
      exfalso
      rw [List.flatMap_nil, List.flatMap_cons] at h
      have := congrArg List.length h
      have hn := quoteByte_ne_nil d
      cases hq : quoteByte d with
      | nil => exact hn hq
      | cons x xs => rw [hq] at this; simp at this
  | cons c s ih =>
    intro t h
    cases t with
    | nil =>
      exfalso
      rw [List.flatMap_nil, List.flatMap_cons] at h
      have hn := quoteByte_ne_nil c
      cases hq : quoteByte c with
      | nil => exact hn hq
      | cons x xs => rw [hq] at h; simp at h
    | cons d t =>
      rw [List.flatMap_cons, List.flatMap_cons] at h
      have s92 : special (92 : Byte) = true := by decide
      have s46 : special (46 : Byte) = true := by decide
      unfold quoteByte at h
      by_cases hc : special c = true
      · by_cases hd : special d = true
        · simp only [hc, hd, if_true, List.cons_append, List.nil_append, List.cons.injEq,
            true_and] at h
          rw [h.1, ih t h.2]
        · simp only [Bool.not_eq_true] at hd
          by_cases wd : isWildcard d = true
          · simp only [hc, hd, wd, if_true, Bool.false_eq_true, if_false, List.cons_append,
              List.nil_append, List.cons.injEq] at h
            exact absurd h.1 (by decide)
          · simp only [Bool.not_eq_true] at wd
            simp only [hc, hd, wd, if_true, Bool.false_eq_true, if_false, List.cons_append,
              List.nil_append, List.cons.injEq] at h
            rw [← h.1] at hd
            rw [s92] at hd
            exact absurd hd (by decide)
      · simp only [Bool.not_eq_true] at hc
        by_cases wc : isWildcard c = true
        · by_cases hd : special d = true
          · simp only [hc, hd, wc, if_true, Bool.false_eq_true, if_false, List.cons_append,
              List.nil_append, List.cons.injEq] at h
            exact absurd h.1 (by decide)
          · simp only [Bool.not_eq_true] at hd
            by_cases wd : isWildcard d = true
            · simp only [hc, hd, wc, wd, if_true, Bool.false_eq_true, if_false,
                List.cons_append, List.nil_append, List.cons.injEq, true_and] at h
              rw [h.1, ih t h.2]
            · simp only [Bool.not_eq_true] at wd
              simp only [hc, hd, wc, wd, if_true, Bool.false_eq_true, if_false,
                List.cons_append, List.nil_append, List.cons.injEq] at h
              rw [← h.1] at hd
              rw [s46] at hd
              exact absurd hd (by decide)
        · simp only [Bool.not_eq_true] at wc
          by_cases hd : special d = true
          · simp only [hc, hd, wc, if_true, Bool.false_eq_true, if_false, List.cons_append,
              List.nil_append, List.cons.injEq] at h
            rw [h.1] at hc
            rw [s92] at hc
            exact absurd hc (by decide)
          · simp only [Bool.not_eq_true] at hd
            by_cases wd : isWildcard d = true
            · simp only [hc, hd, wc, wd, if_true, Bool.false_eq_true, if_false,
                List.cons_append, List.nil_append, List.cons.injEq] at h
              rw [h.1] at hc
              rw [s46] at hc
              exact absurd hc (by decide)
            · simp only [Bool.not_eq_true] at wd
              simp only [hc, hd, wc, wd, Bool.false_eq_true, if_false, List.cons_append,
                List.nil_append, List.cons.injEq] at h
              rw [h.1, ih t h.2]

/-- C14: `quoteMeta` never panics and equals the byte-wise reference
translation: backslash and the byte for each of the twelve metacharacters,
`.*` for `*`, `.?` for `?`, the byte itself otherwise. A string with none of
these fourteen bytes is returned unchanged, and a run of bytes that are all
0x80 or more is copied unchanged between the translations of what precedes and
what follows it. -/
theorem quoteMeta_reference (s : GoString) :
    quoteMeta s = some (quoteMetaReference s) ∧
      ((∀ c ∈ s, c ∉ metaBytes ∧ c ≠ 42 ∧ c ≠ 63) → quoteMeta s = some s) ∧
      ∀ a h b : GoString, s = a ++ h ++ b → (∀ c ∈ h, 128 ≤ c.val) →
        quoteMeta s = some (quoteMetaReference a ++ h ++ quoteMetaReference b) := by
  refine ⟨?_, ?_, ?_⟩
  · rw [quoteMeta_eq, flatMap_quoteByte_eq_reference]
  · intro h
    rw [quoteMeta_eq, flatMap_quoteByte_plain]
    intro c hc
    obtain ⟨h1, h2, h3⟩ := h c hc
    refine ⟨?_, by simp [isWildcard, h2, h3]⟩
    cases hs : special c
    · rfl
    · exact absurd ((special_iff_mem_metaBytes c).1 hs) h1
  · rintro a h b rfl hh
    rw [quoteMeta_eq, List.flatMap_append, List.flatMap_append, flatMap_quoteByte_high h hh,
      flatMap_quoteByte_eq_reference, flatMap_quoteByte_eq_reference]

set_option maxRecDepth 100000 in
/-- C14, witness: the last case of `TestQuoteMeta`, a plain string, and a
string with the two bytes of `é` in the middle. -/
theorem quoteMeta_reference_witness :
    quoteMeta (str "\\.+()|[]\x7b\x7d^$*?")
        = some (str "\\\\\\.\\+\\(\\)\\|\\[\\]\\\x7b\\\x7d\\^\\$.*.?") ∧
      quoteMeta (str "abdcEFG") = some (str "abdcEFG") ∧
      quoteMeta (str "a.é*") = some (str "a\\.é.*") :=
  ⟨(quoteMeta_reference _).1.trans (by decide),
    (quoteMeta_reference (str "abdcEFG")).2.1 (by decide),
    ((quoteMeta_reference (str "a.é*")).2.2 (str "a.") [195, 169] (str "*") (by decide)
      (by decide)).trans (by decide)⟩

/-- C17: once `init` has run, `special(b)` is true exactly for the twelve bytes
backslash `.+()|[]{}^$`; every byte of 0x80 or more is not special; and two
ASCII bytes with the same index `b%16` and the same bit `b/16` are the same
byte, so no two of them share a bit of the table. -/
theorem special_exact :
    (∀ b : Byte, special b = true ↔ b ∈ metaBytes) ∧
      (∀ b : Byte, 128 ≤ b.val → special b = false) ∧
      (∀ a b : Byte, a.val < 128 → b.val < 128 → a.val % 16 = b.val % 16 →
        a.val / 16 = b.val / 16 → a = b) ∧
      specialBytes = [0, 0, 0, 0, 4, 0, 0, 0, 4, 4, 0, 164, 160, 160, 36, 0] := by
  refine ⟨special_iff_mem_metaBytes, ?_, ?_, specialBytes_eq⟩
  · intro b hb
    cases hs : special b
    · rfl
    · have := special_lt hs
      omega
  · intro a b _ _ h1 h2
    apply Fin.ext
    omega

/-- C17, witness: `$` is special, `*` is not, the byte 0xDC (which has the
index and the bit of the backslash, 0x5C, but for the top bit) is not. -/
theorem special_exact_witness :
    special 36 = true ∧ special 42 = false ∧ special 220 = false :=
  ⟨(special_exact.1 36).2 (by decide),
    by
      cases h : special 42
      · rfl
      · exact absurd ((special_exact.1 42).1 h) (by decide),
    special_exact.2.1 220 (by decide)⟩

/-- C18: the second loop of `quoteMeta` returns exactly when every write index
is inside the buffer, and on the buffer `quoteMeta` allocates it is: with `i`
the index of the first special or wildcard byte, every write index is below
`2*len(s) - i`, the loop ends with the same buffer size and with `j` equal to
`len(s)` plus the number of special and wildcard bytes of `s`, which is at most
`2*len(s) - i`, and that `j` is the length of the string `quoteMeta` returns. -/
theorem quoteMeta_in_bounds (s : GoString) :
    (∀ (rest : GoString) (b : List Byte) (j : Nat),
        (quoteLoop rest b j).isSome = true ↔ ∀ k ∈ writeIndices rest j, k < b.length) ∧
      (∀ k ∈ writeIndices (s.drop (scanMeta s)) (scanMeta s), k < 2 * s.length - scanMeta s) ∧
      (scanMeta s < s.length →
        ∃ b, quoteLoop (s.drop (scanMeta s))
            (copy (List.replicate (2 * s.length - scanMeta s) 0) (s.take (scanMeta s)))
            (scanMeta s)
          = some (b, s.length + s.countP (fun c => special c || isWildcard c)) ∧
          b.length = 2 * s.length - scanMeta s) ∧
      s.length + s.countP (fun c => special c || isWildcard c) ≤ 2 * s.length - scanMeta s ∧
      ∃ out, quoteMeta s = some out ∧
        out.length = s.length + s.countP (fun c => special c || isWildcard c) := by
  have hle := scanMeta_le s
  have hcount : s.countP (fun c => special c || isWildcard c)
      = (s.drop (scanMeta s)).countP (fun c => special c || isWildcard c) := by
    conv_lhs => rw [← List.take_append_drop (scanMeta s) s]
    rw [List.countP_append, countP_take_scanMeta, Nat.zero_add]
  have hcle : (s.drop (scanMeta s)).countP (fun c => special c || isWildcard c)
      ≤ s.length - scanMeta s := by
    have := List.countP_le_length (fun c => special c || isWildcard c)
      (l := s.drop (scanMeta s))
    rw [List.length_drop] at this
    exact this
  refine ⟨quoteLoop_isSome_iff, ?_, ?_, ?_, ?_⟩
  · intro k hk
    have := writeIndices_lt _ _ k hk
    rw [List.length_drop] at this
    omega
  · intro hi
    have hlen : (copy (List.replicate (2 * s.length - scanMeta s) 0)
        (s.take (scanMeta s))).length = 2 * s.length - scanMeta s := by
      simp only [copy, List.length_append, List.length_take, List.length_drop,
        List.length_replicate]
      omega
    obtain ⟨b1, e1, e2, _⟩ := quoteLoop_spec (s.drop (scanMeta s))
      (copy (List.replicate (2 * s.length - scanMeta s) 0) (s.take (scanMeta s))) (scanMeta s)
      (by rw [hlen, List.length_drop]; omega)
    refine ⟨b1, ?_, by rw [e2, hlen]⟩
    rw [e1, flatMap_quoteByte_length, List.length_drop, hcount]
    congr 2
    omega
  · rw [hcount]
    omega
  · refine ⟨_, quoteMeta_eq s, ?_⟩
    rw [flatMap_quoteByte_length]

/-- C18, witness: on `ab*.` the first loop stops at index 2, the buffer has 6
bytes, the writes are at the indices 2, 3, 4 and 5, and the result has 6 bytes. -/
theorem quoteMeta_in_bounds_witness :
    scanMeta (str "ab*.") = 2 ∧
      writeIndices ((str "ab*.").drop 2) 2 = [2, 3, 4, 5] ∧
      (∀ k ∈ writeIndices ((str "ab*.").drop (scanMeta (str "ab*."))) (scanMeta (str "ab*.")),
        k < 2 * (str "ab*.").length - scanMeta (str "ab*.")) ∧
      quoteMeta (str "ab*.") = some (str "ab.*\\.") :=
  ⟨by decide, by decide, (quoteMeta_in_bounds (str "ab*.")).2.1, by decide⟩

/-- C19: `quoteMeta` is injective: two strings with the same sanitized form
are the same string. -/
theorem quoteMeta_injective (s t : GoString) (h : quoteMeta s = quoteMeta t) : s = t := by
  rw [quoteMeta_eq, quoteMeta_eq] at h
  exact flatMap_quoteByte_injective s t (Option.some.inj h)

/-- C19, witness: the two strings are `a.` both times. -/
theorem quoteMeta_injective_witness :
    quoteMeta (str "a.") = quoteMeta ([97] ++ [46]) ∧ str "a." = [97] ++ [46] :=
  ⟨by decide, quoteMeta_injective _ _ (by decide)⟩

/-! ## The glob variant -/

theorem drop_succ_set (b : List Byte) (j k : Nat) (x : Byte) (h : j < k) :
    (b.set j x).drop k = b.drop k := by
  induction b generalizing j k with
  | nil => simp
  | cons y b ih =>
    cases k with
    | zero => omega
    | succ k =>
      cases j with
      | zero => simp
      | succ j => simp [ih j k (by omega)]

theorem globEscape_cons (c : Byte) (rest : GoString) :
    globEscape (c :: rest) = (if isGlobMeta c then [92, c] else [c]) ++ globEscape rest := by
  simp [globEscape]

theorem tidyLoop_spec (rest : GoString) (b : List Byte) (j : Nat)
    (h : j + 2 * rest.length ≤ b.length) :
    ∃ b1, tidyLoop rest b j = some (b1, j + (globEscape rest).length) ∧
      b1.length = b.length ∧
      b1.take (j + (globEscape rest).length) = b.take j ++ globEscape rest ∧
      b1.drop (j + (globEscape rest).length) = b.drop (j + (globEscape rest).length) := by
  induction rest generalizing b j with
  | nil => exact ⟨b, by simp [tidyLoop, globEscape]⟩
  | cons c rest ih =>
    simp only [List.length_cons] at h
    by_cases hm : isGlobMeta c = true
    · obtain ⟨b1, e1, e2, e3, e4⟩ := ih ((b.set j 92).set (j + 1) c) (j + 2)
        (by simp only [List.length_set]; omega)
      have w1 : writeAt b j 92 = some (b.set j 92) := by
        unfold writeAt
        rw [if_pos (by omega)]
      have w2 : writeAt (b.set j 92) (j + 1) c = some ((b.set j 92).set (j + 1) c) := by
        unfold writeAt
        rw [if_pos (by simp only [List.length_set]; omega)]
      have hj : j + (globEscape (c :: rest)).length = j + 2 + (globEscape rest).length := by
        rw [globEscape_cons, if_pos hm, List.length_append]
        simp only [List.length_cons, List.length_nil]
        omega
      refine ⟨b1, ?_, by simpa using e2, ?_, ?_⟩
      · rw [hj, tidyLoop, if_pos hm, w1]
        simp only [Option.map_some', Option.some_bind]
        rw [w2, Option.some_bind, e1]
      · rw [hj, e3, take_succ_set _ _ _ (by simp only [List.length_set]; omega),
          take_succ_set _ _ _ (by omega), globEscape_cons, if_pos hm]
        simp
      · rw [hj, e4, drop_succ_set _ _ _ _ (by omega), drop_succ_set _ _ _ _ (by omega)]
    · obtain ⟨b1, e1, e2, e3, e4⟩ := ih (b.set j c) (j + 1)
        (by simp only [List.length_set]; omega)
      have w1 : writeAt b j c = some (b.set j c) := by
        unfold writeAt
        rw [if_pos (by omega)]
      have hj : j + (globEscape (c :: rest)).length = j + 1 + (globEscape rest).length := by
        rw [globEscape_cons, if_neg hm, List.length_append]
        simp only [List.length_cons, List.length_nil]
        omega
      refine ⟨b1, ?_, by simpa using e2, ?_, ?_⟩
      · rw [hj, tidyLoop, if_neg hm]
        simp only [Option.some_bind]
        rw [w1, Option.some_bind, e1]
      · rw [hj, e3, take_succ_set _ _ _ (by omega), globEscape_cons, if_neg hm]
        simp
      · rw [hj, e4, drop_succ_set _ _ _ _ (by omega)]

theorem globEscape_length_le (sec : GoString) : (globEscape sec).length ≤ 2 * sec.length := by
  induction sec with
  | nil => simp [globEscape]
  | cons c rest ih =>
    rw [globEscape_cons, List.length_append, List.length_cons]
    split <;> simp <;> omega

/-- What the code does with one section: the escaped section followed by the
rest of the buffer, which is zero bytes. -/
theorem tidySection_eq (sec : GoString) :
    tidySection sec
      = some (globEscape sec ++ List.replicate (2 * sec.length - (globEscape sec).length) 0) := by
  unfold tidySection
  obtain ⟨b1, e1, e2, e3, e4⟩ := tidyLoop_spec sec (List.replicate (2 * sec.length) 0) 0
    (by simp)
  rw [e1]
  simp only [Option.map_some', Option.some.injEq, Nat.zero_add] at e3 e4 ⊢
  rw [← List.take_append_drop (globEscape sec).length b1, e3, e4]
  simp

/-- C16, the code at a failing input: the section `abc` has none of the five
bytes and becomes `abc` followed by three zero bytes, since the whole buffer
of `2*len(section)` bytes is converted to the new section; the section `a[`
becomes `a\[` followed by one zero byte. The translation the claim describes
gives `abc` and `a\[`. -/
theorem tidyPatternSections_pads_with_zero_bytes :
    tidyPatternSections [str "abc", str "a["]
        = some [str "abc" ++ [0, 0, 0], str "a\\[" ++ [0]] ∧
      globEscape (str "abc") = str "abc" ∧ globEscape (str "a[") = str "a\\[" := by
  decide

/-! ## The empty section -/

theorem matchHere_nodes_nil (l : List Nat) (atStart : Bool) :
    regexp.matchHere (l.map nodeOf ++ [.endText]) atStart []
      = l.all fun r => r == 42 || r == 63 := by
  induction l with
  | nil => simp [regexp.matchHere]
  | cons r l ih =>
    rw [List.map_cons, List.cons_append, List.all_cons]
    by_cases h42 : r = 42
    · subst h42
      have hn : nodeOf 42 = .star .anyCharNotNL := rfl
      rw [hn]
      simp only [regexp.matchHere, regexp.starLoop]
      exact ih.trans (by simp)
    · by_cases h63 : r = 63
      · subst h63
        have hn : nodeOf 63 = .quest .anyCharNotNL := rfl
        rw [hn, matchHere_quest_nil]
        exact ih.trans (by simp)
      · have hn : nodeOf r = .one (.literal r) := by simp [nodeOf, h42, h63]
        rw [hn]
        simp [regexp.matchHere, h42, h63]

theorem all_runes_wildcard (q : GoString) :
    ((utf8.runes q).all fun r => r == 42 || r == 63) = q.all isWildcard := by
  refine string_induction
    (P := fun q => ((utf8.runes q).all fun r => r == 42 || r == 63) = q.all isWildcard)
    ?_ ?_ ?_ q
  · rfl
  · intro s0 t h0 he _
    rw [runes_error he, List.all_cons, List.all_cons]
    have h1 : isWildcard s0 = false := by
      cases h : isWildcard s0
      · rfl
      · have := isWildcard_lt h
        omega
    rw [h1]
    rfl
  · intro s0 cont r rest henc ih
    rw [runes_encodes henc, List.all_cons, List.all_cons, List.all_append, ih]
    by_cases h0 : s0.val < 128
    · obtain ⟨rfl, rfl⟩ := encodes_ascii henc h0
      have e : (s0.val == 42 || s0.val == 63) = isWildcard s0 := by
        unfold isWildcard
        by_cases a : s0 = 42
        · subst a
          rfl
        · by_cases b : s0 = 63
          · subst b
            rfl
          · have a' : ¬ s0.val = 42 := fun e => a (Fin.ext e)
            have b' : ¬ s0.val = 63 := fun e => b (Fin.ext e)
            rw [beq_false_of_ne a', beq_false_of_ne b', beq_false_of_ne a, beq_false_of_ne b]
      rw [e]
      simp
    · have hr := encodes_rune_ge henc (by omega)
      have h1 : isWildcard s0 = false := by
        cases h : isWildcard s0
        · rfl
        · have := isWildcard_lt h
          omega
      have h2 : (r == 42 || r == 63) = false := by
        have a : ¬ r = 42 := by omega
        have b : ¬ r = 63 := by omega
        simp [a, b]
      rw [h1, h2]
      rfl

/-- What the code does with an empty value section: it is matched by the
pattern sections made of `*` and `?` only. -/
theorem sectionMatch_empty (q : GoString) : sectionMatch [] q = q.all isWildcard := by
  unfold sectionMatch nodesOf
  have e : utf8.runes [] = [] := rfl
  rw [e, matchHere_nodes_nil, all_runes_wildcard]

/-- C11, the code at the failing input of the claim: the region of the value
is empty, the region of the pattern is a lone `?`, and `ArnLike` returns
`(true, nil)`, because `?` is translated to `.?`, which also matches nothing;
so does a pattern section made of several `?`. -/
theorem ArnLike_quest_matches_empty :
    ArnLike (str "arn:aws:iam::000000000000:role") (str "arn:aws:iam:?:000000000000:role")
        = some (true, none) ∧
      ArnLike (str "arn:aws:iam::000000000000:role") (str "arn:aws:iam:?*?:000000000000:role")
        = some (true, none) := by
  decide

/-! ## Decoding around an ASCII byte -/

/-- Bytes that are not ASCII at the head of `t ++ c :: b`, with `c` ASCII, are
at the head of `t`. -/
theorem high_prefix_of_append (cont : List Byte) (h : ∀ x ∈ cont, 128 ≤ x.val) (c : Byte)
    (hc : c.val < 128) (b : GoString) :
    ∀ (t rest : GoString), t ++ c :: b = cont ++ rest →
      ∃ t', t = cont ++ t' ∧ rest = t' ++ c :: b := by
  induction cont with
  | nil => exact fun t rest e => ⟨t, rfl, by simpa using e.symm⟩
  | cons x cont ih =>
    intro t rest e
    cases t with
    | nil =>
      simp only [List.nil_append, List.cons_append, List.cons.injEq] at e
      have := h x (by simp)
      rw [← e.1] at this
      omega
    | cons y t =>
      simp only [List.cons_append, List.cons.injEq] at e
      obtain ⟨t', h1, h2⟩ := ih (fun z hz => h z (by simp [hz])) t rest e.2
      exact ⟨t', by rw [e.1, h1]; rfl, h2⟩

/-- Decoding does not look past an ASCII byte. -/
theorem decode_append_ascii (c : Byte) (hc : c.val < 128) (b : GoString) (a : GoString) :
    utf8.decode (a ++ c :: b) = utf8.decode a ++ (c.val, 1) :: utf8.decode b := by
  refine string_induction
    (P := fun a => utf8.decode (a ++ c :: b) = utf8.decode a ++ (c.val, 1) :: utf8.decode b)
    ?_ ?_ ?_ a
  · have := decode_encodes (.one c hc) b
    simpa [decode_nil] using this
  · intro s0 t h0 he ih
    have he' : utf8.DecodeRuneInString (s0 :: (t ++ c :: b)) = (utf8.RuneError, 1) := by
      rcases decode_cases s0 (t ++ c :: b) with e | ⟨cont, rest, r, hs, henc, _⟩
      · exact e
      · exfalso
        obtain ⟨t', rfl, -⟩ := high_prefix_of_append cont (encodes_cont_ge henc) c hc b t rest hs
        rw [decode_of_encodes henc t'] at he
        simp only [Prod.mk.injEq] at he
        exact encodes_not_error henc he
    rw [List.cons_append, decode_error he', decode_error he, ih]
    rfl
  · intro s0 cont r rest henc ih
    have e : (s0 :: (cont ++ rest)) ++ c :: b = s0 :: (cont ++ (rest ++ c :: b)) := by simp
    rw [e, decode_encodes henc, decode_encodes henc, ih]
    rfl

theorem runes_append_ascii (c : Byte) (hc : c.val < 128) (a b : GoString) :
    utf8.runes (a ++ c :: b) = utf8.runes a ++ c.val :: utf8.runes b := by
  simp [utf8.runes, decode_append_ascii c hc b a]

theorem validString_append_ascii (c : Byte) (hc : c.val < 128) (a b : GoString) :
    utf8.ValidString (a ++ c :: b) = (utf8.ValidString a && utf8.ValidString b) := by
  have e : (!((c.val == utf8.RuneError) && ((1 : Nat) == 1))) = true := by
    have : ¬ c.val = utf8.RuneError := by simp only [utf8.RuneError]; omega
    simp [this]
  simp only [utf8.ValidString, decode_append_ascii c hc b a, List.all_append, List.all_cons, e,
    Bool.true_and]

/-- The runes of a valid string followed by any string. -/
theorem runes_append_valid (a : GoString) (ha : utf8.ValidString a = true) (b : GoString) :
    utf8.runes (a ++ b) = utf8.runes a ++ utf8.runes b := by
  refine validString_induction
    (P := fun a => utf8.runes (a ++ b) = utf8.runes a ++ utf8.runes b) ?_ ?_ a ha
  · rfl
  · intro s0 cont r rest henc _ ih
    have e : (s0 :: (cont ++ rest)) ++ b = s0 :: (cont ++ (rest ++ b)) := by simp
    rw [e, runes_encodes henc, runes_encodes henc, ih]
    rfl

/-- Between valid strings, a prefix of the runes is a prefix of the bytes. -/
theorem prefix_of_runes_prefix (a : GoString) (ha : utf8.ValidString a = true) :
    ∀ f : GoString, utf8.ValidString f = true → utf8.runes a <+: utf8.runes f → a <+: f := by
  refine validString_induction
    (P := fun a => ∀ f : GoString, utf8.ValidString f = true →
      utf8.runes a <+: utf8.runes f → a <+: f) ?_ ?_ a ha
  · intro f _ _
    exact List.nil_prefix
  · intro s0 cont r rest henc _ ih f hf h
    cases f with
    | nil =>
      rw [runes_encodes henc] at h
      simp [utf8.runes, decode_nil] at h
    | cons t0 t =>
      obtain ⟨cont', rest', r', rfl, henc', hv'⟩ := validString_cons hf
      rw [runes_encodes henc, runes_encodes henc', List.cons_prefix_cons] at h
      obtain ⟨h1, h2⟩ := h
      subst h1
      obtain ⟨rfl, rfl⟩ := encodes_inj henc henc'
      obtain ⟨w, hw⟩ := ih rest' hv' h2
      exact ⟨w, by rw [← hw]; simp⟩

theorem runes_prefix_iff (a f : GoString) (ha : utf8.ValidString a = true)
    (hf : utf8.ValidString f = true) : utf8.runes a <+: utf8.runes f ↔ a <+: f := by
  constructor
  · exact prefix_of_runes_prefix a ha f hf
  · rintro ⟨w, rfl⟩
    rw [runes_append_valid a ha]
    exact List.prefix_append _ _

/-! ## Equations of the matcher -/

theorem matchHere_begin (re : regexp.Regexp) (atStart : Bool) (inp : List Nat) :
    regexp.matchHere (.beginText :: re) atStart inp
      = (atStart && regexp.matchHere re atStart inp) := by
  cases inp <;> simp [regexp.matchHere]

theorem matchHere_end (re : regexp.Regexp) (atStart : Bool) (inp : List Nat) :
    regexp.matchHere (.endText :: re) atStart inp
      = (inp.isEmpty && regexp.matchHere re atStart inp) := by
  cases inp <;> simp [regexp.matchHere]

theorem matchHere_one_nil (a : regexp.Atom) (re : regexp.Regexp) (atStart : Bool) :
    regexp.matchHere (.one a :: re) atStart [] = false := by
  simp [regexp.matchHere]

theorem matchHere_one_cons (a : regexp.Atom) (re : regexp.Regexp) (atStart : Bool) (c : Nat)
    (rest : List Nat) :
    regexp.matchHere (.one a :: re) atStart (c :: rest)
      = (a.accepts c && regexp.matchHere re false rest) := by
  simp [regexp.matchHere]

theorem matchHere_star (a : regexp.Atom) (re : regexp.Regexp) (atStart : Bool)
    (inp : List Nat) :
    regexp.matchHere (.star a :: re) atStart inp
      = regexp.starLoop (regexp.matchHere re) a atStart inp := by
  cases inp <;> simp [regexp.matchHere]

/-- Taking `x*` twice is taking it once. -/
theorem starLoop_starLoop (k : Bool → List Nat → Bool) (a : regexp.Atom) (atStart : Bool)
    (inp : List Nat) :
    regexp.starLoop (regexp.starLoop k a) a atStart inp = regexp.starLoop k a atStart inp := by
  induction inp generalizing atStart with
  | nil => simp [regexp.starLoop]
  | cons c rest ih =>
    rw [regexp.starLoop, ih false]
    conv_rhs => rw [regexp.starLoop]
    conv_lhs => rw [regexp.starLoop]
    cases k atStart (c :: rest) <;> cases a.accepts c <;>
      cases regexp.starLoop k a false rest <;> rfl

/-- A doubled `x*` inside a concatenation can be written once. -/
theorem matchHere_star_star (a : regexp.Atom) (pre post : regexp.Regexp) :
    ∀ (atStart : Bool) (inp : List Nat),
      regexp.matchHere (pre ++ .star a :: .star a :: post) atStart inp
        = regexp.matchHere (pre ++ .star a :: post) atStart inp := by
  induction pre with
  | nil =>
    intro atStart inp
    rw [List.nil_append, List.nil_append, matchHere_star, matchHere_star]
    have e : regexp.matchHere (.star a :: post) = regexp.starLoop (regexp.matchHere post) a := by
      funext s i
      exact matchHere_star a post s i
    rw [e, starLoop_starLoop]
  | cons n pre ih =>
    have e : regexp.matchHere (pre ++ .star a :: .star a :: post)
        = regexp.matchHere (pre ++ .star a :: post) := by
      funext s i
      exact ih s i
    intro atStart inp
    rw [List.cons_append, List.cons_append]
    cases n with
    | beginText => rw [matchHere_begin, matchHere_begin, e]
    | endText => rw [matchHere_end, matchHere_end, e]
    | one x =>
      cases inp with
      | nil => rw [matchHere_one_nil, matchHere_one_nil]
      | cons c rest => rw [matchHere_one_cons, matchHere_one_cons, e]
    | star x => rw [matchHere_star, matchHere_star, e]
    | quest x =>
      cases inp with
      | nil => rw [matchHere_quest_nil, matchHere_quest_nil, e]
      | cons c rest => rw [matchHere_quest_cons, matchHere_quest_cons, e]

/-- Literal nodes followed by `.*` and the end of the text: the text starts
with the literals and has no newline after them. -/
theorem matchHere_literals_star (l inp : List Nat) (atStart : Bool) :
    regexp.matchHere (l.map (fun r => regexp.Node.one (.literal r)) ++
        [.star .anyCharNotNL, .endText]) atStart inp
      = decide (l <+: inp ∧ 10 ∉ inp.drop l.length) := by
  induction l generalizing inp atStart with
  | nil =>
    rw [List.map_nil, List.nil_append, matchHere_star,
      starLoop_any_end _ (fun b => by simp [regexp.matchHere])
        (fun b c rest => by simp [regexp.matchHere])]
    simp
  | cons r l ih =>
    rw [List.map_cons, List.cons_append]
    cases inp with
    | nil =>
      rw [matchHere_one_nil]
      simp
    | cons c rest =>
      rw [matchHere_one_cons, ih]
      simp only [regexp.Atom.accepts, List.length_cons, List.drop_succ_cons,
        List.cons_prefix_cons]
      by_cases h : r = c
      · subst h
        simp
      · simp [h]

/-! ## A doubled `*` in a pattern -/

theorem runes_star_star (a b : GoString) :
    utf8.runes (a ++ 42 :: 42 :: b) = utf8.runes a ++ 42 :: 42 :: utf8.runes b ∧
      utf8.runes (a ++ 42 :: b) = utf8.runes a ++ 42 :: utf8.runes b := by
  have h42 : (42 : Byte).val < 128 := by decide
  have e1 := runes_append_ascii 42 h42 a (42 :: b)
  have e2 := runes_append_ascii 42 h42 [] b
  have e3 := runes_append_ascii 42 h42 a b
  have e0 : utf8.runes [] = [] := rfl
  rw [List.nil_append, e0, List.nil_append] at e2
  rw [e2] at e1
  exact ⟨e1, e3⟩

theorem validString_star_star (a b : GoString) :
    utf8.ValidString (a ++ 42 :: 42 :: b) = utf8.ValidString (a ++ 42 :: b) := by
  have h42 : (42 : Byte).val < 128 := by decide
  have e2 := validString_append_ascii 42 h42 [] b
  have e0 : utf8.ValidString [] = true := rfl
  rw [List.nil_append, e0, Bool.true_and] at e2
  rw [validString_append_ascii 42 h42 a (42 :: b), validString_append_ascii 42 h42 a b, e2]

theorem sectionMatch_star_star (sec a b : GoString) :
    sectionMatch sec (a ++ 42 :: 42 :: b) = sectionMatch sec (a ++ 42 :: b) := by
  unfold sectionMatch nodesOf
  rw [(runes_star_star a b).1, (runes_star_star a b).2]
  have hn : nodeOf 42 = .star .anyCharNotNL := rfl
  simp only [List.map_append, List.map_cons, hn, List.append_assoc, List.cons_append]
  exact matchHere_star_star _ _ _ _ _

/-- Two lists of pattern sections that `ArnLike` cannot tell apart: the
sections are short enough to compile, both valid UTF-8 or both not, and they
match the same value sections. -/
theorem matchAll_outcome_congr (ps ps' : List GoString)
    (h : List.Forall₂ (fun q q' =>
      (2 * q.length + 3 < regexp.maxSize ∧ 2 * q'.length + 3 < regexp.maxSize) ∧
        utf8.ValidString q = utf8.ValidString q' ∧
        ∀ sec, sectionMatch sec q = sectionMatch sec q') ps ps') :
    ∀ vs : List GoString,
      outcome (matchAll vs (ps.map prepared)) = outcome (matchAll vs (ps'.map prepared)) := by
  induction h with
  | nil => exact fun _ => rfl
  | @cons q q' ps ps' hq _ ih =>
    intro vs
    cases vs with
    | nil => rfl
    | cons sec vs =>
      rw [List.map_cons, List.map_cons]
      cases hv : utf8.ValidString q
      · obtain ⟨e1, h1⟩ := matchAll_cons_invalid sec q vs (ps.map prepared) hv
        obtain ⟨e2, h2⟩ := matchAll_cons_invalid sec q' vs (ps'.map prepared)
          (by rw [← hq.2.1, hv])
        rw [h1, h2]
        rfl
      · rw [matchAll_cons_valid _ _ _ _ hv hq.1.1,
          matchAll_cons_valid _ _ _ _ (by rw [← hq.2.1, hv]) hq.1.2, hq.2.2 sec]
        cases sectionMatch sec q'
        · rfl
        · exact ih vs

theorem forall₂_and_mem {α : Type} {R : α → α → Prop} {P : α → Prop} {l l' : List α}
    (h : List.Forall₂ R l l') (hP : ∀ q ∈ l, P q) :
    List.Forall₂ (fun q q' => P q ∧ R q q') l l' := by
  induction h with
  | nil => exact .nil
  | @cons q q' l l' hq _ ih =>
    exact .cons ⟨hP q (by simp), hq⟩ (ih fun x hx => hP x (by simp [hx]))

theorem parse_length_le {s : GoString} {secs : List GoString} (h : parse s = .ok secs) :
    ∀ q ∈ secs, q.length ≤ s.length := by
  obtain ⟨f1, f2, f3, f4, f5, rfl, rfl, -⟩ := parse_ok_shape h
  intro q hq
  rw [arnOf_length]
  simp only [List.mem_cons, List.mem_singleton, List.not_mem_nil, or_false] at hq
  rcases hq with rfl | rfl | rfl | rfl | rfl | rfl
  · simp only [List.length_cons, List.length_nil]
    omega
  all_goals omega

theorem forall₂_oneStarLess_refl (l : List GoString) : List.Forall₂ oneStarLess l l := by
  induction l with
  | nil => exact .nil
  | cons x l ih => exact .cons (Or.inl rfl) ih

theorem genSplit_star_star (k : Nat) (x y : GoString) :
    List.Forall₂ oneStarLess (strings.genSplit k (x ++ 42 :: 42 :: y) arnDelimiter)
      (strings.genSplit k (x ++ 42 :: y) arnDelimiter) := by
  have n42 : ¬ (42 : Byte) = arnDelimiter := by decide
  induction k generalizing x with
  | zero => exact .cons (Or.inr ⟨x, y, rfl, rfl⟩) .nil
  | succ k ih =>
    cases hx : strings.IndexByte x arnDelimiter with
    | some m =>
      obtain ⟨h1, h2⟩ := indexByte_some hx
      have e1 : x ++ 42 :: 42 :: y
          = x.take m ++ arnDelimiter :: (x.drop (m + 1) ++ 42 :: 42 :: y) := by
        conv_lhs => rw [h1]
        simp
      have e2 : x ++ 42 :: y = x.take m ++ arnDelimiter :: (x.drop (m + 1) ++ 42 :: y) := by
        conv_lhs => rw [h1]
        simp
      rw [e1, e2, genSplit_cons _ _ _ _ h2, genSplit_cons _ _ _ _ h2]
      exact .cons (Or.inl rfl) (ih _)
    | none =>
      have hx' := indexByte_none hx
      cases hy : strings.IndexByte y arnDelimiter with
      | some m =>
        obtain ⟨h1, h2⟩ := indexByte_some hy
        have e1 : x ++ 42 :: 42 :: y
            = (x ++ 42 :: 42 :: y.take m) ++ arnDelimiter :: y.drop (m + 1) := by
          conv_lhs => rw [h1]
          simp
        have e2 : x ++ 42 :: y = (x ++ 42 :: y.take m) ++ arnDelimiter :: y.drop (m + 1) := by
          conv_lhs => rw [h1]
          simp
        have c1 : arnDelimiter ∉ x ++ 42 :: 42 :: y.take m := by
          simp only [List.mem_append, List.mem_cons, not_or]
          exact ⟨hx', fun e => n42 e.symm, fun e => n42 e.symm, h2⟩
        have c2 : arnDelimiter ∉ x ++ 42 :: y.take m := by
          simp only [List.mem_append, List.mem_cons, not_or]
          exact ⟨hx', fun e => n42 e.symm, h2⟩
        rw [e1, e2, genSplit_cons _ _ _ _ c1, genSplit_cons _ _ _ _ c2]
        exact .cons (Or.inr ⟨x, y.take m, rfl, rfl⟩) (forall₂_oneStarLess_refl _)
      | none =>
        have hy' := indexByte_none hy
        have c1 : arnDelimiter ∉ x ++ 42 :: 42 :: y := by
          simp only [List.mem_append, List.mem_cons, not_or]
          exact ⟨hx', fun e => n42 e.symm, fun e => n42 e.symm, hy'⟩
        have c2 : arnDelimiter ∉ x ++ 42 :: y := by
          simp only [List.mem_append, List.mem_cons, not_or]
          exact ⟨hx', fun e => n42 e.symm, hy'⟩
        rw [strings.genSplit, strings.genSplit, indexByte_eq_none c1, indexByte_eq_none c2]
        exact .cons (Or.inr ⟨x, y, rfl, rfl⟩) .nil

theorem hasPrefix_star (x y y' : GoString) :
    strings.HasPrefix (x ++ 42 :: y) arnPrefix = strings.HasPrefix (x ++ 42 :: y') arnPrefix := by
  rcases x with _ | ⟨a, _ | ⟨b, _ | ⟨c, _ | ⟨d, x⟩⟩⟩⟩
  · have e : ∀ z : GoString, strings.HasPrefix ([] ++ 42 :: z) arnPrefix = false := by
      intro z
      cases h : strings.HasPrefix ([] ++ 42 :: z) arnPrefix
      · rfl
      · obtain ⟨t, ht⟩ := (hasPrefix_iff _ _).1 h
        simp only [arnPrefix, List.nil_append, List.cons_append, List.cons.injEq] at ht
        exact absurd ht.1 (by decide)
    rw [e, e]
  · have e : ∀ z : GoString, strings.HasPrefix ([a] ++ 42 :: z) arnPrefix = false := by
      intro z
      cases h : strings.HasPrefix ([a] ++ 42 :: z) arnPrefix
      · rfl
      · obtain ⟨t, ht⟩ := (hasPrefix_iff _ _).1 h
        simp only [arnPrefix, List.nil_append, List.cons_append, List.cons.injEq] at ht
        exact absurd ht.2.1 (by decide)
    rw [e, e]
  · have e : ∀ z : GoString, strings.HasPrefix ([a, b] ++ 42 :: z) arnPrefix = false := by
      intro z
      cases h : strings.HasPrefix ([a, b] ++ 42 :: z) arnPrefix
      · rfl
      · obtain ⟨t, ht⟩ := (hasPrefix_iff _ _).1 h
        simp only [arnPrefix, List.nil_append, List.cons_append, List.cons.injEq] at ht
        exact absurd ht.2.2.1 (by decide)
    rw [e, e]
  · have e : ∀ z : GoString, strings.HasPrefix ([a, b, c] ++ 42 :: z) arnPrefix = false := by
      intro z
      cases h : strings.HasPrefix ([a, b, c] ++ 42 :: z) arnPrefix
      · rfl
      · obtain ⟨t, ht⟩ := (hasPrefix_iff _ _).1 h
        simp only [arnPrefix, List.nil_append, List.cons_append, List.cons.injEq] at ht
        exact absurd ht.2.2.2.1 (by decide)
    rw [e, e]
  · simp [strings.HasPrefix, arnPrefix]

/-- The results of `parse` on a pattern and on the pattern with one `**`
written `*`: the same error, or sections related one by one. -/
theorem parse_star_star (x y : GoString) :
    (∃ err, parse (x ++ 42 :: 42 :: y) = .error err ∧ parse (x ++ 42 :: y) = .error err) ∨
      ∃ ps ps', parse (x ++ 42 :: 42 :: y) = .ok ps ∧ parse (x ++ 42 :: y) = .ok ps' ∧
        List.Forall₂ oneStarLess ps ps' := by
  have hp := hasPrefix_star x (42 :: y) y
  have hc : (x ++ 42 :: 42 :: y).count arnDelimiter = (x ++ 42 :: y).count arnDelimiter := by
    have n42 : ((42 : Byte) == arnDelimiter) = false := by decide
    simp [List.count_append, List.count_cons, n42]
  cases h : strings.HasPrefix (x ++ 42 :: y) arnPrefix
  · left
    exact ⟨.invalidPrefix, parse_invalidPrefix (by rw [hp, h]), parse_invalidPrefix h⟩
  · rw [parse_of_hasPrefix (by rw [hp, h]), parse_of_hasPrefix h, hc]
    by_cases hcc : 5 ≤ (x ++ 42 :: y).count arnDelimiter
    · right
      rw [if_pos hcc, if_pos hcc]
      exact ⟨_, _, rfl, rfl, genSplit_star_star 5 x y⟩
    · left
      rw [if_neg hcc, if_neg hcc]
      exact ⟨.invalidSections, rfl, rfl⟩

/-- The sections of a pattern with one `**` written `*` are not longer than
those of the pattern. -/
theorem splitN_star_star_small (x y : GoString)
    (hs : ∀ q ∈ strings.SplitN (x ++ 42 :: 42 :: y) arnDelimiter arnSectionsExpected,
      2 * q.length + 3 < regexp.maxSize) :
    ∀ q ∈ strings.SplitN (x ++ 42 :: y) arnDelimiter arnSectionsExpected,
      2 * q.length + 3 < regexp.maxSize := by
  have e : ∀ s : GoString, strings.SplitN s arnDelimiter arnSectionsExpected
      = strings.genSplit 5 s arnDelimiter := fun _ => rfl
  rw [e] at hs ⊢
  have hr := forall₂_and_mem (genSplit_star_star 5 x y) hs
  generalize strings.genSplit 5 (x ++ 42 :: 42 :: y) arnDelimiter = l at hr
  generalize strings.genSplit 5 (x ++ 42 :: y) arnDelimiter = l' at hr
  induction hr with
  | nil => simp
  | @cons q q' l l' hq _ ih =>
    intro r hr
    rcases List.mem_cons.1 hr with rfl | hr
    · rcases hq with ⟨hq, rfl | ⟨a, b, rfl, rfl⟩⟩
      · exact hq
      · simp only [List.length_append, List.length_cons] at hq ⊢
        omega
    · exact ih r hr

/-- A pattern with one `**` written `*` gives the same boolean and the same
error status, when the sections of the pattern are short enough to compile. -/
theorem outcome_star_star (v x y : GoString)
    (hs : ∀ q ∈ strings.SplitN (x ++ 42 :: 42 :: y) arnDelimiter arnSectionsExpected,
      2 * q.length + 3 < regexp.maxSize) :
    outcome (ArnLike v (x ++ 42 :: 42 :: y)) = outcome (ArnLike v (x ++ 42 :: y)) := by
  cases hv : parse v with
  | error err => simp [ArnLike, hv]
  | ok vs =>
    rcases parse_star_star x y with ⟨err, e1, e2⟩ | ⟨ps, ps', e1, e2, hr⟩
    · simp [ArnLike, hv, e1, e2]
    · rw [arnLike_of_parse hv e1, arnLike_of_parse hv e2]
      apply matchAll_outcome_congr
      rw [splitN_of_parse e1] at hs
      refine List.Forall₂.imp ?_ (forall₂_and_mem hr hs)
      rintro q q' ⟨hq, rfl | ⟨a, b, rfl, rfl⟩⟩
      · exact ⟨⟨hq, hq⟩, rfl, fun _ => rfl⟩
      · refine ⟨⟨hq, ?_⟩, validString_star_star a b, fun sec => sectionMatch_star_star sec a b⟩
        simp only [List.length_append, List.length_cons] at hq ⊢
        omega

/-- C12, amended: for every value and every pattern whose sections are shorter
than 1677720 bytes (`2 * len + 3 < maxSize`, so that the parser of `regexp`
stays below its limits), writing one occurrence of `**` of the pattern as `*`
does not change what `ArnLike` returns: the same boolean and the same error
status (nil or not), also when an input does not parse or a section is not
valid UTF-8. Hence a run of any number of `*` behaves as one. -/
theorem ArnLike_repeated_star (v x y : GoString) :
    ((∀ sec ∈ strings.SplitN (x ++ str "**" ++ y) arnDelimiter arnSectionsExpected,
          2 * sec.length + 3 < regexp.maxSize) →
        outcome (ArnLike v (x ++ str "**" ++ y)) = outcome (ArnLike v (x ++ str "*" ++ y))) ∧
      ∀ n, (∀ sec ∈ strings.SplitN (x ++ List.replicate (n + 1) 42 ++ y) arnDelimiter
          arnSectionsExpected, 2 * sec.length + 3 < regexp.maxSize) →
        outcome (ArnLike v (x ++ List.replicate (n + 1) 42 ++ y))
          = outcome (ArnLike v (x ++ str "*" ++ y)) := by
  have e1 : x ++ str "**" ++ y = x ++ 42 :: 42 :: y := by
    rw [List.append_assoc]
    rfl
  have e2 : x ++ str "*" ++ y = x ++ 42 :: y := by
    rw [List.append_assoc]
    rfl
  refine ⟨fun hs => by rw [e1] at hs ⊢; rw [e2, outcome_star_star _ _ _ hs], ?_⟩
  intro n
  rw [e2]
  induction n with
  | zero =>
    intro _
    have : x ++ List.replicate 1 42 ++ y = x ++ 42 :: y := by
      rw [List.append_assoc]
      rfl
    rw [this]
  | succ n ih =>
    intro hs
    have a1 : x ++ List.replicate (n + 1 + 1) 42 ++ y
        = x ++ 42 :: 42 :: (List.replicate n 42 ++ y) := by
      rw [List.append_assoc]
      rfl
    have a2 : x ++ List.replicate (n + 1) 42 ++ y = x ++ 42 :: (List.replicate n 42 ++ y) := by
      rw [List.append_assoc]
      rfl
    rw [a1] at hs ⊢
    rw [outcome_star_star _ _ _ hs, ← a2]
    refine ih ?_
    rw [a2]
    exact splitN_star_star_small _ _ hs

/-- C12, witness: the pattern of the tests that ends in `**`, and the same
pattern with three `*`. -/
theorem ArnLike_repeated_star_witness :
    ((∀ sec ∈ strings.SplitN (str "arn:aws:iam::000000000000:" ++ str "**" ++ []) arnDelimiter
          arnSectionsExpected, 2 * sec.length + 3 < regexp.maxSize) ∧
      ∀ sec ∈ strings.SplitN (str "arn:aws:iam::000000000000:" ++ List.replicate (2 + 1) 42 ++ [])
          arnDelimiter arnSectionsExpected, 2 * sec.length + 3 < regexp.maxSize) ∧
      outcome (ArnLike (str "arn:aws:iam::000000000000:role/some-role")
        (str "arn:aws:iam::000000000000:" ++ str "**" ++ [])) = some (true, false) ∧
      outcome (ArnLike (str "arn:aws:iam::000000000000:role/some-role")
        (str "arn:aws:iam::000000000000:" ++ str "*" ++ [])) = some (true, false) ∧
      outcome (ArnLike (str "arn:aws:iam::000000000000:role/some-role")
        (str "arn:aws:iam::000000000000:" ++ List.replicate (2 + 1) 42 ++ []))
        = some (true, false) :=
  ⟨⟨by decide, by decide⟩, by decide,
    ((ArnLike_repeated_star (str "arn:aws:iam::000000000000:role/some-role")
      (str "arn:aws:iam::000000000000:") []).1 (by decide)).symm.trans (by decide),
    ((ArnLike_repeated_star (str "arn:aws:iam::000000000000:role/some-role")
      (str "arn:aws:iam::000000000000:") []).2 2 (by decide)).trans (by decide)⟩

/-- C13, amended: when the value starts with `arn:` and contains more than five
colons, and the pattern parses, is valid UTF-8, has each section within the
limits of the parser of `regexp` (shorter than 1677720 bytes, or without
wildcard and of at most 33554432 characters) and has a resource without `*`,
`?` and colon, `ArnLike`
returns `(false, nil)`, whatever wildcards the first five sections of the
pattern hold: the resource of the value keeps its colons and is compared with
the resource of the pattern only. -/
theorem ArnLike_resource_colon (v p : GoString) (ps : List GoString)
    (hv : strings.HasPrefix v arnPrefix = true) (hvc : 5 < v.count arnDelimiter)
    (hp : parse p = .ok ps) (up : utf8.ValidString p = true)
    (lp : ∀ sec ∈ ps, 2 * sec.length + 3 < regexp.maxSize ∨
      ((∀ b ∈ sec, isWildcard b = false) ∧ (utf8.runes sec).length ≤ regexp.maxRunes))
    (hr : ∀ b ∈ ps.getD 5 [], isWildcard b = false ∧ b ≠ arnDelimiter) :
    ArnLike v p = some (false, none) := by
  obtain ⟨f1, f2, f3, f4, f5, -, rfl, c1, c2, c3, c4⟩ :=
    parse_of_prefix_count hv (by omega)
  obtain ⟨g1, g2, g3, g4, g5, rfl, rfl, d1, d2, d3, d4⟩ := parse_ok_shape hp
  obtain ⟨v1, v2, v3, v4, v5⟩ := valid_arnOf up
  simp only [List.getD_cons_succ, List.getD_cons_zero] at hr
  have hf5 : arnDelimiter ∈ f5 := by
    by_contra hn
    have : (arnOf f1 f2 f3 f4 f5).count arnDelimiter = 5 := by
      have n1 : ((97 : Byte) == arnDelimiter) = false := by decide
      have n2 : ((114 : Byte) == arnDelimiter) = false := by decide
      have n3 : ((110 : Byte) == arnDelimiter) = false := by decide
      have n4 : ((58 : Byte) == arnDelimiter) = true := by decide
      simp [arnOf, List.count_append, List.count_cons, List.count_eq_zero_of_not_mem, c1, c2,
        c3, c4, hn, n1, n2, n3, n4]
    omega
  have hg5 : arnDelimiter ∉ g5 := fun h => (hr _ h).2 rfl
  have hs : sectionMatch f5 g5 = false := by
    rw [sectionMatch_literal f5 g5 (fun b hb => (hr b hb).1)]
    simp only [decide_eq_false_iff_not]
    intro e
    have m1 := (mem_runes_ascii arnDelimiter (by decide) f5).2 hf5
    rw [e] at m1
    exact hg5 ((mem_runes_ascii arnDelimiter (by decide) g5).1 m1)
  rw [arnLike_arnOf_limits f1 f2 f3 f4 f5 g1 g2 g3 g4 g5 c1 c2 c3 c4 d1 d2 d3 d4 up lp, hs]
  simp

set_option maxRecDepth 100000 in
/-- C13, witness: the second negative case of the tests. -/
theorem ArnLike_resource_colon_witness :
    (strings.HasPrefix
        (str "arn:aws:testservice::000000000000:some/wacky:resource:with:colon:delims")
        arnPrefix = true ∧
      5 < (str "arn:aws:testservice::000000000000:some/wacky:resource:with:colon:delims").count
        arnDelimiter ∧
      parse (str "arn:aws:testservice::**:delims")
        = .ok [str "arn", str "aws", str "testservice", [], str "**", str "delims"] ∧
      utf8.ValidString (str "arn:aws:testservice::**:delims") = true ∧
      ∀ sec ∈ [str "arn", str "aws", str "testservice", [], str "**", str "delims"],
        2 * sec.length + 3 < regexp.maxSize) ∧
      ArnLike (str "arn:aws:testservice::000000000000:some/wacky:resource:with:colon:delims")
        (str "arn:aws:testservice::**:delims") = some (false, none) :=
  ⟨⟨by decide, by decide, rfl, by decide, by decide⟩,
    ArnLike_resource_colon _ _ _ (by decide) (by decide)
      (rfl : parse (str "arn:aws:testservice::**:delims")
        = .ok [str "arn", str "aws", str "testservice", [], str "**", str "delims"])
      (by decide)
      (fun sec hs => Or.inl ((by decide :
        ∀ sec ∈ [str "arn", str "aws", str "testservice", [], str "**", str "delims"],
          2 * sec.length + 3 < regexp.maxSize) sec hs))
      (by decide)⟩

/-! ## A literal followed by `*` -/

/-- The pattern section `L*`, with `L` free of wildcards: the runes of the
value section start with the runes of `L` and no newline follows them. -/
theorem sectionMatch_literal_star (sec L : GoString) (h : ∀ b ∈ L, isWildcard b = false) :
    sectionMatch sec (L ++ [42])
      = decide (utf8.runes L <+: utf8.runes sec ∧
          10 ∉ (utf8.runes sec).drop (utf8.runes L).length) := by
  unfold sectionMatch
  have e : nodesOf (L ++ [42])
      = (utf8.runes L).map (fun r => regexp.Node.one (.literal r)) ++ [.star .anyCharNotNL] := by
    have hr := runes_append_ascii 42 (by decide) L []
    have e0 : utf8.runes [] = [] := rfl
    have hn : nodeOf (42 : Byte).val = .star .anyCharNotNL := rfl
    rw [e0] at hr
    unfold nodesOf
    rw [hr, List.map_append, List.map_cons, List.map_nil, hn]
    congr 1
    exact nodesOf_literal L h
  rw [e, List.append_assoc]
  exact matchHere_literals_star _ _ _

/-- Between valid UTF-8 sections, and for a value section without newline, the
pattern section `L*` matches the value sections that start with `L`. -/
theorem sectionMatch_literal_star_valid (sec L : GoString)
    (h : ∀ b ∈ L, isWildcard b = false) (uL : utf8.ValidString L = true)
    (us : utf8.ValidString sec = true) (hn : (10 : Byte) ∉ sec) :
    sectionMatch sec (L ++ [42]) = decide (L <+: sec) := by
  rw [sectionMatch_literal_star sec L h]
  have h10 : (10 : Nat) ∉ (utf8.runes sec).drop (utf8.runes L).length := by
    intro hm
    have := List.mem_of_mem_drop hm
    have e10 : (10 : Byte).val = 10 := rfl
    rw [← e10] at this
    exact hn ((mem_runes_ascii 10 (by decide) sec).1 this)
  by_cases hp : L <+: sec
  · have := (runes_prefix_iff L sec uL us).2 hp
    simp [hp, this, h10]
  · have : ¬ utf8.runes L <+: utf8.runes sec := fun e => hp ((runes_prefix_iff L sec uL us).1 e)
    simp [hp, this]

theorem validString_literal_star (L : GoString) (uL : utf8.ValidString L = true) :
    utf8.ValidString (L ++ [42]) = true := by
  rw [validString_append_ascii 42 (by decide) L [], uL]
  rfl

/-- The pattern section `L*` compiles when `L` is valid UTF-8, free of
wildcards and of at most `maxRunes` runes. -/
theorem compiles_literal_star {L : GoString} (uL : utf8.ValidString L = true)
    (wL : ∀ b ∈ L, isWildcard b = false) (mL : (utf8.runes L).length ≤ regexp.maxRunes) :
    Compiles (L ++ [42]) := by
  have hr : utf8.runes (L ++ [42]) = utf8.runes L ++ [42] := by
    have := runes_append_ascii 42 (by decide) L []
    have e0 : utf8.runes [] = [] := rfl
    rw [e0] at this
    exact this
  unfold Compiles
  rw [compile_prepared_eq _ (validString_literal_star L uL), hr,
    compileRunes_literals_wildcard _ 42 (runes_not_wildcard wL) (Or.inl rfl)
      mL]
  simp only [regexp.orLarge, nodesOf, hr]

/-- The pattern section `L*` against a value section whose part after `L`, if
it starts with `L`, holds no newline. -/
theorem sectionMatch_literal_star_prefix (sec L : GoString)
    (h : ∀ b ∈ L, isWildcard b = false) (uL : utf8.ValidString L = true)
    (us : utf8.ValidString sec = true) (hn : ∀ t, sec = L ++ t → (10 : Byte) ∉ t) :
    sectionMatch sec (L ++ [42]) = decide (L <+: sec) := by
  rw [sectionMatch_literal_star sec L h]
  by_cases hp : L <+: sec
  · have hp' := (runes_prefix_iff L sec uL us).2 hp
    obtain ⟨t, rfl⟩ := hp
    have h10 : (10 : Nat) ∉ (utf8.runes (L ++ t)).drop (utf8.runes L).length := by
      rw [runes_append_valid L uL t, List.drop_left]
      intro hm
      have e10 : (10 : Byte).val = 10 := rfl
      rw [← e10] at hm
      exact hn t rfl ((mem_runes_ascii 10 (by decide) t).1 hm)
    simp [hp', h10]
  · have : ¬ utf8.runes L <+: utf8.runes sec := fun e => hp ((runes_prefix_iff L sec uL us).1 e)
    simp [hp, this]

/-- C15, amended: for a literal `L` that is valid UTF-8, free of wildcards
(metacharacters allowed) and of at most 33554432 characters (`maxRunes`, the
number of runes the parser of `regexp` accepts), and a value section `f` that is
valid UTF-8 and, when it starts with `L`, holds no newline after `L`, the
sanitized pattern section `L*` compiles and matches `f` exactly when `f`
starts with `L`; and `ArnLike` of the resource `f` against the resource `L*`,
the other sections being equal, returns exactly that, with no error. -/
theorem ArnLike_trailing_star (L f : GoString)
    (uL : utf8.ValidString L = true) (wL : ∀ b ∈ L, isWildcard b = false)
    (mL : (utf8.runes L).length ≤ regexp.maxRunes)
    (uf : utf8.ValidString f = true) (nf : ∀ t, f = L ++ t → (10 : Byte) ∉ t) :
    fieldMatches f (L ++ str "*") = decide (L <+: f) ∧
      ArnLike (str "arn:aws:iam::000000000000:" ++ f)
          (str "arn:aws:iam::000000000000:" ++ L ++ str "*")
        = some (decide (L <+: f), none) := by
  have es : str "*" = [42] := by decide
  have kq := compiles_literal_star uL wL mL
  have hm := sectionMatch_literal_star_prefix f L wL uL uf nf
  refine ⟨?_, ?_⟩
  · rw [es, fieldMatches_compiles _ _ kq, hm]
  · have e1 : str "arn:aws:iam::000000000000:" ++ f
        = arnOf (str "aws") (str "iam") [] (str "000000000000") f := rfl
    have e2 : str "arn:aws:iam::000000000000:" ++ L ++ str "*"
        = arnOf (str "aws") (str "iam") [] (str "000000000000") (L ++ [42]) := by
      rw [es, List.append_assoc]
      rfl
    rw [e1, e2, arnLike_arnOf_compiles _ _ _ _ _ _ _ _ _ _ (by decide) (by decide) (by decide)
      (by decide) (by decide) (by decide) (by decide) (by decide)
      (compiles_of_small (by decide) (by decide)) (compiles_of_small (by decide) (by decide))
      (compiles_of_small (by decide) (by decide)) (compiles_of_small (by decide) (by decide))
      kq, hm]
    simp [sectionMatch_self]

set_option maxRecDepth 100000 in
/-- C15, witness: the two patterns of the tests that end in `*`, one with a
bracket in the literal; a literal that is not at the start of the value; and a
value with a newline inside the literal. -/
theorem ArnLike_trailing_star_witness :
    (utf8.ValidString (str "some/wacky-new-[reso") = true ∧
      (∀ b ∈ str "some/wacky-new-[reso", isWildcard b = false) ∧
      (utf8.runes (str "some/wacky-new-[reso")).length ≤ regexp.maxRunes ∧
      utf8.ValidString (str "some/wacky-new-[resource]\x7bwith\x7d\\meta") = true ∧
      (10 : Byte) ∉ str "some/wacky-new-[resource]\x7bwith\x7d\\meta") ∧
      ArnLike (str "arn:aws:iam::000000000000:" ++ str "some/wacky-new-[resource]\x7bwith\x7d\\meta")
          (str "arn:aws:iam::000000000000:" ++ str "some/wacky-new-[reso" ++ str "*")
        = some (true, none) ∧
      ArnLike (str "arn:aws:iam::000000000000:" ++ str "role/some-role")
          (str "arn:aws:iam::000000000000:" ++ str "ole" ++ str "*")
        = some (false, none) ∧
      ArnLike (str "arn:aws:iam::000000000000:" ++ str "a\nb")
          (str "arn:aws:iam::000000000000:" ++ str "a\n" ++ str "*")
        = some (true, none) :=
  ⟨⟨by decide, by decide, by decide, by decide, by decide⟩,
    (ArnLike_trailing_star (str "some/wacky-new-[reso")
      (str "some/wacky-new-[resource]\x7bwith\x7d\\meta") (by decide) (by decide) (by decide)
      (by decide) (fun t ht hm => absurd (ht ▸ List.mem_append_right _ hm) (by decide))
      ).2.trans (by decide),
    (ArnLike_trailing_star (str "ole") (str "role/some-role") (by decide) (by decide)
      (by decide) (by decide)
      (fun t ht hm => absurd (ht ▸ List.mem_append_right _ hm) (by decide))).2.trans (by decide),
    (ArnLike_trailing_star (str "a\n") (str "a\nb") (by decide) (by decide)
      (by decide) (by decide)
      (fun t ht hm => by
        have e : str "a\nb" = str "a\n" ++ [98] := by decide
        rw [e] at ht
        rw [← List.append_cancel_left ht] at hm
        exact absurd hm (by decide))).2.trans (by decide)⟩

/-! ## Patterns beyond the limits of the parser -/

theorem validString_arnOf {f1 f2 f3 f4 f5 : GoString}
    (v1 : utf8.ValidString f1 = true) (v2 : utf8.ValidString f2 = true)
    (v3 : utf8.ValidString f3 = true) (v4 : utf8.ValidString f4 = true)
    (v5 : utf8.ValidString f5 = true) :
    utf8.ValidString (arnOf f1 f2 f3 f4 f5) = true := by
  have h : (58 : Byte).val < 128 := by decide
  have v0 : utf8.ValidString [97, 114, 110] = true := by decide
  unfold arnOf
  rw [validString_append_ascii 58 h, validString_append_ascii 58 h,
    validString_append_ascii 58 h, validString_append_ascii 58 h,
    validString_append_ascii 58 h, v0, v1, v2, v3, v4, v5]
  rfl

/-- The error of `ArnLike` when the partition of the pattern does not compile. -/
theorem arnLike_arnOf_error1 (f1 f2 f3 f4 f5 g1 g2 g3 g4 g5 : GoString)
    (hf1 : arnDelimiter ∉ f1) (hf2 : arnDelimiter ∉ f2) (hf3 : arnDelimiter ∉ f3)
    (hf4 : arnDelimiter ∉ f4) (hg1 : arnDelimiter ∉ g1) (hg2 : arnDelimiter ∉ g2)
    (hg3 : arnDelimiter ∉ g3) (hg4 : arnDelimiter ∉ g4)
    {e : regexp.SyntaxError} (h : regexp.Compile (prepared g1) = .error e) :
    ArnLike (arnOf f1 f2 f3 f4 f5) (arnOf g1 g2 g3 g4 g5)
      = some (false, some (.compile (prepared g1) e)) := by
  rw [arnLike_of_parse (parse_arnOf f1 f2 f3 f4 f5 hf1 hf2 hf3 hf4)
    (parse_arnOf g1 g2 g3 g4 g5 hg1 hg2 hg3 hg4)]
  simp only [List.map_cons, List.map_nil]
  rw [matchAll_cons_compiles _ _ _ _ compiles_arn, sectionMatch_self, if_pos rfl,
    matchAll_cons_error _ _ _ _ h]

/-- The error of `ArnLike` when the resource of the pattern does not compile
and the other sections are those of the tests. -/
theorem arnLike_resource_error (f g : GoString) {e : regexp.SyntaxError}
    (h : regexp.Compile (prepared g) = .error e) :
    ArnLike (str "arn:aws:iam::000000000000:" ++ f) (str "arn:aws:iam::000000000000:" ++ g)
      = some (false, some (.compile (prepared g) e)) := by
  have e1 : str "arn:aws:iam::000000000000:" ++ f
      = arnOf (str "aws") (str "iam") [] (str "000000000000") f := rfl
  have e2 : str "arn:aws:iam::000000000000:" ++ g
      = arnOf (str "aws") (str "iam") [] (str "000000000000") g := rfl
  rw [e1, e2, arnLike_of_parse
    (parse_arnOf _ _ _ _ f (by decide) (by decide) (by decide) (by decide))
    (parse_arnOf _ _ _ _ g (by decide) (by decide) (by decide) (by decide))]
  simp only [List.map_cons, List.map_nil]
  rw [matchAll_cons_compiles _ _ _ _ compiles_arn, sectionMatch_self, if_pos rfl,
    matchAll_cons_compiles _ _ _ _ (compiles_of_small (by decide) (by decide)),
    sectionMatch_self, if_pos rfl,
    matchAll_cons_compiles _ _ _ _ (compiles_of_small (by decide) (by decide)),
    sectionMatch_self, if_pos rfl,
    matchAll_cons_compiles _ _ _ _ (compiles_of_small (by decide) (by decide)),
    sectionMatch_self, if_pos rfl,
    matchAll_cons_compiles _ _ _ _ (compiles_of_small (by decide) (by decide)),
    sectionMatch_self, if_pos rfl,
    matchAll_cons_error _ _ _ _ h]

/-- The result of `ArnLike` when the resource of the pattern compiles and the
other sections are those of the tests. -/
theorem arnLike_resource_compiles (f g : GoString) (h : Compiles g) :
    ArnLike (str "arn:aws:iam::000000000000:" ++ f) (str "arn:aws:iam::000000000000:" ++ g)
      = some (sectionMatch f g, none) := by
  have e1 : str "arn:aws:iam::000000000000:" ++ f
      = arnOf (str "aws") (str "iam") [] (str "000000000000") f := rfl
  have e2 : str "arn:aws:iam::000000000000:" ++ g
      = arnOf (str "aws") (str "iam") [] (str "000000000000") g := rfl
  rw [e1, e2, arnLike_arnOf_compiles _ _ _ _ _ _ _ _ _ _ (by decide) (by decide) (by decide)
    (by decide) (by decide) (by decide) (by decide) (by decide)
    (compiles_of_small (by decide) (by decide)) (compiles_of_small (by decide) (by decide))
    (compiles_of_small (by decide) (by decide)) (compiles_of_small (by decide) (by decide)) h]
  simp [sectionMatch_self]

theorem not_mem_replicate {c d : Byte} (h : d ≠ c) (n : Nat) : d ∉ List.replicate n c :=
  fun hm => h (List.eq_of_mem_replicate hm)

theorem parse_resource (g : GoString) :
    parse (str "arn:aws:iam::000000000000:" ++ g)
      = .ok [str "arn", str "aws", str "iam", [], str "000000000000", g] :=
  parse_arnOf (str "aws") (str "iam") [] (str "000000000000") g (by decide) (by decide)
    (by decide) (by decide)

theorem validString_resource (g : GoString) (hg : utf8.ValidString g = true) :
    utf8.ValidString (str "arn:aws:iam::000000000000:" ++ g) = true :=
  @validString_arnOf (str "aws") (str "iam") [] (str "000000000000") g
    (by decide) (by decide) (by decide) (by decide) hg

/-- A section of 33554433 characters `a` does not compile: it has one rune
more than `maxRunes`. -/
theorem compile_literal_large :
    regexp.Compile (prepared (List.replicate 33554433 97))
      = .error ⟨.large, prepared (List.replicate 33554433 97)⟩ := by
  rw [compile_literal _ (validString_replicate_ascii 97 (by decide) _)
    (fun b hb => by rw [List.eq_of_mem_replicate hb]; rfl), if_neg]
  rw [runes_replicate_ascii 97 (by decide), List.length_replicate, maxRunes_eq]
  omega

/-- A section of 33554432 characters `a` compiles. -/
theorem compiles_literal_max : Compiles (List.replicate 33554432 97) :=
  compiles_of_literal (validString_replicate_ascii 97 (by decide) _)
    (fun b hb => by rw [List.eq_of_mem_replicate hb]; rfl)
    (by rw [runes_replicate_ascii 97 (by decide), List.length_replicate, maxRunes_eq])

/-- A section of 33554433 characters `a` followed by `*` does not compile. -/
theorem compile_literal_star_large :
    regexp.Compile (prepared (List.replicate 33554433 97 ++ [42]))
      = .error ⟨.large, prepared (List.replicate 33554433 97 ++ [42])⟩ := by
  have hv : utf8.ValidString (List.replicate 33554433 97 ++ [42]) = true := by
    rw [validString_append_ascii 42 (by decide), validString_replicate_ascii 97 (by decide)]
    rfl
  have hr : utf8.runes (List.replicate 33554433 97 ++ [42])
      = List.replicate 33554433 (97 : Byte).val ++ [42] := by
    rw [runes_append_ascii 42 (by decide), runes_replicate_ascii 97 (by decide)]
    rfl
  rw [compile_prepared_eq _ hv, hr, compileRunes_literals_large_append _ _
    (fun r hr => by rw [List.eq_of_mem_replicate hr]; decide)
    (by rw [List.length_replicate, maxRunes_eq]; omega)]
  rfl

theorem hasPrefix_resource (g : GoString) :
    strings.HasPrefix (str "arn:aws:iam::000000000000:" ++ g) arnPrefix = true :=
  (hasPrefix_iff _ _).2 ⟨str "aws:iam::000000000000:" ++ g, rfl⟩

theorem count_resource (g : GoString) :
    5 ≤ (str "arn:aws:iam::000000000000:" ++ g).count arnDelimiter := by
  rw [List.count_append]
  exact le_trans (by decide : 5 ≤ (str "arn:aws:iam::000000000000:").count arnDelimiter)
    (Nat.le_add_right _ _)

set_option maxRecDepth 100000 in
theorem not_wildcard_resource (g : GoString) (h : ∀ b ∈ g, isWildcard b = false) :
    ∀ b ∈ str "arn:aws:iam::000000000000:" ++ g, isWildcard b = false := by
  intro b hb
  rcases List.mem_append.1 hb with h1 | h1
  · exact (by decide : ∀ b ∈ str "arn:aws:iam::000000000000:", isWildcard b = false) b h1
  · exact h b h1

theorem not_wildcard_replicate (n : Nat) : ∀ b ∈ List.replicate n (97 : Byte),
    isWildcard b = false :=
  fun b hb => by rw [List.eq_of_mem_replicate hb]; rfl

/-- A section made of `*` only matches the value sections without a newline. -/
theorem sectionMatch_stars (sec : GoString) (n : Nat) :
    sectionMatch sec (List.replicate (n + 1) 42) = decide ((10 : Byte) ∉ sec) := by
  induction n with
  | zero => exact sectionMatch_star sec
  | succ n ih =>
    have e : List.replicate (n + 1 + 1) (42 : Byte) = [] ++ 42 :: 42 :: List.replicate n 42 := rfl
    rw [e, sectionMatch_star_star]
    exact ih

/-- The pattern whose partition is `g1`, with the other sections of the tests. -/
theorem arnOf_partition (g1 rest : GoString) (g2 g3 g4 g5 : GoString)
    (h : rest = 58 :: (g2 ++ 58 :: (g3 ++ 58 :: (g4 ++ 58 :: g5)))) :
    str "arn:" ++ g1 ++ rest = arnOf g1 g2 g3 g4 g5 := by
  rw [h, List.append_assoc]
  rfl

/-- The loop of `.*` followed by a continuation that accepts the empty text
and no text with a newline: it accepts the texts without a newline. -/
theorem starLoop_any (k : Bool → List Nat → Bool) (hk1 : ∀ b, k b [] = true)
    (hk2 : ∀ b inp, k b inp = true → 10 ∉ inp) (inp : List Nat) (atStart : Bool) :
    regexp.starLoop k .anyCharNotNL atStart inp = decide (10 ∉ inp) := by
  induction inp generalizing atStart with
  | nil => simp [regexp.starLoop, hk1]
  | cons c rest ih =>
    simp only [regexp.starLoop, regexp.Atom.accepts]
    rw [ih]
    by_cases h : 10 ∈ c :: rest
    · have hk : k atStart (c :: rest) = false := by
        cases e : k atStart (c :: rest)
        · rfl
        · exact absurd h (hk2 _ _ e)
      rw [hk, decide_eq_false (not_not.2 h)]
      rcases List.mem_cons.1 h with rfl | h'
      · simp
      · simp [h']
    · rw [decide_eq_true h]
      have h1 : ¬ c = 10 := fun e => h (by simp [e])
      have h2 : 10 ∉ rest := fun e => h (List.mem_cons_of_mem _ e)
      simp [h1, h2]

/-- A pattern section made of `*` followed by `n` characters `?` matches the
value sections without a newline. -/
theorem sectionMatch_star_quests (sec : GoString) (n : Nat) :
    sectionMatch sec (42 :: List.replicate n 63) = decide ((10 : Byte) ∉ sec) := by
  unfold sectionMatch nodesOf
  have hr : utf8.runes (42 :: List.replicate n 63)
      = (42 : Byte).val :: List.replicate n (63 : Byte).val := by
    have := runes_append_ascii 42 (by decide) [] (List.replicate n 63)
    rw [runes_replicate_ascii 63 (by decide)] at this
    exact this
  have e : List.map nodeOf ((42 : Byte).val :: List.replicate n (63 : Byte).val)
      = .star .anyCharNotNL :: List.replicate n (.quest .anyCharNotNL) := by
    rw [List.map_cons, List.map_replicate]
    rfl
  rw [hr, e, List.cons_append, matchHere_star,
    starLoop_any _ (fun b => by rw [matchHere_quests]; simp)
      (fun b inp h => by
        rw [matchHere_quests] at h
        exact (of_decide_eq_true h).2)]
  have := mem_runes_ascii 10 (by decide) sec
  have e10 : (10 : Byte).val = 10 := rfl
  rw [e10] at this
  simp [this]

theorem validString_star_quests (n : Nat) :
    utf8.ValidString (42 :: List.replicate n 63) = true := by
  have := validString_append_ascii 42 (by decide) [] (List.replicate n 63)
  rw [validString_replicate_ascii 63 (by decide)] at this
  exact this

theorem runes_star_quests (n : Nat) :
    utf8.runes (42 :: List.replicate n 63)
      = (42 : Byte).val :: List.replicate n (63 : Byte).val := by
  have := runes_append_ascii 42 (by decide) [] (List.replicate n 63)
  rw [runes_replicate_ascii 63 (by decide)] at this
  exact this

/-- The section `*` followed by 1677719 characters `?` compiles: the `OpConcat`
is the `Regexp` number `maxSize`, so the sizes are computed, and they add up to
`3 + 2 * 1677719 + 2`, which is `maxSize` and not more. -/
theorem compiles_star_quests : Compiles (42 :: List.replicate 1677719 63) := by
  unfold Compiles
  rw [compile_prepared_eq _ (validString_star_quests _), runes_star_quests]
  have hw : ∀ r ∈ (42 : Byte).val :: List.replicate 1677719 (63 : Byte).val, r = 42 ∨ r = 63 := by
    intro r hr
    rcases List.mem_cons.1 hr with rfl | hr
    · exact Or.inl rfl
    · rw [List.eq_of_mem_replicate hr]
      exact Or.inr rfl
  have c42 : (nodeOf (42 : Byte).val).calcSize = 3 := by decide
  have c63 : (nodeOf (63 : Byte).val).calcSize = 2 := by decide
  cases h : regexp.compileRunes ((42 : Byte).val :: List.replicate 1677719 (63 : Byte).val) with
  | none =>
    exfalso
    have := ((compileRunes_wildcards _ hw (by
      rw [List.length_cons, List.length_replicate, maxSize_eq]
      omega)).1 h).2
    rw [List.map_cons, List.sum_cons, sum_calcSize_replicate, c42, c63, maxSize_eq] at this
    omega
  | some re =>
    rw [compileRunes_some h]
    simp only [regexp.orLarge, nodesOf, runes_star_quests]

/-- The section `**` followed by 1677719 characters `?` does not compile: the
operator of the last `?` is the `Regexp` number `maxSize`, so the sizes are
computed, and at the end they add up to `6 + 2 * 1677719 + 2`, more than
`maxSize`. -/
theorem compile_star_star_quests_large :
    regexp.Compile (prepared (42 :: 42 :: List.replicate 1677719 63))
      = .error ⟨.large, prepared (42 :: 42 :: List.replicate 1677719 63)⟩ := by
  have hv : utf8.ValidString (42 :: 42 :: List.replicate 1677719 63) = true := by
    have := validString_append_ascii 42 (by decide) [] (42 :: List.replicate 1677719 63)
    rw [validString_star_quests] at this
    exact this
  have hr : utf8.runes (42 :: 42 :: List.replicate 1677719 63)
      = ((42 : Byte).val :: (42 : Byte).val :: List.replicate 1677718 (63 : Byte).val)
        ++ [(63 : Byte).val] := by
    have := runes_append_ascii 42 (by decide) [] (42 :: List.replicate 1677719 63)
    rw [runes_star_quests] at this
    rw [List.cons_append, List.cons_append, ← List.replicate_succ' 1677718 (63 : Byte).val]
    exact this
  have hw : ∀ r ∈ (42 : Byte).val :: (42 : Byte).val :: List.replicate 1677718 (63 : Byte).val,
      r = 42 ∨ r = 63 := by
    intro r hr
    rcases List.mem_cons.1 hr with rfl | hr
    · exact Or.inl rfl
    · rcases List.mem_cons.1 hr with rfl | hr
      · exact Or.inl rfl
      · rw [List.eq_of_mem_replicate hr]
        exact Or.inr rfl
  have c42 : (nodeOf (42 : Byte).val).calcSize = 3 := by decide
  have c63 : (nodeOf (63 : Byte).val).calcSize = 2 := by decide
  rw [compile_prepared_eq _ hv, hr, compileRunes_wildcards_sizing _ (63 : Byte).val hw
    (Or.inr rfl)
    (by rw [List.length_cons, List.length_cons, List.length_replicate, maxSize_eq])
    (by
      rw [List.map_cons, List.sum_cons, List.map_cons, List.sum_cons, sum_calcSize_replicate,
        c42, c63, maxSize_eq]
      omega)]
  rfl

/-! ## Counterexamples to the claims as stated -/

/-- C1, counterexample: three identifiers with the prefix and five colons that
are not matched by themselves; `ArnLike` returns false with the compilation
error of the resource. The resource of the first is the single byte 0xFF,
which is not valid UTF-8. The two others are ASCII: the resource of the second
is 1677721 characters `?`, that of the third 33554433 characters `a`, and the
parser of `regexp` answers `expression too large`. -/
theorem ArnLike_self_fails :
    (strings.HasPrefix (str "arn:aws:iam::000000000000:" ++ [255]) arnPrefix = true ∧
      5 ≤ (str "arn:aws:iam::000000000000:" ++ [255]).count arnDelimiter ∧
      ArnLike (str "arn:aws:iam::000000000000:" ++ [255])
          (str "arn:aws:iam::000000000000:" ++ [255])
        = some (false, some (.compile [94, 255, 36] ⟨.invalidUTF8, [255, 36]⟩))) ∧
    (strings.HasPrefix (str "arn:aws:iam::000000000000:" ++ List.replicate 1677721 63)
          arnPrefix = true ∧
      5 ≤ (str "arn:aws:iam::000000000000:" ++ List.replicate 1677721 63).count arnDelimiter ∧
      utf8.ValidString (str "arn:aws:iam::000000000000:" ++ List.replicate 1677721 63) = true ∧
      ArnLike (str "arn:aws:iam::000000000000:" ++ List.replicate 1677721 63)
          (str "arn:aws:iam::000000000000:" ++ List.replicate 1677721 63)
        = some (false, some (.compile (prepared (List.replicate 1677721 63))
            ⟨.large, prepared (List.replicate 1677721 63)⟩))) ∧
    (strings.HasPrefix (str "arn:aws:iam::000000000000:" ++ List.replicate 33554433 97)
          arnPrefix = true ∧
      5 ≤ (str "arn:aws:iam::000000000000:" ++ List.replicate 33554433 97).count arnDelimiter ∧
      utf8.ValidString (str "arn:aws:iam::000000000000:" ++ List.replicate 33554433 97) = true ∧
      ArnLike (str "arn:aws:iam::000000000000:" ++ List.replicate 33554433 97)
          (str "arn:aws:iam::000000000000:" ++ List.replicate 33554433 97)
        = some (false, some (.compile (prepared (List.replicate 33554433 97))
            ⟨.large, prepared (List.replicate 33554433 97)⟩))) :=
  ⟨by decide,
    ⟨hasPrefix_resource _, count_resource _,
      validString_resource _ (validString_replicate_ascii 63 (by decide) _),
      arnLike_resource_error _ _ compile_quests_large⟩,
    ⟨hasPrefix_resource _, count_resource _,
      validString_resource _ (validString_replicate_ascii 97 (by decide) _),
      arnLike_resource_error _ _ compile_literal_large⟩⟩

/-- C6, counterexample: two pairs of a value and a pattern that both parse for
which `ArnLike` returns an error. In the first the value and the pattern are
the same string, with the resource `rôle` in Latin-1, where `ô` is the single
byte 0xF4: the sanitized resource is not valid UTF-8 and does not compile. In
the second the pattern is ASCII and its resource is 1677721 characters `?`:
the sanitized resource is too large for the parser of `regexp`. -/
theorem ArnLike_compile_error_on_parsed_inputs :
    ((strings.HasPrefix (str "arn:aws:iam::000000000000:r" ++ [244] ++ str "le") arnPrefix = true ∧
        5 ≤ (str "arn:aws:iam::000000000000:r" ++ [244] ++ str "le").count arnDelimiter) ∧
      ArnLike (str "arn:aws:iam::000000000000:r" ++ [244] ++ str "le")
          (str "arn:aws:iam::000000000000:r" ++ [244] ++ str "le")
        = some (false, some (.compile [94, 114, 244, 108, 101, 36]
            ⟨.invalidUTF8, [244, 108, 101, 36]⟩))) ∧
    (parse (str "arn:aws:iam::000000000000:" ++ str "role/some-role")
        = .ok [str "arn", str "aws", str "iam", [], str "000000000000", str "role/some-role"] ∧
      parse (str "arn:aws:iam::000000000000:" ++ List.replicate 1677721 63)
        = .ok [str "arn", str "aws", str "iam", [], str "000000000000",
            List.replicate 1677721 63] ∧
      utf8.ValidString (str "arn:aws:iam::000000000000:" ++ List.replicate 1677721 63) = true ∧
      ArnLike (str "arn:aws:iam::000000000000:" ++ str "role/some-role")
          (str "arn:aws:iam::000000000000:" ++ List.replicate 1677721 63)
        = some (false, some (.compile (prepared (List.replicate 1677721 63))
            ⟨.large, prepared (List.replicate 1677721 63)⟩))) :=
  ⟨by decide,
    ⟨parse_resource _, parse_resource _,
      validString_resource _ (validString_replicate_ascii 63 (by decide) _),
      arnLike_resource_error _ _ compile_quests_large⟩⟩

/-- C7, counterexample: the account sections differ, so one section does not
match, yet the result is not `(false, nil)`: the partition of the pattern does
not compile, and `ArnLike` returns the compilation error before it reaches the
account section. In the first pair the partition is the byte 0xFF, which is
not valid UTF-8; in the second the pattern is ASCII and its partition is
1677721 characters `?`, too large for the parser of `regexp`. -/
theorem ArnLike_nonmatch_reported_as_error :
    (parse (str "arn:" ++ [255] ++ str ":iam::111111111111:role")
        = .ok [str "arn", [255], str "iam", [], str "111111111111", str "role"] ∧
      parse (str "arn:" ++ [255] ++ str ":iam::000000000000:role")
        = .ok [str "arn", [255], str "iam", [], str "000000000000", str "role"] ∧
      fieldMatches (str "111111111111") (str "000000000000") = false ∧
      ArnLike (str "arn:" ++ [255] ++ str ":iam::111111111111:role")
          (str "arn:" ++ [255] ++ str ":iam::000000000000:role")
        = some (false, some (.compile [94, 255, 36] ⟨.invalidUTF8, [255, 36]⟩))) ∧
    (parse (str "arn:aws:iam::111111111111:role")
        = .ok [str "arn", str "aws", str "iam", [], str "111111111111", str "role"] ∧
      parse (str "arn:" ++ List.replicate 1677721 63 ++ str ":iam::000000000000:role")
        = .ok [str "arn", List.replicate 1677721 63, str "iam", [], str "000000000000",
            str "role"] ∧
      utf8.ValidString (str "arn:" ++ List.replicate 1677721 63 ++ str ":iam::000000000000:role")
        = true ∧
      fieldMatches (str "111111111111") (str "000000000000") = false ∧
      ArnLike (str "arn:aws:iam::111111111111:role")
          (str "arn:" ++ List.replicate 1677721 63 ++ str ":iam::000000000000:role")
        = some (false, some (.compile (prepared (List.replicate 1677721 63))
            ⟨.large, prepared (List.replicate 1677721 63)⟩))) := by
  have e : str "arn:" ++ List.replicate 1677721 63 ++ str ":iam::000000000000:role"
      = arnOf (List.replicate 1677721 63) (str "iam") [] (str "000000000000") (str "role") :=
    arnOf_partition _ _ _ _ _ _ rfl
  have c : arnDelimiter ∉ List.replicate 1677721 (63 : Byte) := not_mem_replicate (by decide) _
  refine ⟨⟨rfl, rfl, by decide, by decide⟩, rfl, ?_, ?_, by decide, ?_⟩
  · rw [e]
    exact parse_arnOf _ _ _ _ _ c (by decide) (by decide) (by decide)
  · rw [e]
    exact validString_arnOf (validString_replicate_ascii 63 (by decide) _) (by decide)
      (by decide) (by decide) (by decide)
  · rw [e]
    exact arnLike_arnOf_error1 (str "aws") (str "iam") [] (str "111111111111") (str "role")
      _ _ _ _ _ (by decide) (by decide) (by decide) (by decide) c (by decide) (by decide)
      (by decide) compile_quests_large

set_option maxRecDepth 100000 in
/-- C8, counterexample: three patterns without wildcard for which the result
is not `v = p`. First, a string that is not valid UTF-8 (resource 0xFF) is not
matched by itself: its sanitized resource does not compile. Second, the
pattern whose resource is U+FFFD (bytes EF BF BD) matches the different value
whose resource is the byte 0xFF, because an invalid byte of the text reads as
U+FFFD. Third, the ASCII string whose resource is 33554433 characters `a` is
not matched by itself: its sanitized resource has more runes than the parser
of `regexp` accepts. -/
theorem ArnLike_literal_not_equality :
    ((∀ b ∈ str "arn:aws:s3:::" ++ [255], isWildcard b = false) ∧
        parse (str "arn:aws:s3:::" ++ [255])
          = .ok [str "arn", str "aws", str "s3", [], [], [255]] ∧
        ArnLike (str "arn:aws:s3:::" ++ [255]) (str "arn:aws:s3:::" ++ [255])
          = some (false, some (.compile [94, 255, 36] ⟨.invalidUTF8, [255, 36]⟩))) ∧
      ((∀ b ∈ str "arn:aws:s3:::" ++ [239, 191, 189], isWildcard b = false) ∧
        parse (str "arn:aws:s3:::" ++ [239, 191, 189])
          = .ok [str "arn", str "aws", str "s3", [], [], [239, 191, 189]] ∧
        str "arn:aws:s3:::" ++ [255] ≠ str "arn:aws:s3:::" ++ [239, 191, 189] ∧
        ArnLike (str "arn:aws:s3:::" ++ [255]) (str "arn:aws:s3:::" ++ [239, 191, 189])
          = some (true, none)) ∧
      ((∀ b ∈ str "arn:aws:iam::000000000000:" ++ List.replicate 33554433 97,
          isWildcard b = false) ∧
        parse (str "arn:aws:iam::000000000000:" ++ List.replicate 33554433 97)
          = .ok [str "arn", str "aws", str "iam", [], str "000000000000",
              List.replicate 33554433 97] ∧
        utf8.ValidString (str "arn:aws:iam::000000000000:" ++ List.replicate 33554433 97)
          = true ∧
        ArnLike (str "arn:aws:iam::000000000000:" ++ List.replicate 33554433 97)
            (str "arn:aws:iam::000000000000:" ++ List.replicate 33554433 97)
          = some (false, some (.compile (prepared (List.replicate 33554433 97))
              ⟨.large, prepared (List.replicate 33554433 97)⟩))) :=
  ⟨⟨by decide, rfl, by decide⟩, ⟨by decide, rfl, by decide, by decide⟩,
    ⟨not_wildcard_resource _ (not_wildcard_replicate _), parse_resource _,
      validString_resource _ (validString_replicate_ascii 97 (by decide) _),
      arnLike_resource_error _ _ compile_literal_large⟩⟩

/-- C12, counterexample: a pattern with `**` and the same pattern with that
`**` written `*` that give different results on the same value. The resource
of the first is `**` followed by 1677719 characters `?`; its sanitized form is
too large for the parser of `regexp`, and `ArnLike` returns false and the
compilation error. The resource of the second is `*` followed by the same
1677719 characters `?`; it compiles and matches, and `ArnLike` returns
`(true, nil)`. -/
theorem ArnLike_repeated_star_differs :
    ArnLike (str "arn:aws:iam::000000000000:role/some-role")
        (str "arn:aws:iam::000000000000:" ++ str "**" ++ List.replicate 1677719 63)
      = some (false, some (.compile (prepared (str "**" ++ List.replicate 1677719 63))
          ⟨.large, prepared (str "**" ++ List.replicate 1677719 63)⟩)) ∧
    ArnLike (str "arn:aws:iam::000000000000:role/some-role")
        (str "arn:aws:iam::000000000000:" ++ str "*" ++ List.replicate 1677719 63)
      = some (true, none) ∧
    outcome (ArnLike (str "arn:aws:iam::000000000000:role/some-role")
        (str "arn:aws:iam::000000000000:" ++ str "**" ++ List.replicate 1677719 63))
      ≠ outcome (ArnLike (str "arn:aws:iam::000000000000:role/some-role")
        (str "arn:aws:iam::000000000000:" ++ str "*" ++ List.replicate 1677719 63)) := by
  have e2 : str "arn:aws:iam::000000000000:" ++ str "**" ++ List.replicate 1677719 63
      = str "arn:aws:iam::000000000000:" ++ (42 :: 42 :: List.replicate 1677719 63) := by
    rw [List.append_assoc]
    rfl
  have e1 : str "arn:aws:iam::000000000000:" ++ str "*" ++ List.replicate 1677719 63
      = str "arn:aws:iam::000000000000:" ++ (42 :: List.replicate 1677719 63) := by
    rw [List.append_assoc]
    rfl
  have e0 : str "arn:aws:iam::000000000000:role/some-role"
      = str "arn:aws:iam::000000000000:" ++ str "role/some-role" := by decide
  have e3 : str "**" ++ List.replicate 1677719 63
      = (42 : Byte) :: 42 :: List.replicate 1677719 63 := rfl
  have h2 := arnLike_resource_error (str "role/some-role") _ compile_star_star_quests_large
  have h1 := arnLike_resource_compiles (str "role/some-role") _ compiles_star_quests
  rw [sectionMatch_star_quests] at h1
  rw [e0, e2, e1, e3, h2, h1]
  exact ⟨rfl, by decide, by decide⟩

/-- C13, counterexample: the resource of the value contains a colon and the
resource of the pattern is `ab`, yet the result is not `(false, nil)`. In the
first pair the partition of the pattern is the byte 0xFF, which does not
compile; in the second the value does not start with `arn:`; in the third the
pattern is ASCII and its partition is 1677721 characters `?`, too large for
the parser of `regexp`. The three results are `(false, error)`. -/
theorem ArnLike_resource_colon_error :
    (5 < (str "arn:aws:s3:::a:b").count arnDelimiter ∧
        parse (str "arn:" ++ [255] ++ str ":*:::ab")
          = .ok [str "arn", [255], str "*", [], [], str "ab"] ∧
        ArnLike (str "arn:aws:s3:::a:b") (str "arn:" ++ [255] ++ str ":*:::ab")
          = some (false, some (.compile [94, 255, 36] ⟨.invalidUTF8, [255, 36]⟩))) ∧
      (5 < (str "nar:aws:s3:::a:b").count arnDelimiter ∧
        parse (str "arn:**:s3:::ab") = .ok [str "arn", str "**", str "s3", [], [], str "ab"] ∧
        ArnLike (str "nar:aws:s3:::a:b") (str "arn:**:s3:::ab")
          = some (false, some (.parseArn .invalidPrefix))) ∧
      (strings.HasPrefix (str "arn:aws:s3:::a:b") arnPrefix = true ∧
        5 < (str "arn:aws:s3:::a:b").count arnDelimiter ∧
        parse (str "arn:" ++ List.replicate 1677721 63 ++ str ":s3:::ab")
          = .ok [str "arn", List.replicate 1677721 63, str "s3", [], [], str "ab"] ∧
        utf8.ValidString (str "arn:" ++ List.replicate 1677721 63 ++ str ":s3:::ab") = true ∧
        ArnLike (str "arn:aws:s3:::a:b")
            (str "arn:" ++ List.replicate 1677721 63 ++ str ":s3:::ab")
          = some (false, some (.compile (prepared (List.replicate 1677721 63))
              ⟨.large, prepared (List.replicate 1677721 63)⟩))) := by
  have e : str "arn:" ++ List.replicate 1677721 63 ++ str ":s3:::ab"
      = arnOf (List.replicate 1677721 63) (str "s3") [] [] (str "ab") :=
    arnOf_partition _ _ _ _ _ _ rfl
  have c : arnDelimiter ∉ List.replicate 1677721 (63 : Byte) := not_mem_replicate (by decide) _
  refine ⟨⟨by decide, rfl, by decide⟩, ⟨by decide, rfl, by decide⟩,
    by decide, by decide, ?_, ?_, ?_⟩
  · rw [e]
    exact parse_arnOf _ _ _ _ _ c (by decide) (by decide) (by decide)
  · rw [e]
    exact validString_arnOf (validString_replicate_ascii 63 (by decide) _) (by decide)
      (by decide) (by decide) (by decide)
  · rw [e]
    exact arnLike_arnOf_error1 (str "aws") (str "s3") [] [] (str "a:b")
      _ _ _ _ _ (by decide) (by decide) (by decide) (by decide) c (by decide) (by decide)
      (by decide) compile_quests_large

/-- C15, counterexample: four pairs for which the result is not whether the
resource of the value starts with `L`. The literal 0xFF is a prefix of the
value but its sanitized form does not compile; the literal `ro` is a prefix of
`ro`, newline, `le` but `.*` stops at the newline; the literal U+FFFD is not
a prefix of the one-byte value 0xFF but matches it; the ASCII literal of
33554433 characters `a` is a prefix of the value but has more runes than the
parser of `regexp` accepts. -/
theorem ArnLike_trailing_star_not_prefix :
    (([255] : GoString) <+: [255, 97] ∧
        ArnLike (str "arn:aws:iam::000000000000:" ++ [255, 97])
            (str "arn:aws:iam::000000000000:" ++ [255] ++ str "*")
          = some (false, some (.compile [94, 255, 46, 42, 36]
              ⟨.invalidUTF8, [255, 46, 42, 36]⟩))) ∧
      (str "ro" <+: str "ro\nle" ∧
        ArnLike (str "arn:aws:iam::000000000000:" ++ str "ro\nle")
            (str "arn:aws:iam::000000000000:" ++ str "ro" ++ str "*")
          = some (false, none)) ∧
      (¬ ([239, 191, 189] : GoString) <+: [255] ∧
        ArnLike (str "arn:aws:iam::000000000000:" ++ [255])
            (str "arn:aws:iam::000000000000:" ++ [239, 191, 189] ++ str "*")
          = some (true, none)) ∧
      (utf8.ValidString (List.replicate 33554433 97) = true ∧
        (∀ b ∈ List.replicate 33554433 (97 : Byte), isWildcard b = false) ∧
        List.replicate 33554433 (97 : Byte) <+: List.replicate 33554433 97 ∧
        ArnLike (str "arn:aws:iam::000000000000:" ++ List.replicate 33554433 97)
            (str "arn:aws:iam::000000000000:" ++ List.replicate 33554433 97 ++ str "*")
          = some (false, some (.compile (prepared (List.replicate 33554433 97 ++ [42]))
              ⟨.large, prepared (List.replicate 33554433 97 ++ [42])⟩))) := by
  have e : str "arn:aws:iam::000000000000:" ++ List.replicate 33554433 97 ++ str "*"
      = str "arn:aws:iam::000000000000:" ++ (List.replicate 33554433 97 ++ [42]) := by
    rw [List.append_assoc]
    rfl
  refine ⟨⟨by decide, by decide⟩, ⟨by decide, by decide⟩, ⟨by decide, by decide⟩,
    validString_replicate_ascii 97 (by decide) _, not_wildcard_replicate _,
    List.prefix_refl _, ?_⟩
  rw [e]
  exact arnLike_resource_error _ _ compile_literal_star_large

end Arnlike
